import Mathlib

/-!
# Nodeviz pathfinding engine — shallow embedding and verification

This file embeds the algorithm execution engine of the Nodeviz graph/pathfinding
visualizer (the TypeScript sources `algorithms.ts` and `graphUtils.ts`) into Lean 4
and proves properties of the embedded code.

Modelling conventions:
* JavaScript numbers are modelled as rationals (`ℚ`).
* `Math.sqrt` is modelled by an executable rational square root (`ratSqrt`,
  exact on perfect squares; JavaScript's floating-point square root is likewise
  exact there, and no result in this file depends on its value elsewhere).
* The `onStep` callback is modelled by additionally returning the list of step
  results in emission order, so every algorithm returns
  `AlgorithmResult × List AlgorithmStepResult`.
* `performance.now()` (wall-clock time) is outside the embedding; the
  `executionTime` field is fixed to `0`.
* The JavaScript `Set`/`Map` become an insertion-ordered list (`visited`) and an
  association list (`costSoFar`).
* `Array.prototype.sort` is a stable sort; it is modelled by `List.insertionSort`,
  which is also stable, hence produces the identical list.
* The `cameFrom` map is written by the source but never read to produce any
  output (results are built from the path carried in each queue item, and
  `reconstructPath` is not called by any of the four algorithms); it is omitted.
* String-typed union values (`AlgorithmType`, `HeuristicType`) are modelled as
  `String`, keeping the runtime behaviour of the dispatch `switch` and of
  `calculateHeuristic` on out-of-union values.
-/

set_option maxRecDepth 40000

namespace Nodeviz

/-- Role tag of a node (`Node.type` in the source). -/
inductive NodeType where
  | default | start | goal | visited | path
deriving DecidableEq, Repr

/-- Cosmetic shape tag of a node. -/
inductive NodeShape where
  | circle | square
deriving DecidableEq, Repr

/-- Kind of an edge (`Edge.type` in the source): `default` and `path` are
directed, `undirected` is traversable both ways. -/
inductive EdgeType where
  | default | path | undirected
deriving DecidableEq, Repr

/-- A graph node (interface `Node` in `graphUtils.ts`). -/
structure Node where
  id : String
  x : ℚ
  y : ℚ
  label : Option String
  type : NodeType
  shape : Option NodeShape
deriving DecidableEq, Repr

/-- A graph edge (interface `Edge` in `graphUtils.ts`). -/
structure Edge where
  id : String
  source : String
  target : String
  weight : ℚ
  type : EdgeType
deriving DecidableEq, Repr

/-- A graph (interface `Graph` in `graphUtils.ts`). -/
structure Graph where
  nodes : List Node
  edges : List Edge
deriving DecidableEq, Repr

/-- Executable natural square root (floor), used to model `Math.sqrt`. -/
def natSqrt (n : ℕ) : ℕ :=
  ((List.range (n + 1)).filter fun k => k * k ≤ n).length - 1

/-- Model of `Math.sqrt` on rationals: exact on perfect squares (every use in
this file), floor-like elsewhere. -/
def ratSqrt (q : ℚ) : ℚ :=
  mkRat (natSqrt q.num.toNat) (natSqrt q.den)

/-- `manhattanDistance` from `graphUtils.ts`. -/
def manhattanDistance (node1 node2 : Node) : ℚ :=
  |node1.x - node2.x| + |node1.y - node2.y|

/-- `euclideanDistance` from `graphUtils.ts`. -/
def euclideanDistance (node1 node2 : Node) : ℚ :=
  ratSqrt ((node1.x - node2.x) * (node1.x - node2.x) +
           (node1.y - node2.y) * (node1.y - node2.y))

/-- The matching predicate used by `findEdge`. -/
def findEdgePred (sourceId targetId : String) (e : Edge) : Prop :=
  (e.source = sourceId ∧ e.target = targetId) ∨
  (e.type = EdgeType.undirected ∧ e.source = targetId ∧ e.target = sourceId)

instance (sourceId targetId : String) (e : Edge) :
    Decidable (findEdgePred sourceId targetId e) := by
  unfold findEdgePred; infer_instance

/-- `findEdge` from `graphUtils.ts`: first edge connecting `sourceId → targetId`
directly, or an undirected edge between `targetId` and `sourceId`. -/
def findEdge (graph : Graph) (sourceId targetId : String) : Option Edge :=
  graph.edges.find? fun e => decide (findEdgePred sourceId targetId e)

/-- The adjacency entries of `nodeId` contributed by a list of edges, in edge
order: the forward entry when `nodeId` is the edge's source, then the reverse
entry when the edge is undirected and `nodeId` is its target. -/
def adjacencyEntries : List Edge → String → List (String × ℚ)
  | [], _ => []
  | e :: es, nodeId =>
      (if e.source = nodeId then [(e.target, e.weight)] else []) ++
      (if e.type = EdgeType.undirected ∧ e.target = nodeId then [(e.source, e.weight)] else []) ++
      adjacencyEntries es nodeId

/-- `getNeighbors` from `algorithms.ts`.  (In the source the entries are pushed
into an adjacency list keyed by `nodeId`; collecting them in edge order is the
same list.  For a `nodeId` absent from the graph the source returns `[]` via
`adjacencyList[nodeId] || []`, which this definition also does provided edges
reference graph nodes.) -/
def getNeighbors (graph : Graph) (nodeId : String) : List (String × ℚ) :=
  adjacencyEntries graph.edges nodeId

/-- `calculateHeuristic` from `algorithms.ts` (with the `HeuristicType` union
modelled as `String`, keeping the `return 0` fallback). -/
def calculateHeuristic (node goalNode : Node) (heuristicType : String) : ℚ :=
  if heuristicType = "euclidean" then euclideanDistance node goalNode
  else if heuristicType = "manhattan" then manhattanDistance node goalNode
  else 0

/-- Interface `QueueItem` from `algorithms.ts`. -/
structure QueueItem where
  nodeId : String
  path : List String
  pathEdges : List String
  cost : ℚ
  priority : ℚ
deriving DecidableEq, Repr

/-- Interface `AlgorithmResult` from `algorithms.ts` (`executionTime` fixed to 0,
see the header). -/
structure AlgorithmResult where
  path : List String
  pathEdges : List String
  pathLength : ℕ
  pathCost : ℚ
  nodesVisited : ℕ
  executionTime : ℚ
deriving DecidableEq, Repr

/-- Interface `AlgorithmStepResult` from `algorithms.ts`. -/
structure AlgorithmStepResult where
  currentNodeId : Option String
  visited : List String
  path : List String
  pathEdges : List String
  frontier : List String
  isComplete : Bool
deriving DecidableEq, Repr

/-- The all-zero `AlgorithmResult` the source builds literally in several
places. -/
def emptyResult : AlgorithmResult :=
  { path := [], pathEdges := [], pathLength := 0, pathCost := 0,
    nodesVisited := 0, executionTime := 0 }

/-- `Map.get` on the `costSoFar` association list (first matching key). -/
def lookupCost : List (String × ℚ) → String → Option ℚ
  | [], _ => none
  | (k, v) :: rest, x => if k = x then some v else lookupCost rest x

/-- `Map.set` on the `costSoFar` association list (replace or append). -/
def setCost : List (String × ℚ) → String → ℚ → List (String × ℚ)
  | [], x, v => [(x, v)]
  | (k, w) :: rest, x, v =>
      if k = x then (k, v) :: rest else (k, w) :: setCost rest x v

/-- The mutable state shared by the four search loops. -/
structure SearchState where
  frontier : List QueueItem
  visited : List String
  costSoFar : List (String × ℚ)
  nodesVisited : ℕ
  steps : List AlgorithmStepResult
deriving Repr

/-- The three points where the four algorithm bodies differ: how the frontier
is sorted before popping, which end is popped, and how one neighbor of the node
being settled is processed. -/
structure AlgoSpec where
  sortFrontier : List QueueItem → List QueueItem
  popBack : Bool
  expandOne : List (String × ℚ) → List String → QueueItem → String × ℚ →
              List (String × ℚ) × List QueueItem

/-- Pop the next queue item: `Array.shift()` (front) or `Array.pop()` (back). -/
def popNext (popBack : Bool) (l : List QueueItem) :
    Option (QueueItem × List QueueItem) :=
  if popBack then
    match l.getLast? with
    | some x => some (x, l.dropLast)
    | none => none
  else
    match l with
    | [] => none
    | x :: rest => some (x, rest)

/-- The neighbor loop at the bottom of each algorithm body: process the
neighbors in order, threading `costSoFar` and collecting pushed items. -/
def expandAll (spec : AlgoSpec) (csf : List (String × ℚ)) (visited : List String)
    (item : QueueItem) : List (String × ℚ) → List (String × ℚ) × List QueueItem
  | [] => (csf, [])
  | nw :: rest =>
      let one := spec.expandOne csf visited item nw
      let more := expandAll spec one.1 visited item rest
      (more.1, one.2 ++ more.2)

/-- The result and final (terminal) step emitted when the frontier empties
without reaching the goal. -/
def exhaustOutput (st : SearchState) :
    AlgorithmResult × List AlgorithmStepResult :=
  ({ path := [], pathEdges := [], pathLength := 0, pathCost := 0,
     nodesVisited := st.nodesVisited, executionTime := 0 },
   st.steps ++ [{ currentNodeId := none, visited := st.visited, path := [],
                  pathEdges := [], frontier := [], isComplete := true }])

/-- The result and final (terminal) step emitted when the popped item is the
goal: the result carries the item's path and cost, and the visited set is the
one from before the pop (the goal is never marked visited). -/
def goalOutput (item : QueueItem) (rest : List QueueItem) (st : SearchState) :
    AlgorithmResult × List AlgorithmStepResult :=
  ({ path := item.path, pathEdges := item.pathEdges,
     pathLength := item.path.length, pathCost := item.cost,
     nodesVisited := st.nodesVisited, executionTime := 0 },
   st.steps ++ [{ currentNodeId := some item.nodeId, visited := st.visited,
                  path := item.path, pathEdges := item.pathEdges,
                  frontier := rest.map QueueItem.nodeId, isComplete := true }])

/-- The state after settling the popped item: mark it visited, count it, emit
its (non-terminal) step, then expand its neighbors. -/
def settleState (spec : AlgoSpec) (graph : Graph) (item : QueueItem)
    (rest : List QueueItem) (st : SearchState) : SearchState :=
  let visited2 := st.visited ++ [item.nodeId]
  let ex := expandAll spec st.costSoFar visited2 item
              (getNeighbors graph item.nodeId)
  { frontier := rest ++ ex.2, visited := visited2, costSoFar := ex.1,
    nodesVisited := st.nodesVisited + 1,
    steps := st.steps ++
      [{ currentNodeId := some item.nodeId, visited := visited2,
         path := item.path, pathEdges := item.pathEdges,
         frontier := rest.map QueueItem.nodeId, isComplete := false }] }

/-- The shared `while (frontier.length > 0)` loop of the four algorithms,
with explicit fuel (`none` on fuel exhaustion; a sufficient fuel is computed
below and proved sufficient). -/
def stepLoop (spec : AlgoSpec) (graph : Graph) (goalNodeId : String) :
    ℕ → SearchState → Option (AlgorithmResult × List AlgorithmStepResult)
  | 0, _ => none
  | fuel + 1, st =>
    match popNext spec.popBack (spec.sortFrontier st.frontier) with
    | none => some (exhaustOutput st)
    | some (item, rest) =>
        if item.nodeId = goalNodeId then
          some (goalOutput item rest st)
        else if item.nodeId ∈ st.visited then
          stepLoop spec graph goalNodeId fuel { st with frontier := rest }
        else
          stepLoop spec graph goalNodeId fuel (settleState spec graph item rest st)

/-- Both endpoints of every edge in a list, in order. -/
def endpointIds : List Edge → List String
  | [] => []
  | e :: es => e.source :: e.target :: endpointIds es

/-- Every node id mentioned by the run: the start id, the node ids, and both
endpoints of every edge.  Only used to compute a sufficient fuel. -/
def allIds (graph : Graph) (startNodeId : String) : List String :=
  startNodeId :: (graph.nodes.map Node.id ++ endpointIds graph.edges)

/-- A fuel large enough for `stepLoop` to terminate (proved below). -/
def fuel0 (graph : Graph) (startNodeId : String) : ℕ :=
  (1 + 2 * graph.edges.length) * ((allIds graph startNodeId).dedup).length + 2

/-- The initial state of every algorithm: the start item in the frontier. -/
def initState (startNodeId : String) (pri : ℚ) (csf : List (String × ℚ)) :
    SearchState :=
  { frontier := [{ nodeId := startNodeId, path := [startNodeId], pathEdges := [],
                   cost := 0, priority := pri }],
    visited := [], costSoFar := csf, nodesVisited := 0, steps := [] }

/-- The `pathEdges` extension common to all four neighbor loops:
append the id of `findEdge(graph, nodeId, neighborId)` when it exists. -/
def extendPathEdges (graph : Graph) (item : QueueItem) (neighborId : String) :
    List String :=
  match findEdge graph item.nodeId neighborId with
  | some e => item.pathEdges ++ [e.id]
  | none => item.pathEdges

/-- The neighbor processing of `bfs` and `dfs`: push any not-yet-visited
neighbor, carrying the extended path, edge path and accumulated cost. -/
def bfsExpandOne (graph : Graph) (csf : List (String × ℚ)) (visited : List String)
    (item : QueueItem) (nw : String × ℚ) : List (String × ℚ) × List QueueItem :=
  if nw.1 ∈ visited then (csf, [])
  else (csf, [{ nodeId := nw.1, path := item.path ++ [nw.1],
                pathEdges := extendPathEdges graph item nw.1,
                cost := item.cost + nw.2, priority := 0 }])

/-- `bfs`: FIFO queue, no sorting. -/
def bfsSpec (graph : Graph) : AlgoSpec :=
  { sortFrontier := id, popBack := false,
    expandOne := fun csf visited item nw => bfsExpandOne graph csf visited item nw }

/-- `dfs`: LIFO stack (pop from the back), no sorting. -/
def dfsSpec (graph : Graph) : AlgoSpec :=
  { sortFrontier := id, popBack := true,
    expandOne := fun csf visited item nw => bfsExpandOne graph csf visited item nw }

/-- The neighbor processing of `dijkstra`: relax on the carried cost plus the
edge weight, pushing whenever the neighbor has no recorded cost or a strictly
lower new cost is found. -/
def dijkstraExpandOne (graph : Graph) (csf : List (String × ℚ))
    (item : QueueItem) (nw : String × ℚ) : List (String × ℚ) × List QueueItem :=
  let newCost := item.cost + nw.2
  let push : Bool :=
    match lookupCost csf nw.1 with
    | none => true
    | some c => decide (newCost < c)
  if push then
    (setCost csf nw.1 newCost,
     [{ nodeId := nw.1, path := item.path ++ [nw.1],
        pathEdges := extendPathEdges graph item nw.1,
        cost := newCost, priority := newCost }])
  else (csf, [])

/-- `dijkstra`: re-sort by accumulated cost ascending before every pop. -/
def dijkstraSpec (graph : Graph) : AlgoSpec :=
  { sortFrontier := fun l => List.insertionSort (fun a b => a.cost ≤ b.cost) l,
    popBack := false,
    expandOne := fun csf _ item nw => dijkstraExpandOne graph csf item nw }

/-- The neighbor processing of `astar`: the new cost is read from the
`costSoFar` entry of the node being settled (`costSoFar.get(nodeId) || 0`),
the cost map is updated before the neighbor node lookup, and the item is
pushed only when the neighbor node exists, with priority `cost + heuristic`. -/
def astarExpandOne (graph : Graph) (goalNode : Node) (heuristicType : String)
    (csf : List (String × ℚ)) (item : QueueItem) (nw : String × ℚ) :
    List (String × ℚ) × List QueueItem :=
  let newCost := (lookupCost csf item.nodeId).getD 0 + nw.2
  let push : Bool :=
    match lookupCost csf nw.1 with
    | none => true
    | some c => decide (newCost < c)
  if push then
    let csf2 := setCost csf nw.1 newCost
    match graph.nodes.find? (fun n => decide (n.id = nw.1)) with
    | some neighborNode =>
        (csf2, [{ nodeId := nw.1, path := item.path ++ [nw.1],
                  pathEdges := extendPathEdges graph item nw.1,
                  cost := newCost,
                  priority := newCost +
                    calculateHeuristic neighborNode goalNode heuristicType }])
    | none => (csf2, [])
  else (csf, [])

/-- `astar`: re-sort by priority (cost + heuristic) ascending before every pop. -/
def astarSpec (graph : Graph) (goalNode : Node) (heuristicType : String) :
    AlgoSpec :=
  { sortFrontier := fun l => List.insertionSort (fun a b => a.priority ≤ b.priority) l,
    popBack := false,
    expandOne := fun csf _ item nw =>
      astarExpandOne graph goalNode heuristicType csf item nw }

/-- `bfs` from `algorithms.ts`; the second component is the list of step
results passed to `onStep`, in order. -/
def bfs (graph : Graph) (startNodeId goalNodeId : String) :
    AlgorithmResult × List AlgorithmStepResult :=
  (stepLoop (bfsSpec graph) graph goalNodeId (fuel0 graph startNodeId)
    (initState startNodeId 0 [])).getD (emptyResult, [])

/-- `dfs` from `algorithms.ts`. -/
def dfs (graph : Graph) (startNodeId goalNodeId : String) :
    AlgorithmResult × List AlgorithmStepResult :=
  (stepLoop (dfsSpec graph) graph goalNodeId (fuel0 graph startNodeId)
    (initState startNodeId 0 [])).getD (emptyResult, [])

/-- `dijkstra` from `algorithms.ts` (`costSoFar` starts at `{start ↦ 0}`). -/
def dijkstra (graph : Graph) (startNodeId goalNodeId : String) :
    AlgorithmResult × List AlgorithmStepResult :=
  (stepLoop (dijkstraSpec graph) graph goalNodeId (fuel0 graph startNodeId)
    (initState startNodeId 0 [(startNodeId, 0)])).getD (emptyResult, [])

/-- The default value of the `heuristicType` parameter of `astar` and
`runAlgorithm` in the source. -/
def defaultHeuristicType : String := "euclidean"

/-- `astar` from `algorithms.ts`: returns the zero result when the start or
goal node is absent; otherwise runs with start priority equal to the start
node's heuristic and `costSoFar` starting at `{start ↦ 0}`. -/
def astar (graph : Graph) (startNodeId goalNodeId : String)
    (heuristicType : String) : AlgorithmResult × List AlgorithmStepResult :=
  match graph.nodes.find? (fun n => decide (n.id = startNodeId)),
        graph.nodes.find? (fun n => decide (n.id = goalNodeId)) with
  | some startNode, some goalNode =>
      (stepLoop (astarSpec graph goalNode heuristicType) graph goalNodeId
        (fuel0 graph startNodeId)
        (initState startNodeId
          (calculateHeuristic startNode goalNode heuristicType)
          [(startNodeId, 0)])).getD (emptyResult, [])
  | _, _ => (emptyResult, [])

/-- `runAlgorithm` from `algorithms.ts`: dispatch on the algorithm kind
(modelled as `String`, keeping the `default` branch of the `switch`). -/
def runAlgorithm (graph : Graph) (startNodeId goalNodeId : String)
    (algorithmType : String) (heuristicType : String) :
    AlgorithmResult × List AlgorithmStepResult :=
  if algorithmType = "bfs" then bfs graph startNodeId goalNodeId
  else if algorithmType = "dfs" then dfs graph startNodeId goalNodeId
  else if algorithmType = "dijkstra" then dijkstra graph startNodeId goalNodeId
  else if algorithmType = "astar" then astar graph startNodeId goalNodeId heuristicType
  else (emptyResult, [])

/-! ## Spec-side relations: traversable steps, walks, reachability -/

/-- One traversable step of weight `w` from `u` to `v`: a directed (or `path`)
edge `u → v`, or an undirected edge between the two, as in §3 of the spec. -/
def Trav (g : Graph) (u v : String) (w : ℚ) : Prop :=
  ∃ e ∈ g.edges, e.weight = w ∧
    ((e.source = u ∧ e.target = v) ∨
     (e.type = EdgeType.undirected ∧ e.target = u ∧ e.source = v))

/-- A traversable path from `u` to `t` through the node list `p` (starting with
`u`, ending with `t`) whose traversed edge weights sum to `c`. -/
inductive Walk (g : Graph) : String → String → List String → ℚ → Prop where
  | single (u : String) : Walk g u u [u] 0
  | cons {u v t : String} {p : List String} {c w : ℚ} :
      Trav g u v w → Walk g v t p c → Walk g u t (u :: p) (w + c)

/-- `v` is reachable from `s` by some traversable path. -/
def Reach (g : Graph) (s v : String) : Prop := ∃ p c, Walk g s v p c

theorem mem_adjacencyEntries_iff {es : List Edge} {u v : String} {w : ℚ} :
    (v, w) ∈ adjacencyEntries es u ↔
      ∃ e ∈ es, e.weight = w ∧
        ((e.source = u ∧ e.target = v) ∨
         (e.type = EdgeType.undirected ∧ e.target = u ∧ e.source = v)) := by
  induction es with
  | nil => simp [adjacencyEntries]
  | cons e es ih =>
      simp only [adjacencyEntries, List.mem_append, ih, List.mem_cons,
        List.mem_ite_nil_right, List.mem_singleton, Prod.mk.injEq]
      aesop

theorem mem_getNeighbors_iff {g : Graph} {u v : String} {w : ℚ} :
    (v, w) ∈ getNeighbors g u ↔ Trav g u v w := by
  unfold getNeighbors Trav
  exact mem_adjacencyEntries_iff

theorem Walk.ne_nil {g : Graph} {u t : String} {p : List String} {c : ℚ}
    (h : Walk g u t p c) : p ≠ [] := by
  cases h <;> simp

theorem Walk.length_pos {g : Graph} {u t : String} {p : List String} {c : ℚ}
    (h : Walk g u t p c) : 1 ≤ p.length := by
  cases h <;> simp

theorem Walk.head_eq {g : Graph} {u t : String} {p : List String} {c : ℚ}
    (h : Walk g u t p c) : ∃ q, p = u :: q := by
  cases h with
  | single => exact ⟨[], rfl⟩
  | cons h1 h2 => exact ⟨_, rfl⟩

/-- Extending a walk by one traversable step at its end. -/
theorem Walk.snoc {g : Graph} {s u v : String} {p : List String} {c w : ℚ}
    (hw : Walk g s u p c) (ht : Trav g u v w) : Walk g s v (p ++ [v]) (c + w) := by
  induction hw with
  | single a =>
      have := Walk.cons ht (Walk.single v)
      simpa [add_comm] using this
  | cons h1 h2 ih =>
      have := Walk.cons h1 (ih ht)
      simpa [add_assoc] using this

theorem Walk.cost_nonneg {g : Graph} (hnn : ∀ e ∈ g.edges, 0 ≤ e.weight)
    {u t : String} {p : List String} {c : ℚ} (h : Walk g u t p c) : 0 ≤ c := by
  induction h with
  | single => exact le_refl 0
  | cons h1 h2 ih =>
      obtain ⟨e, he, hw, _⟩ := h1
      have := hnn e he
      rw [hw] at this
      positivity

/-! ## Association list and neighbor-list lemmas -/

theorem lookupCost_setCost_self (csf : List (String × ℚ)) (x : String) (v : ℚ) :
    lookupCost (setCost csf x v) x = some v := by
  induction csf with
  | nil => simp [setCost, lookupCost]
  | cons kv rest ih =>
      by_cases h : kv.1 = x
      · simp [setCost, lookupCost, h]
      · simp [setCost, lookupCost, h, ih]

theorem lookupCost_setCost_ne (csf : List (String × ℚ)) {x y : String} (v : ℚ)
    (h : y ≠ x) : lookupCost (setCost csf x v) y = lookupCost csf y := by
  induction csf with
  | nil =>
      simp only [setCost, lookupCost]
      rw [if_neg fun hh => h hh.symm]
  | cons kv rest ih =>
      obtain ⟨k, kw⟩ := kv
      simp only [setCost]
      by_cases h1 : k = x
      · rw [if_pos h1]
        simp only [lookupCost]
        have hky : ¬k = y := fun hh => h (h1 ▸ hh ▸ rfl)
        rw [if_neg hky, if_neg hky]
      · rw [if_neg h1]
        simp only [lookupCost]
        by_cases h2 : k = y
        · rw [if_pos h2, if_pos h2]
        · rw [if_neg h2, if_neg h2, ih]

theorem adjacencyEntries_length_le (es : List Edge) (u : String) :
    (adjacencyEntries es u).length ≤ 2 * es.length := by
  induction es with
  | nil => simp [adjacencyEntries]
  | cons e es ih =>
      simp only [adjacencyEntries, List.length_append, List.length_cons]
      have h1 : (if e.source = u then [(e.target, e.weight)] else []).length ≤ 1 := by
        split <;> simp
      have h2 : (if e.type = EdgeType.undirected ∧ e.target = u then
          [(e.source, e.weight)] else []).length ≤ 1 := by
        split <;> simp
      omega

theorem getNeighbors_length_le (g : Graph) (u : String) :
    (getNeighbors g u).length ≤ 2 * g.edges.length :=
  adjacencyEntries_length_le g.edges u

theorem adjacencyEntries_eq_nil {es : List Edge} {u : String}
    (h : ∀ e ∈ es, e.source ≠ u ∧ e.target ≠ u) : adjacencyEntries es u = [] := by
  induction es with
  | nil => rfl
  | cons e es ih =>
      have he := h e (by simp)
      simp only [adjacencyEntries, if_neg he.1,
        if_neg (fun hc : e.type = EdgeType.undirected ∧ e.target = u => he.2 hc.2),
        List.nil_append]
      exact ih fun e' he' => h e' (by simp [he'])

theorem mem_endpointIds {es : List Edge} {e : Edge} (he : e ∈ es) :
    e.source ∈ endpointIds es ∧ e.target ∈ endpointIds es := by
  induction es with
  | nil => simp at he
  | cons e' es' ih =>
      rcases List.mem_cons.mp he with rfl | h
      · simp [endpointIds]
      · have := ih h
        simp only [endpointIds, List.mem_cons]
        exact ⟨Or.inr (Or.inr this.1), Or.inr (Or.inr this.2)⟩

theorem mem_allIds_of_edge {g : Graph} {s : String} {e : Edge} (he : e ∈ g.edges) :
    e.source ∈ allIds g s ∧ e.target ∈ allIds g s := by
  have h2 := mem_endpointIds he
  exact ⟨List.mem_cons_of_mem _ (List.mem_append_right _ h2.1),
         List.mem_cons_of_mem _ (List.mem_append_right _ h2.2)⟩

theorem getNeighbors_eq_nil_of_not_mem_allIds {g : Graph} {s u : String}
    (h : u ∉ allIds g s) : getNeighbors g u = [] := by
  refine adjacencyEntries_eq_nil fun e he => ?_
  have hm := mem_allIds_of_edge (s := s) he
  constructor
  · intro hs; exact h (hs ▸ hm.1)
  · intro ht; exact h (ht ▸ hm.2)

/-! ## popNext, sorting and expandAll lemmas -/

theorem popNext_none_iff (b : Bool) (l : List QueueItem) :
    popNext b l = none ↔ l = [] := by
  cases b with
  | false => cases l <;> simp [popNext]
  | true =>
      cases l with
      | nil => simp [popNext]
      | cons x xs =>
          have hne : x :: xs ≠ [] := by simp
          simp [popNext, List.getLast?_eq_getLast _ hne]

theorem popNext_perm {b : Bool} {l rest : List QueueItem} {i : QueueItem}
    (h : popNext b l = some (i, rest)) : (i :: rest).Perm l := by
  cases b with
  | false =>
      cases l with
      | nil => cases h
      | cons x xs =>
          simp only [popNext, Option.some.injEq, Prod.mk.injEq] at h
          obtain ⟨rfl, rfl⟩ := h
          exact List.Perm.refl _
  | true =>
      cases l with
      | nil => cases h
      | cons x xs =>
          have hne : x :: xs ≠ [] := by simp
          simp only [popNext, List.getLast?_eq_getLast _ hne, Option.some.injEq,
            if_true, Prod.mk.injEq] at h
          obtain ⟨h1, h2⟩ := h
          have := List.dropLast_append_getLast hne
          rw [h1, h2] at this
          calc (i :: rest).Perm (rest ++ [i]) := (List.perm_append_singleton i rest).symm
            _ = x :: xs := this

theorem popNext_some_of_ne_nil (b : Bool) {l : List QueueItem} (h : l ≠ []) :
    ∃ i rest, popNext b l = some (i, rest) := by
  cases hp : popNext b l with
  | none => exact absurd ((popNext_none_iff b l).mp hp) h
  | some pr =>
      obtain ⟨i, rest⟩ := pr
      exact ⟨i, rest, rfl⟩

instance : IsTotal QueueItem (fun a b => a.cost ≤ b.cost) :=
  ⟨fun a b => le_total a.cost b.cost⟩

instance : IsTrans QueueItem (fun a b => a.cost ≤ b.cost) :=
  ⟨fun _ _ _ h1 h2 => le_trans h1 h2⟩

instance : IsTotal QueueItem (fun a b => a.priority ≤ b.priority) :=
  ⟨fun a b => le_total a.priority b.priority⟩

instance : IsTrans QueueItem (fun a b => a.priority ≤ b.priority) :=
  ⟨fun _ _ _ h1 h2 => le_trans h1 h2⟩

theorem expandAll_snd_length_le (spec : AlgoSpec) (csf : List (String × ℚ))
    (visited : List String) (item : QueueItem)
    (hone : ∀ csf' nw, (spec.expandOne csf' visited item nw).2.length ≤ 1) :
    ∀ ns : List (String × ℚ),
      (expandAll spec csf visited item ns).2.length ≤ ns.length := by
  intro ns
  induction ns generalizing csf with
  | nil => simp [expandAll]
  | cons nw rest ih =>
      simp only [expandAll, List.length_append, List.length_cons]
      have h1 := hone csf nw
      have h2 := ih (spec.expandOne csf visited item nw).1
      omega

/-! ## Termination: a measure that strictly decreases at every loop iteration -/

/-- The termination measure of the search loop: each settle can push at most
`2·|edges|` items while removing one still-unsettled id from the universe, and
every other iteration shrinks the frontier. -/
def loopMeasure (g : Graph) (s : String) (st : SearchState) : ℕ :=
  (1 + 2 * g.edges.length) *
    ((allIds g s).toFinset \ st.visited.toFinset).card +
  st.frontier.length

theorem loopMeasure_stale {g : Graph} {s : String} {st : SearchState}
    {spec : AlgoSpec} {item : QueueItem} {rest : List QueueItem}
    (hsort : (spec.sortFrontier st.frontier).Perm st.frontier)
    (hpop : popNext spec.popBack (spec.sortFrontier st.frontier) = some (item, rest)) :
    loopMeasure g s { st with frontier := rest } < loopMeasure g s st := by
  have hperm := (popNext_perm hpop).trans hsort
  have hlen : rest.length + 1 = st.frontier.length := by
    simpa using hperm.length_eq
  unfold loopMeasure
  simp only
  omega

theorem loopMeasure_settle {g : Graph} {s : String} {st : SearchState}
    {spec : AlgoSpec} {item : QueueItem} {rest : List QueueItem}
    (hsort : (spec.sortFrontier st.frontier).Perm st.frontier)
    (hone : ∀ csf vis it nw, (spec.expandOne csf vis it nw).2.length ≤ 1)
    (hpop : popNext spec.popBack (spec.sortFrontier st.frontier) = some (item, rest))
    (hnv : item.nodeId ∉ st.visited) :
    loopMeasure g s (settleState spec g item rest st) < loopMeasure g s st := by
  have hperm := (popNext_perm hpop).trans hsort
  have hlen : rest.length + 1 = st.frontier.length := by
    simpa using hperm.length_eq
  have hsd : (allIds g s).toFinset \ (st.visited ++ [item.nodeId]).toFinset =
      ((allIds g s).toFinset \ st.visited.toFinset).erase item.nodeId := by
    ext a
    simp only [Finset.mem_sdiff, List.mem_toFinset, List.mem_append,
      List.mem_singleton, Finset.mem_erase]
    tauto
  by_cases hid : item.nodeId ∈ allIds g s
  · -- the settled id is removed from the unsettled universe
    have hmem : item.nodeId ∈ (allIds g s).toFinset \ st.visited.toFinset := by
      rw [Finset.mem_sdiff, List.mem_toFinset, List.mem_toFinset]
      exact ⟨hid, hnv⟩
    have hcard : (((allIds g s).toFinset \ st.visited.toFinset).erase item.nodeId).card
        = ((allIds g s).toFinset \ st.visited.toFinset).card - 1 :=
      Finset.card_erase_of_mem hmem
    have hcpos : 1 ≤ ((allIds g s).toFinset \ st.visited.toFinset).card :=
      Finset.card_pos.mpr ⟨_, hmem⟩
    have hpush : (expandAll spec st.costSoFar (st.visited ++ [item.nodeId]) item
        (getNeighbors g item.nodeId)).2.length ≤ 2 * g.edges.length := by
      calc (expandAll spec st.costSoFar (st.visited ++ [item.nodeId]) item
              (getNeighbors g item.nodeId)).2.length
          ≤ (getNeighbors g item.nodeId).length :=
            expandAll_snd_length_le spec _ _ _ (fun csf' nw => hone csf' _ item nw) _
        _ ≤ 2 * g.edges.length := getNeighbors_length_le g item.nodeId
    have hAc : (1 + 2 * g.edges.length) *
          (((allIds g s).toFinset \ st.visited.toFinset).card - 1) +
          (1 + 2 * g.edges.length) =
        (1 + 2 * g.edges.length) *
          ((allIds g s).toFinset \ st.visited.toFinset).card := by
      have h1 : ((allIds g s).toFinset \ st.visited.toFinset).card - 1 + 1 =
          ((allIds g s).toFinset \ st.visited.toFinset).card :=
        Nat.succ_pred_eq_of_pos hcpos
      calc (1 + 2 * g.edges.length) *
              (((allIds g s).toFinset \ st.visited.toFinset).card - 1) +
              (1 + 2 * g.edges.length)
          = (1 + 2 * g.edges.length) *
              ((((allIds g s).toFinset \ st.visited.toFinset).card - 1) + 1) := by ring
        _ = _ := by rw [h1]
    unfold loopMeasure settleState
    simp only [List.length_append, hsd, hcard]
    linarith [hpush, hlen, hAc]
  · -- settling an id no edge mentions: no pushes at all
    have hnb : getNeighbors g item.nodeId = [] :=
      getNeighbors_eq_nil_of_not_mem_allIds hid
    have hsub : (((allIds g s).toFinset \ st.visited.toFinset).erase item.nodeId).card ≤
        ((allIds g s).toFinset \ st.visited.toFinset).card :=
      Finset.card_le_card (Finset.erase_subset _ _)
    have hmul : (1 + 2 * g.edges.length) *
          (((allIds g s).toFinset \ st.visited.toFinset).erase item.nodeId).card ≤
        (1 + 2 * g.edges.length) *
          ((allIds g s).toFinset \ st.visited.toFinset).card :=
      Nat.mul_le_mul_left _ hsub
    unfold loopMeasure settleState
    rw [hnb]
    simp only [expandAll, List.length_append, List.length_nil, hsd]
    linarith [hlen, hmul]

/-- With fuel exceeding the measure, the loop cannot run out of fuel. -/
theorem stepLoop_isSome {spec : AlgoSpec} {g : Graph} {t s : String}
    (hsort : ∀ l, (spec.sortFrontier l).Perm l)
    (hone : ∀ csf vis it nw, (spec.expandOne csf vis it nw).2.length ≤ 1) :
    ∀ (fuel : ℕ) (st : SearchState), loopMeasure g s st < fuel →
      (stepLoop spec g t fuel st).isSome := by
  intro fuel
  induction fuel with
  | zero => intro st h; omega
  | succ n ih =>
      intro st h
      cases hpop : popNext spec.popBack (spec.sortFrontier st.frontier) with
      | none => simp [stepLoop, hpop]
      | some pr =>
          obtain ⟨item, rest⟩ := pr
          simp only [stepLoop, hpop]
          by_cases hg : item.nodeId = t
          · simp [hg]
          · rw [if_neg hg]
            by_cases hv : item.nodeId ∈ st.visited
            · rw [if_pos hv]
              exact ih _ (by
                have := loopMeasure_stale (g := g) (s := s) (hsort st.frontier) hpop
                omega)
            · rw [if_neg hv]
              exact ih _ (by
                have := loopMeasure_settle (g := g) (s := s) (hsort st.frontier) hone hpop hv
                omega)

/-! ## Branch lemmas and the master induction principle for the loop -/

theorem stepLoop_pop_none {spec : AlgoSpec} {g : Graph} {t : String} {fuel : ℕ}
    {st : SearchState}
    (h : popNext spec.popBack (spec.sortFrontier st.frontier) = none) :
    stepLoop spec g t (fuel + 1) st = some (exhaustOutput st) := by
  simp [stepLoop, h]

theorem stepLoop_pop_goal {spec : AlgoSpec} {g : Graph} {t : String} {fuel : ℕ}
    {st : SearchState} {item : QueueItem} {rest : List QueueItem}
    (hpop : popNext spec.popBack (spec.sortFrontier st.frontier) = some (item, rest))
    (hg : item.nodeId = t) :
    stepLoop spec g t (fuel + 1) st = some (goalOutput item rest st) := by
  simp [stepLoop, hpop, hg]

theorem stepLoop_pop_stale {spec : AlgoSpec} {g : Graph} {t : String} {fuel : ℕ}
    {st : SearchState} {item : QueueItem} {rest : List QueueItem}
    (hpop : popNext spec.popBack (spec.sortFrontier st.frontier) = some (item, rest))
    (hg : item.nodeId ≠ t) (hv : item.nodeId ∈ st.visited) :
    stepLoop spec g t (fuel + 1) st =
      stepLoop spec g t fuel { st with frontier := rest } := by
  simp only [stepLoop, hpop]
  rw [if_neg hg, if_pos hv]

theorem stepLoop_pop_settle {spec : AlgoSpec} {g : Graph} {t : String} {fuel : ℕ}
    {st : SearchState} {item : QueueItem} {rest : List QueueItem}
    (hpop : popNext spec.popBack (spec.sortFrontier st.frontier) = some (item, rest))
    (hg : item.nodeId ≠ t) (hv : item.nodeId ∉ st.visited) :
    stepLoop spec g t (fuel + 1) st =
      stepLoop spec g t fuel (settleState spec g item rest st) := by
  simp only [stepLoop, hpop]
  rw [if_neg hg, if_neg hv]

/-- Master induction principle: an invariant `P` preserved by the two looping
branches and implying the conclusion `Q` at both exits yields `Q` of the
output, together with termination. -/
theorem stepLoop_induction (spec : AlgoSpec) (g : Graph) (t s : String)
    (P : SearchState → Prop)
    (Q : AlgorithmResult × List AlgorithmStepResult → Prop)
    (hsort : ∀ l, (spec.sortFrontier l).Perm l)
    (hone : ∀ csf vis it nw, (spec.expandOne csf vis it nw).2.length ≤ 1)
    (hexhaust : ∀ st, P st →
      popNext spec.popBack (spec.sortFrontier st.frontier) = none →
      Q (exhaustOutput st))
    (hgoal : ∀ st item rest, P st →
      popNext spec.popBack (spec.sortFrontier st.frontier) = some (item, rest) →
      item.nodeId = t → Q (goalOutput item rest st))
    (hstale : ∀ st item rest, P st →
      popNext spec.popBack (spec.sortFrontier st.frontier) = some (item, rest) →
      item.nodeId ≠ t → item.nodeId ∈ st.visited → P { st with frontier := rest })
    (hsettle : ∀ st item rest, P st →
      popNext spec.popBack (spec.sortFrontier st.frontier) = some (item, rest) →
      item.nodeId ≠ t → item.nodeId ∉ st.visited →
      P (settleState spec g item rest st)) :
    ∀ (fuel : ℕ) (st : SearchState), loopMeasure g s st < fuel → P st →
      ∃ out, stepLoop spec g t fuel st = some out ∧ Q out := by
  intro fuel
  induction fuel with
  | zero => intro st h; omega
  | succ n ih =>
      intro st h hP
      cases hpop : popNext spec.popBack (spec.sortFrontier st.frontier) with
      | none =>
          exact ⟨exhaustOutput st, stepLoop_pop_none hpop, hexhaust st hP hpop⟩
      | some pr =>
          obtain ⟨item, rest⟩ := pr
          by_cases hg : item.nodeId = t
          · exact ⟨goalOutput item rest st, stepLoop_pop_goal hpop hg,
              hgoal st item rest hP hpop hg⟩
          · by_cases hv : item.nodeId ∈ st.visited
            · have hm := loopMeasure_stale (g := g) (s := s) (hsort st.frontier) hpop
              obtain ⟨out, hout, hQ⟩ := ih { st with frontier := rest }
                (by omega) (hstale st item rest hP hpop hg hv)
              exact ⟨out, (stepLoop_pop_stale hpop hg hv).trans hout, hQ⟩
            · have hm := loopMeasure_settle (g := g) (s := s) (hsort st.frontier)
                hone hpop hv
              obtain ⟨out, hout, hQ⟩ := ih (settleState spec g item rest st)
                (by omega) (hsettle st item rest hP hpop hg hv)
              exact ⟨out, (stepLoop_pop_settle hpop hg hv).trans hout, hQ⟩

/-! ## The four algorithm instances satisfy the generic hypotheses -/

theorem bfsSpec_sort_perm (g : Graph) :
    ∀ l, ((bfsSpec g).sortFrontier l).Perm l := fun l => List.Perm.refl l

theorem dfsSpec_sort_perm (g : Graph) :
    ∀ l, ((dfsSpec g).sortFrontier l).Perm l := fun l => List.Perm.refl l

theorem dijkstraSpec_sort_perm (g : Graph) :
    ∀ l, ((dijkstraSpec g).sortFrontier l).Perm l := fun l =>
  List.perm_insertionSort _ l

theorem astarSpec_sort_perm (g : Graph) (goalNode : Node) (ht : String) :
    ∀ l, ((astarSpec g goalNode ht).sortFrontier l).Perm l := fun l =>
  List.perm_insertionSort _ l

theorem bfsSpec_one (g : Graph) :
    ∀ csf vis it nw, ((bfsSpec g).expandOne csf vis it nw).2.length ≤ 1 := by
  intro csf vis it nw
  simp only [bfsSpec, bfsExpandOne]
  split <;> simp

theorem dfsSpec_one (g : Graph) :
    ∀ csf vis it nw, ((dfsSpec g).expandOne csf vis it nw).2.length ≤ 1 := by
  intro csf vis it nw
  simp only [dfsSpec, bfsExpandOne]
  split <;> simp

theorem dijkstraSpec_one (g : Graph) :
    ∀ csf vis it nw, ((dijkstraSpec g).expandOne csf vis it nw).2.length ≤ 1 := by
  intro csf vis it nw
  simp only [dijkstraSpec, dijkstraExpandOne]
  split <;> simp

theorem astarSpec_one (g : Graph) (goalNode : Node) (ht : String) :
    ∀ csf vis it nw,
      ((astarSpec g goalNode ht).expandOne csf vis it nw).2.length ≤ 1 := by
  intro csf vis it nw
  simp only [astarSpec, astarExpandOne]
  split
  · split <;> simp
  · simp

theorem loopMeasure_init_lt_fuel0 (g : Graph) (s : String) (pri : ℚ)
    (csf : List (String × ℚ)) :
    loopMeasure g s (initState s pri csf) < fuel0 g s := by
  unfold loopMeasure initState fuel0
  simp only [List.toFinset_nil, Finset.sdiff_empty, List.length_singleton]
  rw [List.card_toFinset]
  omega

/-! ## Concrete test graphs -/

/-- Convenience constructor for concrete test nodes. -/
def mkNode (i : String) (x y : ℚ) : Node :=
  { id := i, x := x, y := y, label := none, type := NodeType.default, shape := none }

/-- Convenience constructor for concrete test edges. -/
def mkEdge (i s t : String) (w : ℚ) (ty : EdgeType) : Edge :=
  { id := i, source := s, target := t, weight := w, type := ty }

/-- The 6-node sample graph produced by `generateSampleGraph` in
`graphUtils.ts` (the uuid-based ids are modelled as `n0`…`n5`, the uuid-based
edge ids as `e1`…`e6`; positions, labels, weights and role tags as in the
source). -/
def sampleGraph : Graph :=
  { nodes :=
      [{ id := "n0", x := 150, y := 150, label := some "Node 1",
         type := NodeType.start, shape := some NodeShape.circle },
       { id := "n1", x := 300, y := 100, label := some "Node 2",
         type := NodeType.default, shape := some NodeShape.circle },
       { id := "n2", x := 450, y := 150, label := some "Node 3",
         type := NodeType.default, shape := some NodeShape.circle },
       { id := "n3", x := 150, y := 300, label := some "Node 4",
         type := NodeType.default, shape := some NodeShape.circle },
       { id := "n4", x := 450, y := 300, label := some "Node 5",
         type := NodeType.default, shape := some NodeShape.circle },
       { id := "n5", x := 300, y := 400, label := some "Node 6",
         type := NodeType.goal, shape := some NodeShape.circle }],
    edges :=
      [mkEdge "e1" "n0" "n1" 2 EdgeType.default,
       mkEdge "e2" "n1" "n2" 3 EdgeType.default,
       mkEdge "e3" "n0" "n3" 4 EdgeType.default,
       mkEdge "e4" "n2" "n4" 5 EdgeType.default,
       mkEdge "e5" "n3" "n5" 6 EdgeType.default,
       mkEdge "e6" "n4" "n5" 7 EdgeType.default] }

/-- Counterexample graph for C1: three collinear nodes (so the Euclidean and
Manhattan heuristics agree and are exactly computable), with a heavy direct
edge to the goal and a cheap two-edge detour.  The heuristic of `m` (distance
5 to the goal) overestimates the true remaining cost 1, so it is inadmissible. -/
def ceGraph : Graph :=
  { nodes := [mkNode "s" 0 0, mkNode "m" 6 0, mkNode "g" 1 0],
    edges := [mkEdge "e1" "s" "g" 5 EdgeType.default,
              mkEdge "e2" "s" "m" 1 EdgeType.default,
              mkEdge "e3" "m" "g" 1 EdgeType.default] }

/-- Counterexample graph for C10: a negative self-loop on the start node makes
A*'s `costSoFar`-based neighbor cost diverge from the carried path's weight
sum. -/
def negGraph : Graph :=
  { nodes := [mkNode "s" 0 0, mkNode "g" 0 0],
    edges := [mkEdge "e1" "s" "s" (-1) EdgeType.default,
              mkEdge "e2" "s" "g" 5 EdgeType.default] }

/-- A one-node graph with no edges. -/
def oneGraph : Graph := { nodes := [mkNode "a" 0 0], edges := [] }

/-- A two-node graph with no edges: `b` is unreachable from `a`. -/
def twoGraph : Graph := { nodes := [mkNode "a" 0 0, mkNode "b" 1 1], edges := [] }

/-- A graph with a single undirected edge from `A` to `B`. -/
def undirGraph : Graph :=
  { nodes := [mkNode "A" 0 0, mkNode "B" 3 4],
    edges := [mkEdge "eAB" "A" "B" 5 EdgeType.undirected] }

/-! ## C7: findEdge returns the first matching edge -/

theorem find?_eq_some_first {α : Type} {p : α → Bool} {l : List α} {a : α}
    (h : l.find? p = some a) :
    p a = true ∧ ∃ l1 l2, l = l1 ++ a :: l2 ∧ ∀ x ∈ l1, ¬p x = true := by
  induction l with
  | nil => cases h
  | cons b bs ih =>
      by_cases hb : p b
      · rw [List.find?_cons_of_pos _ hb] at h
        cases h
        exact ⟨hb, [], bs, rfl, by simp⟩
      · rw [List.find?_cons_of_neg _ hb] at h
        obtain ⟨hpa, l1, l2, heq, hl1⟩ := ih h
        refine ⟨hpa, b :: l1, l2, by rw [heq]; rfl, ?_⟩
        intro x hx
        rcases List.mem_cons.mp hx with rfl | hx'
        · exact hb
        · exact hl1 x hx'

/-- C7: `findEdge g sourceId targetId` returns the first edge in the graph's
edge order that either goes `sourceId → targetId` directly or is an undirected
edge between `targetId` and `sourceId`; it returns `none` exactly when no such
edge exists.  In particular, on a graph with a single undirected edge from `A`
to `B`, `findEdge graph B A` returns that edge. -/
theorem c7_findEdge_first_match :
    (∀ (g : Graph) (sourceId targetId : String),
      (∀ e, findEdge g sourceId targetId = some e →
        findEdgePred sourceId targetId e ∧
        ∃ l1 l2, g.edges = l1 ++ e :: l2 ∧
          ∀ e' ∈ l1, ¬findEdgePred sourceId targetId e') ∧
      (findEdge g sourceId targetId = none ↔
        ∀ e ∈ g.edges, ¬findEdgePred sourceId targetId e)) ∧
    findEdge undirGraph "B" "A" = some (mkEdge "eAB" "A" "B" 5 EdgeType.undirected) := by
  constructor
  · intro g s t
    constructor
    · intro e he
      obtain ⟨hp, l1, l2, heq, hl1⟩ := find?_eq_some_first he
      refine ⟨of_decide_eq_true hp, l1, l2, heq, fun e' he' hpe' => ?_⟩
      exact hl1 e' he' (decide_eq_true hpe')
    · rw [findEdge, List.find?_eq_none]
      constructor
      · intro h e he hpe
        exact h e he (decide_eq_true hpe)
      · intro h e he hde
        exact h e he (of_decide_eq_true hde)
  · rfl

/-- Witness for `c7_findEdge_first_match`: instantiating the characterization
on the undirected test graph. -/
theorem c7_findEdge_first_match_witness :
    (∀ e, findEdge undirGraph "B" "A" = some e →
      findEdgePred "B" "A" e ∧
      ∃ l1 l2, undirGraph.edges = l1 ++ e :: l2 ∧
        ∀ e' ∈ l1, ¬findEdgePred "B" "A" e') ∧
    findEdge undirGraph "B" "A" = some (mkEdge "eAB" "A" "B" 5 EdgeType.undirected) :=
  ⟨(c7_findEdge_first_match.1 undirGraph "B" "A").1, c7_findEdge_first_match.2⟩

/-! ## C8: unknown algorithm kind; Euclidean default -/

/-- C8: dispatching an algorithm kind outside `{bfs, dfs, dijkstra, astar}`
returns the all-zero result without emitting any step, and the default
heuristic kind (the TypeScript default parameter of `astar`/`runAlgorithm`) is
Euclidean, which the dispatcher forwards to `astar`. -/
theorem c8_unknown_kind_zero :
    (∀ (g : Graph) (s t ht alg : String),
      alg ∉ (["bfs", "dfs", "dijkstra", "astar"] : List String) →
      runAlgorithm g s t alg ht = (emptyResult, [])) ∧
    defaultHeuristicType = "euclidean" ∧
    (∀ (g : Graph) (s t : String),
      runAlgorithm g s t "astar" defaultHeuristicType =
        astar g s t "euclidean") := by
  refine ⟨?_, rfl, ?_⟩
  · intro g s t ht alg halg
    simp only [List.mem_cons, List.mem_singleton, not_or] at halg
    obtain ⟨h1, h2, h3, h4, -⟩ := halg
    unfold runAlgorithm
    rw [if_neg h1, if_neg h2, if_neg h3, if_neg h4]
  · intro g s t
    rfl

/-- Witness for `c8_unknown_kind_zero` at the unknown kind `prim`. -/
theorem c8_unknown_kind_zero_witness :
    runAlgorithm oneGraph "a" "a" "prim" "euclidean" = (emptyResult, []) :=
  c8_unknown_kind_zero.1 oneGraph "a" "a" "euclidean" "prim" (by decide)

/-! ## C3: missing start/goal node -/

/-- C3 counterexample: on a one-node graph, running `bfs` with a start id and a
goal id that are both absent still settles the start id (`nodesVisited = 1`,
not the all-zero result) and invokes the step sink twice — the claimed
behaviour holds only for `astar`. -/
theorem c3_counterexample :
    ("x" ∉ oneGraph.nodes.map Node.id) ∧ ("y" ∉ oneGraph.nodes.map Node.id) ∧
    (bfs oneGraph "x" "y").1.nodesVisited = 1 ∧ (bfs oneGraph "x" "y").2 ≠ [] := by
  decide

/-- C3 (amended): only `astar` checks that the start and goal ids name nodes of
the graph; when either is absent it returns the all-zero result without
invoking the step sink.  (`bfs`, `dfs` and `dijkstra` have no such check, see
`c3_counterexample`.) -/
theorem c3_astar_missing_node (g : Graph) (s t ht : String)
    (h : (¬∃ n ∈ g.nodes, n.id = s) ∨ (¬∃ n ∈ g.nodes, n.id = t)) :
    astar g s t ht = (emptyResult, []) := by
  unfold astar
  rcases h with h | h
  · have hs : g.nodes.find? (fun n => decide (n.id = s)) = none := by
      rw [List.find?_eq_none]
      intro x hx hdx
      exact h ⟨x, hx, of_decide_eq_true hdx⟩
    cases hgoal : g.nodes.find? (fun n => decide (n.id = t)) <;> rw [hs]
  · have htn : g.nodes.find? (fun n => decide (n.id = t)) = none := by
      rw [List.find?_eq_none]
      intro x hx hdx
      exact h ⟨x, hx, of_decide_eq_true hdx⟩
    cases hstart : g.nodes.find? (fun n => decide (n.id = s)) <;> rw [htn]

/-- Witness for `c3_astar_missing_node`: absent start and goal on the one-node
graph. -/
theorem c3_astar_missing_node_witness :
    astar oneGraph "x" "y" "euclidean" = (emptyResult, []) :=
  c3_astar_missing_node oneGraph "x" "y" "euclidean" (Or.inl (by decide))

/-! ## C4: start equals goal -/

/-- C4 counterexample: with `start = goal` present in the graph, the goal test
fires on the first dequeue before the visited increment, so `nodesVisited` is
`0` — not `≥ 1` as claimed. -/
theorem c4_counterexample :
    ("a" ∈ oneGraph.nodes.map Node.id) ∧
    (bfs oneGraph "a" "a").1.nodesVisited = 0 ∧
    ¬1 ≤ (bfs oneGraph "a" "a").1.nodesVisited := by
  decide

theorem popNext_singleton (b : Bool) (i : QueueItem) :
    popNext b [i] = some (i, []) := by
  cases b <;> simp [popNext]

/-- Any algorithm instance whose frontier sort is a permutation returns, when
`start = goal`, the single-node path with zero cost, zero visited count, and
exactly one terminal step, on the first dequeue. -/
theorem stepLoop_start_eq_goal (spec : AlgoSpec) (g : Graph) (s : String)
    (pri : ℚ) (csf : List (String × ℚ))
    (hsort : ∀ l, (spec.sortFrontier l).Perm l) :
    stepLoop spec g s (fuel0 g s) (initState s pri csf) =
      some ({ path := [s], pathEdges := [], pathLength := 1, pathCost := 0,
              nodesVisited := 0, executionTime := 0 },
            [{ currentNodeId := some s, visited := [], path := [s],
               pathEdges := [], frontier := [], isComplete := true }]) := by
  obtain ⟨m, hm⟩ : ∃ m, fuel0 g s = m + 1 :=
    ⟨(1 + 2 * g.edges.length) * ((allIds g s).dedup).length + 1, by unfold fuel0; ring⟩
  rw [hm]
  have hsing : spec.sortFrontier (initState s pri csf).frontier =
      [{ nodeId := s, path := [s], pathEdges := [], cost := 0, priority := pri }] :=
    List.perm_singleton.mp (hsort _)
  have hpop : popNext spec.popBack (spec.sortFrontier (initState s pri csf).frontier) =
      some ({ nodeId := s, path := [s], pathEdges := [], cost := 0, priority := pri }, []) := by
    rw [hsing]
    exact popNext_singleton _ _
  rw [stepLoop_pop_goal hpop rfl]
  rfl

/-- C4 (amended): for every algorithm, when the start node is present and
`startId = goalId`, the result is the single-node path `[start]` with no path
edges, `pathLength = 1`, cost `0` and `nodesVisited = 0` (the source returns
before the visited increment), and the goal is discovered on the first
dequeue: the single emitted step is the terminal one. -/
theorem c4_start_eq_goal (g : Graph) (s ht : String)
    (hs : ∃ n ∈ g.nodes, n.id = s) :
    ∀ alg ∈ (["bfs", "dfs", "dijkstra", "astar"] : List String),
      runAlgorithm g s s alg ht =
        ({ path := [s], pathEdges := [], pathLength := 1, pathCost := 0,
           nodesVisited := 0, executionTime := 0 },
         [{ currentNodeId := some s, visited := [], path := [s],
            pathEdges := [], frontier := [], isComplete := true }]) := by
  intro alg halg
  have halg' : alg = "bfs" ∨ alg = "dfs" ∨ alg = "dijkstra" ∨ alg = "astar" := by
    simpa using halg
  rcases halg' with rfl | rfl | rfl | rfl
  · show bfs g s s = _
    unfold bfs
    rw [stepLoop_start_eq_goal _ _ _ _ _ (bfsSpec_sort_perm g)]
    rfl
  · show dfs g s s = _
    unfold dfs
    rw [stepLoop_start_eq_goal _ _ _ _ _ (dfsSpec_sort_perm g)]
    rfl
  · show dijkstra g s s = _
    unfold dijkstra
    rw [stepLoop_start_eq_goal _ _ _ _ _ (dijkstraSpec_sort_perm g)]
    rfl
  · show astar g s s ht = _
    unfold astar
    obtain ⟨n, hn, hid⟩ := hs
    obtain ⟨sn, hsn⟩ : ∃ sn, g.nodes.find? (fun n => decide (n.id = s)) = some sn := by
      rw [← Option.isSome_iff_exists, List.find?_isSome]
      exact ⟨n, hn, decide_eq_true hid⟩
    rw [hsn]
    have hrun := stepLoop_start_eq_goal (astarSpec g sn ht) g s
      (calculateHeuristic sn sn ht) [(s, 0)] (astarSpec_sort_perm g sn ht)
    simp only [hrun, Option.getD_some]

/-- Witness for `c4_start_eq_goal` on the one-node graph (all four kinds). -/
theorem c4_start_eq_goal_witness :
    runAlgorithm oneGraph "a" "a" "dijkstra" "euclidean" =
      ({ path := ["a"], pathEdges := [], pathLength := 1, pathCost := 0,
         nodesVisited := 0, executionTime := 0 },
       [{ currentNodeId := some "a", visited := [], path := ["a"],
          pathEdges := [], frontier := [], isComplete := true }]) :=
  c4_start_eq_goal oneGraph "a" "euclidean" (by decide) "dijkstra" (by decide)

/-! ## C6 and C9: the step protocol and the goal-untouched invariant -/

/-- The step-protocol property of a finished run: the emitted steps are some
non-terminal steps followed by exactly one terminal step, and the number of
non-terminal steps equals the returned `nodesVisited`. -/
def StepProtocol (out : AlgorithmResult × List AlgorithmStepResult) : Prop :=
  ∃ pre last, out.2 = pre ++ [last] ∧ last.isComplete = true ∧
    (∀ x ∈ pre, x.isComplete = false) ∧ pre.length = out.1.nodesVisited

/-- The goal-untouched property of a finished run: the goal id is absent from
the visited set of every emitted step (the goal is never marked visited), no
non-terminal step settles the goal, and `nodesVisited` counts exactly the
non-terminal (settle) steps. -/
def GoalUntouched (t : String) (out : AlgorithmResult × List AlgorithmStepResult) : Prop :=
  (∀ x ∈ out.2, t ∉ x.visited) ∧
  (∀ x ∈ out.2, x.isComplete = false → x.currentNodeId ≠ some t) ∧
  out.1.nodesVisited = (out.2.filter fun x => !x.isComplete).length

theorem stepLoop_protocol (spec : AlgoSpec) (g : Graph) (t s : String)
    (hsort : ∀ l, (spec.sortFrontier l).Perm l)
    (hone : ∀ csf vis it nw, (spec.expandOne csf vis it nw).2.length ≤ 1) :
    ∀ (fuel : ℕ) (st : SearchState), loopMeasure g s st < fuel →
      (∀ x ∈ st.steps, x.isComplete = false) → st.steps.length = st.nodesVisited →
      ∃ out, stepLoop spec g t fuel st = some out ∧ StepProtocol out := by
  have h := stepLoop_induction spec g t s
    (fun st => (∀ x ∈ st.steps, x.isComplete = false) ∧
      st.steps.length = st.nodesVisited)
    StepProtocol hsort hone
    (by
      intro st hP _
      exact ⟨st.steps, _, rfl, rfl, hP.1, hP.2⟩)
    (by
      intro st item rest hP _ _
      exact ⟨st.steps, _, rfl, rfl, hP.1, hP.2⟩)
    (by
      intro st item rest hP _ _ _
      exact hP)
    (by
      intro st item rest hP _ _ _
      refine ⟨?_, ?_⟩
      · intro x hx
        rcases List.mem_append.mp hx with hx' | hx'
        · exact hP.1 x hx'
        · rcases List.mem_singleton.mp hx' with rfl
          rfl
      · simp only [settleState, List.length_append, List.length_singleton]
        omega)
  intro fuel st hm h1 h2
  exact h fuel st hm ⟨h1, h2⟩

theorem stepLoop_goal_untouched (spec : AlgoSpec) (g : Graph) (t s : String)
    (hsort : ∀ l, (spec.sortFrontier l).Perm l)
    (hone : ∀ csf vis it nw, (spec.expandOne csf vis it nw).2.length ≤ 1) :
    ∀ (fuel : ℕ) (st : SearchState), loopMeasure g s st < fuel →
      t ∉ st.visited → (∀ x ∈ st.steps, t ∉ x.visited) →
      (∀ x ∈ st.steps, x.isComplete = false → x.currentNodeId ≠ some t) →
      st.nodesVisited = (st.steps.filter fun x => !x.isComplete).length →
      ∃ out, stepLoop spec g t fuel st = some out ∧ GoalUntouched t out := by
  have h := stepLoop_induction spec g t s
    (fun st => t ∉ st.visited ∧ (∀ x ∈ st.steps, t ∉ x.visited) ∧
      (∀ x ∈ st.steps, x.isComplete = false → x.currentNodeId ≠ some t) ∧
      st.nodesVisited = (st.steps.filter fun x => !x.isComplete).length)
    (GoalUntouched t) hsort hone
    (by
      intro st hP _
      obtain ⟨hv, hs1, hs2, hc⟩ := hP
      refine ⟨?_, ?_, ?_⟩
      · intro x hx
        rcases List.mem_append.mp hx with hx' | hx'
        · exact hs1 x hx'
        · rcases List.mem_singleton.mp hx' with rfl
          exact hv
      · intro x hx hxc
        rcases List.mem_append.mp hx with hx' | hx'
        · exact hs2 x hx' hxc
        · rcases List.mem_singleton.mp hx' with rfl
          cases hxc
      · simp only [exhaustOutput, List.filter_append]
        simp [hc])
    (by
      intro st item rest hP _ _
      obtain ⟨hv, hs1, hs2, hc⟩ := hP
      refine ⟨?_, ?_, ?_⟩
      · intro x hx
        rcases List.mem_append.mp hx with hx' | hx'
        · exact hs1 x hx'
        · rcases List.mem_singleton.mp hx' with rfl
          exact hv
      · intro x hx hxc
        rcases List.mem_append.mp hx with hx' | hx'
        · exact hs2 x hx' hxc
        · rcases List.mem_singleton.mp hx' with rfl
          cases hxc
      · simp only [goalOutput, List.filter_append]
        simp [hc])
    (by
      intro st item rest hP _ _ _
      exact hP)
    (by
      intro st item rest hP _ hg hv
      obtain ⟨hvt, hs1, hs2, hc⟩ := hP
      have hvt2 : t ∉ st.visited ++ [item.nodeId] := by
        intro hmem
        rcases List.mem_append.mp hmem with h' | h'
        · exact hvt h'
        · rcases List.mem_singleton.mp h' with rfl
          exact hg rfl
      refine ⟨hvt2, ?_, ?_, ?_⟩
      · intro x hx
        rcases List.mem_append.mp hx with hx' | hx'
        · exact hs1 x hx'
        · rcases List.mem_singleton.mp hx' with rfl
          exact hvt2
      · intro x hx hxc
        rcases List.mem_append.mp hx with hx' | hx'
        · exact hs2 x hx' hxc
        · rcases List.mem_singleton.mp hx' with rfl
          simp only [ne_eq, Option.some.injEq]
          intro hgt
          exact hg hgt
      · simp only [settleState, List.filter_append]
        simp [hc])
  intro fuel st hm h1 h2 h3 h4
  exact h fuel st hm ⟨h1, h2, h3, h4⟩

/-- C9: for every algorithm and all inputs, the goal id never enters the
visited set of any emitted step (a run that finds the goal returns at the
goal's dequeue before marking it visited), no non-terminal step settles the
goal, and `nodesVisited` counts exactly the non-goal settled nodes (the
non-terminal steps). -/
theorem c9_goal_never_visited (g : Graph) (s t ht : String) :
    GoalUntouched t (bfs g s t) ∧ GoalUntouched t (dfs g s t) ∧
    GoalUntouched t (dijkstra g s t) ∧ GoalUntouched t (astar g s t ht) := by
  have hinit : ∀ pri csf, loopMeasure g s (initState s pri csf) < fuel0 g s :=
    fun pri csf => loopMeasure_init_lt_fuel0 g s pri csf
  refine ⟨?_, ?_, ?_, ?_⟩
  · obtain ⟨out, hout, hQ⟩ := stepLoop_goal_untouched (bfsSpec g) g t s
      (bfsSpec_sort_perm g) (bfsSpec_one g) (fuel0 g s) (initState s 0 [])
      (hinit 0 []) (by simp [initState]) (by simp [initState]) (by simp [initState])
      (by simp [initState])
    unfold bfs
    rw [hout]
    exact hQ
  · obtain ⟨out, hout, hQ⟩ := stepLoop_goal_untouched (dfsSpec g) g t s
      (dfsSpec_sort_perm g) (dfsSpec_one g) (fuel0 g s) (initState s 0 [])
      (hinit 0 []) (by simp [initState]) (by simp [initState]) (by simp [initState])
      (by simp [initState])
    unfold dfs
    rw [hout]
    exact hQ
  · obtain ⟨out, hout, hQ⟩ := stepLoop_goal_untouched (dijkstraSpec g) g t s
      (dijkstraSpec_sort_perm g) (dijkstraSpec_one g) (fuel0 g s)
      (initState s 0 [(s, 0)]) (hinit 0 [(s, 0)]) (by simp [initState])
      (by simp [initState]) (by simp [initState]) (by simp [initState])
    unfold dijkstra
    rw [hout]
    exact hQ
  · unfold astar
    cases hstart : g.nodes.find? (fun n => decide (n.id = s)) with
    | none => exact ⟨by simp, by simp, by simp [emptyResult]⟩
    | some sn =>
        cases hgoal : g.nodes.find? (fun n => decide (n.id = t)) with
        | none => exact ⟨by simp, by simp, by simp [emptyResult]⟩
        | some tn =>
            obtain ⟨out, hout, hQ⟩ := stepLoop_goal_untouched
              (astarSpec g tn ht) g t s (astarSpec_sort_perm g tn ht)
              (astarSpec_one g tn ht) (fuel0 g s)
              (initState s (calculateHeuristic sn tn ht) [(s, 0)])
              (hinit _ [(s, 0)]) (by simp [initState]) (by simp [initState])
              (by simp [initState]) (by simp [initState])
            simp only [hout, Option.getD_some]
            exact hQ

/-- Witness for `c9_goal_never_visited` on the sample graph. -/
theorem c9_goal_never_visited_witness :
    GoalUntouched "n5" (bfs sampleGraph "n0" "n5") ∧
    GoalUntouched "n5" (dfs sampleGraph "n0" "n5") ∧
    GoalUntouched "n5" (dijkstra sampleGraph "n0" "n5") ∧
    GoalUntouched "n5" (astar sampleGraph "n0" "n5" "euclidean") :=
  c9_goal_never_visited sampleGraph "n0" "n5" "euclidean"

/-- C6: on a graph containing both the start and the goal node, every
algorithm's step sequence consists of exactly `nodesVisited` non-terminal
steps followed by exactly one final terminal step. -/
theorem c6_step_protocol (g : Graph) (s t ht : String)
    (hs : ∃ n ∈ g.nodes, n.id = s) (htl : ∃ n ∈ g.nodes, n.id = t) :
    StepProtocol (bfs g s t) ∧ StepProtocol (dfs g s t) ∧
    StepProtocol (dijkstra g s t) ∧ StepProtocol (astar g s t ht) := by
  have hinit : ∀ pri csf, loopMeasure g s (initState s pri csf) < fuel0 g s :=
    fun pri csf => loopMeasure_init_lt_fuel0 g s pri csf
  refine ⟨?_, ?_, ?_, ?_⟩
  · obtain ⟨out, hout, hQ⟩ := stepLoop_protocol (bfsSpec g) g t s
      (bfsSpec_sort_perm g) (bfsSpec_one g) (fuel0 g s) (initState s 0 [])
      (hinit 0 []) (by simp [initState]) (by simp [initState])
    unfold bfs
    rw [hout]
    exact hQ
  · obtain ⟨out, hout, hQ⟩ := stepLoop_protocol (dfsSpec g) g t s
      (dfsSpec_sort_perm g) (dfsSpec_one g) (fuel0 g s) (initState s 0 [])
      (hinit 0 []) (by simp [initState]) (by simp [initState])
    unfold dfs
    rw [hout]
    exact hQ
  · obtain ⟨out, hout, hQ⟩ := stepLoop_protocol (dijkstraSpec g) g t s
      (dijkstraSpec_sort_perm g) (dijkstraSpec_one g) (fuel0 g s)
      (initState s 0 [(s, 0)]) (hinit 0 [(s, 0)]) (by simp [initState])
      (by simp [initState])
    unfold dijkstra
    rw [hout]
    exact hQ
  · unfold astar
    obtain ⟨n, hn, hid⟩ := hs
    obtain ⟨sn, hsn⟩ : ∃ sn, g.nodes.find? (fun n => decide (n.id = s)) = some sn := by
      rw [← Option.isSome_iff_exists, List.find?_isSome]
      exact ⟨n, hn, decide_eq_true hid⟩
    obtain ⟨n', hn', hid'⟩ := htl
    obtain ⟨tn, htn⟩ : ∃ tn, g.nodes.find? (fun n => decide (n.id = t)) = some tn := by
      rw [← Option.isSome_iff_exists, List.find?_isSome]
      exact ⟨n', hn', decide_eq_true hid'⟩
    rw [hsn, htn]
    obtain ⟨out, hout, hQ⟩ := stepLoop_protocol (astarSpec g tn ht) g t s
      (astarSpec_sort_perm g tn ht) (astarSpec_one g tn ht) (fuel0 g s)
      (initState s (calculateHeuristic sn tn ht) [(s, 0)]) (hinit _ [(s, 0)])
      (by simp [initState]) (by simp [initState])
    simp only [hout, Option.getD_some]
    exact hQ

/-- Witness for `c6_step_protocol` on the sample graph. -/
theorem c6_step_protocol_witness :
    StepProtocol (bfs sampleGraph "n0" "n5") ∧
    StepProtocol (dfs sampleGraph "n0" "n5") ∧
    StepProtocol (dijkstra sampleGraph "n0" "n5") ∧
    StepProtocol (astar sampleGraph "n0" "n5" "euclidean") :=
  c6_step_protocol sampleGraph "n0" "n5" "euclidean" (by decide) (by decide)

/-! ## C5: unreachable goal — settled nodes are exactly the reachable ones -/

/-- The §3 invariant of the spec: every edge's endpoints name nodes of the
graph. -/
def WellFormed (g : Graph) : Prop :=
  ∀ e ∈ g.edges, (∃ n ∈ g.nodes, n.id = e.source) ∧ (∃ n ∈ g.nodes, n.id = e.target)

/-- Walking from a settled node to an unsettled one must cross the frontier,
when every settled node's traversable neighbors are settled or on the
frontier. -/
theorem reach_chase (g : Graph) (F : List QueueItem) (vis : List String)
    (hnb : ∀ x ∈ vis, ∀ v w, Trav g x v w → v ∈ vis ∨ ∃ i ∈ F, i.nodeId = v) :
    ∀ {x z : String} {q : List String} {d : ℚ}, Walk g x z q d → x ∈ vis →
      z ∉ vis →
      ∃ i ∈ F, i.nodeId ∉ vis ∧ ∃ q' d', Walk g i.nodeId z q' d' := by
  intro x z q d hw
  induction hw with
  | single u => intro hx hz; exact absurd hx hz
  | cons htr hw' ih =>
      intro hx hz
      rename_i u v tt p c w
      rcases hnb u hx v w htr with hv | ⟨i, hi, hni⟩
      · exact ih hv hz
      · by_cases hvv : v ∈ vis
        · exact ih hvv hz
        · exact ⟨i, hi, hni ▸ hvv, _, _, hni ▸ hw'⟩

/-- Membership characterization of the pushes of a `bfs`/`dfs` neighbor loop. -/
theorem mem_expandAll_bfsLike {spec : AlgoSpec} {g : Graph}
    (hexp : spec.expandOne = fun csf vis it nw => bfsExpandOne g csf vis it nw)
    {vis : List String} {item : QueueItem} :
    ∀ {ns : List (String × ℚ)} {csf : List (String × ℚ)} {j : QueueItem},
      (j ∈ (expandAll spec csf vis item ns).2 ↔
        ∃ nw ∈ ns, nw.1 ∉ vis ∧
          j = { nodeId := nw.1, path := item.path ++ [nw.1],
                pathEdges := extendPathEdges g item nw.1,
                cost := item.cost + nw.2, priority := 0 }) := by
  intro ns
  induction ns with
  | nil => intro csf j; simp [expandAll]
  | cons nw rest ih =>
      intro csf j
      simp only [expandAll, hexp, List.mem_append, List.mem_cons]
      unfold bfsExpandOne
      by_cases hv : nw.1 ∈ vis
      · rw [if_pos hv]
        simp only [List.not_mem_nil, false_or]
        rw [ih]
        constructor
        · rintro ⟨nw', h1, h2, h3⟩
          exact ⟨nw', Or.inr h1, h2, h3⟩
        · rintro ⟨nw', rfl | h1, h2, h3⟩
          · exact absurd hv h2
          · exact ⟨nw', h1, h2, h3⟩
      · rw [if_neg hv]
        simp only [List.mem_singleton]
        rw [ih]
        constructor
        · rintro (rfl | ⟨nw', h1, h2, h3⟩)
          · exact ⟨nw, Or.inl rfl, hv, rfl⟩
          · exact ⟨nw', Or.inr h1, h2, h3⟩
        · rintro ⟨nw', rfl | h1, h2, h3⟩
          · exact Or.inl h3
          · exact Or.inr ⟨nw', h1, h2, h3⟩

theorem expandAll_bfsLike_csf {spec : AlgoSpec} {g : Graph}
    (hexp : spec.expandOne = fun csf vis it nw => bfsExpandOne g csf vis it nw)
    {vis : List String} {item : QueueItem} :
    ∀ {ns csf : List _}, (expandAll spec csf vis item ns).1 = csf := by
  intro ns
  induction ns with
  | nil => intro csf; rfl
  | cons nw rest ih =>
      intro csf
      simp only [expandAll, hexp]
      unfold bfsExpandOne
      by_cases hv : nw.1 ∈ vis
      · rw [if_pos hv]; exact ih
      · rw [if_neg hv]; exact ih

theorem Reach.extend {g : Graph} {s u v : String} {w : ℚ} (h : Reach g s u)
    (ht : Trav g u v w) : Reach g s v := by
  obtain ⟨p, c, hw⟩ := h
  exact ⟨_, _, hw.snoc ht⟩

theorem Reach.refl (g : Graph) (s : String) : Reach g s s := ⟨[s], 0, Walk.single s⟩

/-- The state invariant of a search whose goal is unreachable: frontier and
visited ids are reachable, settled nodes are neighbor-closed into
visited ∪ frontier, every reachable unsettled id is connected to an unsettled
frontier id, and the visited list counts `nodesVisited` without repetition. -/
def UnreachCore (g : Graph) (s : String) (st : SearchState) : Prop :=
  (∀ i ∈ st.frontier, Reach g s i.nodeId) ∧
  (∀ v ∈ st.visited, Reach g s v) ∧
  (∀ x ∈ st.visited, ∀ v w, Trav g x v w →
    v ∈ st.visited ∨ ∃ i ∈ st.frontier, i.nodeId = v) ∧
  (∀ z, Reach g s z → z ∉ st.visited →
    ∃ i ∈ st.frontier, i.nodeId ∉ st.visited ∧ ∃ q d, Walk g i.nodeId z q d) ∧
  st.nodesVisited = st.visited.length ∧ st.visited.Nodup

/-- The output shape required by C5 for an unreachable goal. -/
def UnreachOut (g : Graph) (s : String)
    (out : AlgorithmResult × List AlgorithmStepResult) : Prop :=
  out.1.path = [] ∧ out.1.pathEdges = [] ∧ out.1.pathCost = 0 ∧
  out.1.nodesVisited = Set.ncard {v | Reach g s v} ∧
  ∃ stp, out.2.getLast? = some stp ∧ stp.currentNodeId = none ∧
    stp.isComplete = true

theorem stepLoop_unreachable_generic (spec : AlgoSpec) (g : Graph) (t s : String)
    (hsort : ∀ l, (spec.sortFrontier l).Perm l)
    (hone : ∀ csf vis it nw, (spec.expandOne csf vis it nw).2.length ≤ 1)
    (Extra : SearchState → Prop)
    (hsound : ∀ csf vis2 item ns j, j ∈ (expandAll spec csf vis2 item ns).2 →
      ∃ nw ∈ ns, j.nodeId = nw.1)
    (hclosed : ∀ st item rest, UnreachCore g s st → Extra st →
      popNext spec.popBack (spec.sortFrontier st.frontier) = some (item, rest) →
      item.nodeId ≠ t → item.nodeId ∉ st.visited →
      (∀ x ∈ (settleState spec g item rest st).visited, ∀ v w, Trav g x v w →
        v ∈ (settleState spec g item rest st).visited ∨
        ∃ i ∈ (settleState spec g item rest st).frontier, i.nodeId = v) ∧
      Extra (settleState spec g item rest st))
    (hextra_stale : ∀ st item rest, UnreachCore g s st → Extra st →
      popNext spec.popBack (spec.sortFrontier st.frontier) = some (item, rest) →
      item.nodeId ≠ t → item.nodeId ∈ st.visited →
      Extra { st with frontier := rest })
    (hnr : ¬Reach g s t) :
    ∀ (fuel : ℕ) (st : SearchState), loopMeasure g s st < fuel →
      UnreachCore g s st → Extra st →
      ∃ out, stepLoop spec g t fuel st = some out ∧ UnreachOut g s out := by
  have h := stepLoop_induction spec g t s
    (fun st => UnreachCore g s st ∧ Extra st) (UnreachOut g s) hsort hone
    ?hexhaust ?hgoal ?hstale ?hsettle
  · intro fuel st hm h1 h2
    exact h fuel st hm ⟨h1, h2⟩
  case hexhaust =>
    intro st hP hpop
    obtain ⟨⟨ha, hb, hc, hd, he, hf⟩, -⟩ := hP
    have hF : st.frontier = [] := by
      have h0 := (popNext_none_iff _ _).mp hpop
      have := hsort st.frontier
      rw [h0] at this
      exact this.symm.eq_nil
    have hseteq : {v | Reach g s v} = (↑st.visited.toFinset : Set String) := by
      ext v
      simp only [Set.mem_setOf_eq, Finset.coe_sort_coe, Finset.mem_coe,
        List.mem_toFinset]
      constructor
      · intro hr
        by_contra hvv
        obtain ⟨i, hi, -⟩ := hd v hr hvv
        rw [hF] at hi
        cases hi
      · intro hvv
        exact hb v hvv
    refine ⟨rfl, rfl, rfl, ?_, ?_⟩
    · show st.nodesVisited = _
      rw [hseteq, Set.ncard_coe_Finset, List.card_toFinset, hf.dedup]
      exact he
    · have hlast : (exhaustOutput st).2.getLast? =
          some { currentNodeId := none, visited := st.visited, path := [],
                 pathEdges := [], frontier := [], isComplete := true } := by
        show (st.steps ++ [_]).getLast? = _
        rw [List.getLast?_concat]
      exact ⟨_, hlast, rfl, rfl⟩
  case hgoal =>
    intro st item rest hP hpop hg
    obtain ⟨⟨ha, -⟩, -⟩ := hP
    have hitem : item ∈ st.frontier := by
      have hperm := (popNext_perm hpop).trans (hsort st.frontier)
      exact hperm.mem_iff.mp (List.mem_cons_self _ _)
    exact absurd (hg ▸ ha item hitem) hnr
  case hstale =>
    intro st item rest hP hpop hg hv
    obtain ⟨⟨ha, hb, hc, hd, he, hf⟩, hX⟩ := hP
    have hperm := (popNext_perm hpop).trans (hsort st.frontier)
    have hmem : ∀ j, j ∈ st.frontier ↔ j = item ∨ j ∈ rest := by
      intro j
      rw [← hperm.mem_iff, List.mem_cons]
    refine ⟨⟨?_, hb, ?_, ?_, he, hf⟩, hextra_stale st item rest ⟨ha, hb, hc, hd, he, hf⟩ hX hpop hg hv⟩
    · intro i hi
      exact ha i ((hmem i).mpr (Or.inr hi))
    · intro x hx v w htr
      rcases hc x hx v w htr with hvis | ⟨i, hi, hni⟩
      · exact Or.inl hvis
      · rcases (hmem i).mp hi with rfl | hir
        · exact Or.inl (hni ▸ hv)
        · exact Or.inr ⟨i, hir, hni⟩
    · intro z hz hznv
      obtain ⟨i, hi, hniv, hq⟩ := hd z hz hznv
      rcases (hmem i).mp hi with rfl | hir
      · exact absurd hv hniv
      · exact ⟨i, hir, hniv, hq⟩
  case hsettle =>
    intro st item rest hP hpop hg hv
    obtain ⟨⟨ha, hb, hc, hd, he, hf⟩, hX⟩ := hP
    have hperm := (popNext_perm hpop).trans (hsort st.frontier)
    have hmem : ∀ j, j ∈ st.frontier ↔ j = item ∨ j ∈ rest := by
      intro j
      rw [← hperm.mem_iff, List.mem_cons]
    have hitem : item ∈ st.frontier := (hmem item).mpr (Or.inl rfl)
    have hreachu : Reach g s item.nodeId := ha item hitem
    obtain ⟨hclosed', hX'⟩ :=
      hclosed st item rest ⟨ha, hb, hc, hd, he, hf⟩ hX hpop hg hv
    set st' := settleState spec g item rest st with hst'
    have hfr' : st'.frontier = rest ++ (expandAll spec st.costSoFar
        (st.visited ++ [item.nodeId]) item (getNeighbors g item.nodeId)).2 := rfl
    have hvis' : st'.visited = st.visited ++ [item.nodeId] := rfl
    refine ⟨⟨?_, ?_, hclosed', ?_, ?_, ?_⟩, hX'⟩
    · -- frontier reachability
      intro i hi
      rw [hfr'] at hi
      rcases List.mem_append.mp hi with hir | hip
      · exact ha i ((hmem i).mpr (Or.inr hir))
      · obtain ⟨nw, hnw, hni⟩ := hsound _ _ _ _ i hip
        have htr : Trav g item.nodeId nw.1 nw.2 := mem_getNeighbors_iff.mp hnw
        exact hni ▸ hreachu.extend htr
    · -- visited reachability
      intro v hvv
      rw [hvis'] at hvv
      rcases List.mem_append.mp hvv with h1 | h1
      · exact hb v h1
      · rcases List.mem_singleton.mp h1 with rfl
        exact hreachu
    · -- covering
      intro z hz hznv
      rw [hvis'] at hznv
      have hznv0 : z ∉ st.visited := fun hmem0 =>
        hznv (List.mem_append.mpr (Or.inl hmem0))
      obtain ⟨i, hi, hniv, q, d, hwalk⟩ := hd z hz hznv0
      by_cases hiu : i.nodeId ∈ st'.visited
      · -- the old covering item's node just got settled: chase from it
        exact reach_chase g st'.frontier st'.visited hclosed' hwalk hiu
          (hvis' ▸ hznv)
      · refine ⟨i, ?_, hiu, q, d, hwalk⟩
        rw [hfr']
        rcases (hmem i).mp hi with rfl | hir
        · exact absurd (hvis' ▸ List.mem_append.mpr
            (Or.inr (List.mem_singleton.mpr rfl))) hiu
        · exact List.mem_append.mpr (Or.inl hir)
    · -- counting
      show st.nodesVisited + 1 = (st.visited ++ [item.nodeId]).length
      rw [List.length_append, List.length_singleton, he]
    · -- no duplicates
      show (st.visited ++ [item.nodeId]).Nodup
      simp only [List.nodup_append, List.nodup_singleton, true_and]
      exact ⟨hf, by simpa using fun hx => hv hx⟩

theorem lookupCost_singleton {s v : String} {c0 c : ℚ}
    (h : lookupCost [(s, c0)] v = some c) : v = s ∧ c = c0 := by
  simp only [lookupCost] at h
  by_cases hv : s = v
  · rw [if_pos hv] at h
    cases h
    exact ⟨hv.symm, rfl⟩
  · rw [if_neg hv] at h
    cases h

/-! ### Dijkstra neighbor-loop lemmas -/

theorem dijkstraSpec_expandOne (g : Graph) :
    (dijkstraSpec g).expandOne =
      fun csf _ item nw => dijkstraExpandOne g csf item nw := rfl

theorem dijkstra_expandAll_keys {g : Graph} {vis : List String} {item : QueueItem} :
    ∀ {ns csf : List _} {x : String} {c : ℚ}, lookupCost csf x = some c →
      ∃ c', lookupCost (expandAll (dijkstraSpec g) csf vis item ns).1 x = some c' ∧
        c' ≤ c := by
  intro ns
  induction ns with
  | nil => intro csf x c h; exact ⟨c, h, le_refl c⟩
  | cons nw rest ih =>
      intro csf x c h
      simp only [expandAll, dijkstraSpec_expandOne]
      unfold dijkstraExpandOne
      simp only
      split
      · by_cases hx : nw.1 = x
        · subst hx
          rcases hl : lookupCost csf nw.1 with _ | c0
          · rw [hl] at h; cases h
          · rw [hl] at h
            cases h
            rename_i hcond
            rw [hl] at hcond
            have hlt : item.cost + nw.2 < c := by
              simpa using of_decide_eq_true hcond
            obtain ⟨c', hc', hle⟩ := ih (lookupCost_setCost_self csf nw.1 (item.cost + nw.2))
            exact ⟨c', hc', le_trans hle (le_of_lt hlt)⟩
        · have : lookupCost (setCost csf nw.1 (item.cost + nw.2)) x = some c := by
            rw [lookupCost_setCost_ne csf _ (fun hh => hx hh.symm)]
            exact h
          exact ih this
      · exact ih h

theorem dijkstra_expandAll_nbr {g : Graph} {vis : List String} {item : QueueItem} :
    ∀ {ns csf : List _} {nw : String × ℚ}, nw ∈ ns →
      ∃ cv, lookupCost (expandAll (dijkstraSpec g) csf vis item ns).1 nw.1 = some cv ∧
        cv ≤ item.cost + nw.2 := by
  intro ns
  induction ns with
  | nil => intro csf nw h; cases h
  | cons nw0 rest ih =>
      intro csf nw h
      rcases List.mem_cons.mp h with rfl | hmem
      · simp only [expandAll, dijkstraSpec_expandOne]
        unfold dijkstraExpandOne
        simp only
        split
        · exact dijkstra_expandAll_keys (lookupCost_setCost_self csf nw.1 _)
        · rename_i hcond
          rcases hl : lookupCost csf nw.1 with _ | c0
          · rw [hl] at hcond; simp at hcond
          · rw [hl] at hcond
            have hnlt : ¬item.cost + nw.2 < c0 := by
              intro hlt
              exact hcond (by simp [decide_eq_true hlt])
            obtain ⟨c', hc', hle⟩ := dijkstra_expandAll_keys hl
            exact ⟨c', hc', le_trans hle (not_lt.mp hnlt)⟩
      · simp only [expandAll, dijkstraSpec_expandOne]
        unfold dijkstraExpandOne
        simp only
        split
        · exact ih hmem
        · exact ih hmem

theorem dijkstra_expandAll_push {g : Graph} {vis : List String} {item : QueueItem} :
    ∀ {ns csf : List _} {j : QueueItem},
      j ∈ (expandAll (dijkstraSpec g) csf vis item ns).2 →
      ∃ nw ∈ ns, j = { nodeId := nw.1, path := item.path ++ [nw.1],
                       pathEdges := extendPathEdges g item nw.1,
                       cost := item.cost + nw.2, priority := item.cost + nw.2 } := by
  intro ns
  induction ns with
  | nil => intro csf j h; simp [expandAll] at h
  | cons nw0 rest ih =>
      intro csf j h
      simp only [expandAll, dijkstraSpec_expandOne] at h
      revert h
      unfold dijkstraExpandOne
      simp only
      split
      · intro h
        rcases List.mem_append.mp h with h1 | h1
        · rcases List.mem_singleton.mp h1 with rfl
          exact ⟨nw0, List.mem_cons_self _ _, rfl⟩
        · obtain ⟨nw, hnw, hj⟩ := ih h1
          exact ⟨nw, List.mem_cons_of_mem _ hnw, hj⟩
      · intro h
        rcases List.mem_append.mp h with h1 | h1
        · cases h1
        · obtain ⟨nw, hnw, hj⟩ := ih h1
          exact ⟨nw, List.mem_cons_of_mem _ hnw, hj⟩

theorem dijkstra_expandAll_cover {g : Graph} {vis : List String} {item : QueueItem} :
    ∀ {ns csf : List _} {F0 : List QueueItem},
      (∀ v c, v ∉ vis → lookupCost csf v = some c →
        ∃ i ∈ F0, i.nodeId = v ∧ i.cost ≤ c) →
      ∀ v c, v ∉ vis →
        lookupCost (expandAll (dijkstraSpec g) csf vis item ns).1 v = some c →
        ∃ i ∈ F0 ++ (expandAll (dijkstraSpec g) csf vis item ns).2,
          i.nodeId = v ∧ i.cost ≤ c := by
  intro ns
  induction ns with
  | nil =>
      intro csf F0 hpre v c hv hc
      obtain ⟨i, hi, hni, hci⟩ := hpre v c hv hc
      exact ⟨i, by simpa [expandAll] using hi, hni, hci⟩
  | cons nw0 rest ih =>
      intro csf F0 hpre v c hv hc
      simp only [expandAll, dijkstraSpec_expandOne] at hc ⊢
      revert hc
      unfold dijkstraExpandOne
      simp only
      split
      · -- pushed: thread with F0 extended by the new item
        intro hc
        set j : QueueItem :=
          { nodeId := nw0.1, path := item.path ++ [nw0.1],
            pathEdges := extendPathEdges g item nw0.1,
            cost := item.cost + nw0.2, priority := item.cost + nw0.2 } with hj
        have hpre' : ∀ v' c', v' ∉ vis →
            lookupCost (setCost csf nw0.1 (item.cost + nw0.2)) v' = some c' →
            ∃ i ∈ F0 ++ [j], i.nodeId = v' ∧ i.cost ≤ c' := by
          intro v' c' hv' hc'
          by_cases hvv : v' = nw0.1
          · subst hvv
            rw [lookupCost_setCost_self] at hc'
            cases hc'
            exact ⟨j, List.mem_append.mpr (Or.inr (List.mem_singleton.mpr rfl)),
              rfl, le_refl _⟩
          · rw [lookupCost_setCost_ne csf _ hvv] at hc'
            obtain ⟨i, hi, hni, hci⟩ := hpre v' c' hv' hc'
            exact ⟨i, List.mem_append.mpr (Or.inl hi), hni, hci⟩
        obtain ⟨i, hi, hni, hci⟩ := ih hpre' v c hv hc
        rcases List.mem_append.mp hi with h1 | h1
        · rcases List.mem_append.mp h1 with h2 | h2
          · exact ⟨i, List.mem_append.mpr (Or.inl h2), hni, hci⟩
          · rcases List.mem_singleton.mp h2 with rfl
            exact ⟨j, List.mem_append.mpr (Or.inr (List.mem_append.mpr
              (Or.inl (List.mem_singleton.mpr rfl)))), hni, hci⟩
        · exact ⟨i, List.mem_append.mpr (Or.inr (List.mem_append.mpr (Or.inr h1))),
            hni, hci⟩
      · intro hc
        obtain ⟨i, hi, hni, hci⟩ := ih hpre v c hv hc
        rcases List.mem_append.mp hi with h1 | h1
        · exact ⟨i, List.mem_append.mpr (Or.inl h1), hni, hci⟩
        · exact ⟨i, List.mem_append.mpr (Or.inr (List.mem_append.mpr (Or.inr h1))),
            hni, hci⟩

/-! ### A* neighbor-loop lemmas (heuristic-independent parts) -/

theorem astarSpec_expandOne (g : Graph) (goalNode : Node) (ht : String) :
    (astarSpec g goalNode ht).expandOne =
      fun csf _ item nw => astarExpandOne g goalNode ht csf item nw := rfl

theorem astar_expandAll_keys {g : Graph} {goalNode : Node} {ht : String}
    {vis : List String} {item : QueueItem} :
    ∀ {ns csf : List _} {x : String} {c : ℚ}, lookupCost csf x = some c →
      ∃ c', lookupCost (expandAll (astarSpec g goalNode ht) csf vis item ns).1 x
        = some c' ∧ c' ≤ c := by
  intro ns
  induction ns with
  | nil => intro csf x c h; exact ⟨c, h, le_refl c⟩
  | cons nw rest ih =>
      intro csf x c h
      simp only [expandAll, astarSpec_expandOne]
      unfold astarExpandOne
      simp only
      split
      · rename_i hcond
        have hkey : ∀ rest2,
            (expandAll (astarSpec g goalNode ht)
              (setCost csf nw.1 ((lookupCost csf item.nodeId).getD 0 + nw.2))
              vis item rest2) =
            (expandAll (astarSpec g goalNode ht)
              (setCost csf nw.1 ((lookupCost csf item.nodeId).getD 0 + nw.2))
              vis item rest2) := fun _ => rfl
        have hs : ∃ c0, lookupCost
            (setCost csf nw.1 ((lookupCost csf item.nodeId).getD 0 + nw.2)) x =
            some c0 ∧ c0 ≤ c := by
          by_cases hx : nw.1 = x
          · subst hx
            rcases hl : lookupCost csf nw.1 with _ | cold
            · rw [hl] at h; cases h
            · rw [hl] at h
              cases h
              rw [hl] at hcond
              have hlt : (lookupCost csf item.nodeId).getD 0 + nw.2 < c := by
                simpa using of_decide_eq_true hcond
              exact ⟨_, lookupCost_setCost_self csf nw.1 _, le_of_lt hlt⟩
          · refine ⟨c, ?_, le_refl c⟩
            rw [lookupCost_setCost_ne csf _ (fun hh => hx hh.symm)]
            exact h
        obtain ⟨c0, hc0, hle0⟩ := hs
        split
        · obtain ⟨c', hc', hle'⟩ := ih hc0
          exact ⟨c', hc', le_trans hle' hle0⟩
        · obtain ⟨c', hc', hle'⟩ := ih hc0
          exact ⟨c', hc', le_trans hle' hle0⟩
      · exact ih h

theorem astar_expandAll_nbr {g : Graph} {goalNode : Node} {ht : String}
    {vis : List String} {item : QueueItem} :
    ∀ {ns csf : List _} {nw : String × ℚ}, nw ∈ ns →
      ∃ cv, lookupCost (expandAll (astarSpec g goalNode ht) csf vis item ns).1 nw.1
        = some cv := by
  intro ns
  induction ns with
  | nil => intro csf nw h; cases h
  | cons nw0 rest ih =>
      intro csf nw h
      rcases List.mem_cons.mp h with rfl | hmem
      · simp only [expandAll, astarSpec_expandOne]
        unfold astarExpandOne
        simp only
        split
        · split
          · obtain ⟨c', hc', -⟩ :=
              astar_expandAll_keys (lookupCost_setCost_self csf nw.1 _)
            exact ⟨c', hc'⟩
          · obtain ⟨c', hc', -⟩ :=
              astar_expandAll_keys (lookupCost_setCost_self csf nw.1 _)
            exact ⟨c', hc'⟩
        · rename_i hcond
          rcases hl : lookupCost csf nw.1 with _ | c0
          · rw [hl] at hcond; simp at hcond
          · obtain ⟨c', hc', -⟩ := astar_expandAll_keys hl
            exact ⟨c', hc'⟩
      · simp only [expandAll, astarSpec_expandOne]
        unfold astarExpandOne
        simp only
        split
        · split
          · exact ih hmem
          · exact ih hmem
        · exact ih hmem

theorem astar_expandAll_push {g : Graph} {goalNode : Node} {ht : String}
    {vis : List String} {item : QueueItem} :
    ∀ {ns csf : List _} {j : QueueItem},
      j ∈ (expandAll (astarSpec g goalNode ht) csf vis item ns).2 →
      ∃ nw ∈ ns, j.nodeId = nw.1 ∧ j.path = item.path ++ [nw.1] := by
  intro ns
  induction ns with
  | nil => intro csf j h; simp [expandAll] at h
  | cons nw0 rest ih =>
      intro csf j h
      simp only [expandAll, astarSpec_expandOne] at h
      revert h
      unfold astarExpandOne
      simp only
      split
      · split
        · intro h
          rcases List.mem_append.mp h with h1 | h1
          · rcases List.mem_singleton.mp h1 with rfl
            exact ⟨nw0, List.mem_cons_self _ _, rfl, rfl⟩
          · obtain ⟨nw, hnw, hj⟩ := ih h1
            exact ⟨nw, List.mem_cons_of_mem _ hnw, hj⟩
        · intro h
          rcases List.mem_append.mp h with h1 | h1
          · cases h1
          · obtain ⟨nw, hnw, hj⟩ := ih h1
            exact ⟨nw, List.mem_cons_of_mem _ hnw, hj⟩
      · intro h
        rcases List.mem_append.mp h with h1 | h1
        · cases h1
        · obtain ⟨nw, hnw, hj⟩ := ih h1
          exact ⟨nw, List.mem_cons_of_mem _ hnw, hj⟩

theorem astar_expandAll_cover {g : Graph} {goalNode : Node} {ht : String}
    {vis : List String} {item : QueueItem} :
    ∀ {ns csf : List _} {F0 : List QueueItem},
      (∀ v c, v ∉ vis → (∃ n ∈ g.nodes, n.id = v) → lookupCost csf v = some c →
        ∃ i ∈ F0, i.nodeId = v) →
      ∀ v c, v ∉ vis → (∃ n ∈ g.nodes, n.id = v) →
        lookupCost (expandAll (astarSpec g goalNode ht) csf vis item ns).1 v = some c →
        ∃ i ∈ F0 ++ (expandAll (astarSpec g goalNode ht) csf vis item ns).2,
          i.nodeId = v := by
  intro ns
  induction ns with
  | nil =>
      intro csf F0 hpre v c hv hn hc
      obtain ⟨i, hi, hni⟩ := hpre v c hv hn hc
      exact ⟨i, by simpa [expandAll] using hi, hni⟩
  | cons nw0 rest ih =>
      intro csf F0 hpre v c hv hn hc
      simp only [expandAll, astarSpec_expandOne] at hc ⊢
      revert hc
      unfold astarExpandOne
      simp only
      split
      · -- the cost map gains (or lowers) the key nw0.1
        split
        · -- neighbor node found: an item for nw0.1 is pushed
          rename_i neighborNode hfind
          intro hc
          set jq : QueueItem :=
            { nodeId := nw0.1, path := item.path ++ [nw0.1],
              pathEdges := extendPathEdges g item nw0.1,
              cost := (lookupCost csf item.nodeId).getD 0 + nw0.2,
              priority := (lookupCost csf item.nodeId).getD 0 + nw0.2 +
                calculateHeuristic neighborNode goalNode ht } with hjq
          have hpre' : ∀ v' c', v' ∉ vis → (∃ n ∈ g.nodes, n.id = v') →
              lookupCost (setCost csf nw0.1
                ((lookupCost csf item.nodeId).getD 0 + nw0.2)) v' = some c' →
              ∃ i ∈ F0 ++ [jq], i.nodeId = v' := by
            intro v' c' hv' hn' hc'
            by_cases hvv : v' = nw0.1
            · subst hvv
              exact ⟨_, List.mem_append.mpr (Or.inr (List.mem_singleton.mpr rfl)), rfl⟩
            · rw [lookupCost_setCost_ne csf _ hvv] at hc'
              obtain ⟨i, hi, hni⟩ := hpre v' c' hv' hn' hc'
              exact ⟨i, List.mem_append.mpr (Or.inl hi), hni⟩
          obtain ⟨i, hi, hni⟩ := ih hpre' v c hv hn hc
          rcases List.mem_append.mp hi with h1 | h1
          · rcases List.mem_append.mp h1 with h2 | h2
            · exact ⟨i, List.mem_append.mpr (Or.inl h2), hni⟩
            · rcases List.mem_singleton.mp h2 with rfl
              exact ⟨_, List.mem_append.mpr (Or.inr (List.mem_append.mpr
                (Or.inl (List.mem_singleton.mpr rfl)))), hni⟩
          · exact ⟨i, List.mem_append.mpr (Or.inr (List.mem_append.mpr (Or.inr h1))),
              hni⟩
        · -- neighbor node not found: the key set is for a non-node id
          rename_i hfind
          intro hc
          have hpre' : ∀ v' c', v' ∉ vis → (∃ n ∈ g.nodes, n.id = v') →
              lookupCost (setCost csf nw0.1
                ((lookupCost csf item.nodeId).getD 0 + nw0.2)) v' = some c' →
              ∃ i ∈ F0, i.nodeId = v' := by
            intro v' c' hv' hn' hc'
            by_cases hvv : v' = nw0.1
            · exfalso
              obtain ⟨n, hnn, hnid⟩ := hn'
              have hfound : ∃ n',
                  g.nodes.find? (fun nd => decide (nd.id = nw0.1)) = some n' := by
                rw [← Option.isSome_iff_exists, List.find?_isSome]
                exact ⟨n, hnn, decide_eq_true (hvv ▸ hnid)⟩
              obtain ⟨n', hn'2⟩ := hfound
              rw [hfind] at hn'2
              cases hn'2
            · rw [lookupCost_setCost_ne csf _ hvv] at hc'
              exact hpre v' c' hv' hn' hc'
          obtain ⟨i, hi, hni⟩ := ih hpre' v c hv hn hc
          rcases List.mem_append.mp hi with h1 | h1
          · exact ⟨i, List.mem_append.mpr (Or.inl h1), hni⟩
          · exact ⟨i, List.mem_append.mpr (Or.inr (List.mem_append.mpr (Or.inr h1))),
              hni⟩
      · intro hc
        obtain ⟨i, hi, hni⟩ := ih hpre v c hv hn hc
        rcases List.mem_append.mp hi with h1 | h1
        · exact ⟨i, List.mem_append.mpr (Or.inl h1), hni⟩
        · exact ⟨i, List.mem_append.mpr (Or.inr (List.mem_append.mpr (Or.inr h1))),
            hni⟩

/-! ### C5 instantiations -/

theorem bfsLike_closed (spec : AlgoSpec) (g : Graph) (s : String)
    (hexp : spec.expandOne = fun csf vis it nw => bfsExpandOne g csf vis it nw)
    (hsort : ∀ l, (spec.sortFrontier l).Perm l) :
    ∀ (st : SearchState) (item : QueueItem) (rest : List QueueItem),
      UnreachCore g s st →
      popNext spec.popBack (spec.sortFrontier st.frontier) = some (item, rest) →
      item.nodeId ∉ st.visited →
      ∀ x ∈ (settleState spec g item rest st).visited, ∀ v w, Trav g x v w →
        v ∈ (settleState spec g item rest st).visited ∨
        ∃ i ∈ (settleState spec g item rest st).frontier, i.nodeId = v := by
  intro st item rest hcore hpop hv x hx v w htr
  obtain ⟨-, -, hc, -, -, -⟩ := hcore
  have hperm := (popNext_perm hpop).trans (hsort st.frontier)
  have hmem : ∀ j, j ∈ st.frontier ↔ j = item ∨ j ∈ rest := by
    intro j
    rw [← hperm.mem_iff, List.mem_cons]
  have hvis' : (settleState spec g item rest st).visited =
      st.visited ++ [item.nodeId] := rfl
  have hfr' : (settleState spec g item rest st).frontier =
      rest ++ (expandAll spec st.costSoFar (st.visited ++ [item.nodeId]) item
        (getNeighbors g item.nodeId)).2 := rfl
  rw [hvis'] at hx ⊢
  rw [hfr']
  rcases List.mem_append.mp hx with hx1 | hx1
  · rcases hc x hx1 v w htr with hvis | ⟨i, hi, hni⟩
    · exact Or.inl (List.mem_append.mpr (Or.inl hvis))
    · rcases (hmem i).mp hi with rfl | hir
      · exact Or.inl (List.mem_append.mpr (Or.inr (List.mem_singleton.mpr hni.symm)))
      · exact Or.inr ⟨i, List.mem_append.mpr (Or.inl hir), hni⟩
  · rcases List.mem_singleton.mp hx1 with rfl
    have hnb : (v, w) ∈ getNeighbors g item.nodeId := mem_getNeighbors_iff.mpr htr
    by_cases hvv : v ∈ st.visited ++ [item.nodeId]
    · exact Or.inl hvv
    · refine Or.inr ⟨_, List.mem_append.mpr (Or.inr
        ((mem_expandAll_bfsLike hexp).mpr ⟨(v, w), hnb, hvv, rfl⟩)), rfl⟩

theorem bfs_unreachable (g : Graph) (s t : String) (hnr : ¬Reach g s t) :
    UnreachOut g s (bfs g s t) := by
  obtain ⟨out, hout, hQ⟩ := stepLoop_unreachable_generic (bfsSpec g) g t s
    (bfsSpec_sort_perm g) (bfsSpec_one g) (fun _ => True)
    (by
      intro csf vis2 item ns j hj
      obtain ⟨nw, hnw, -, hj'⟩ := (mem_expandAll_bfsLike rfl).mp hj
      exact ⟨nw, hnw, by rw [hj']⟩)
    (by
      intro st item rest hcore hX hpop hg hv
      exact ⟨bfsLike_closed (bfsSpec g) g s rfl (bfsSpec_sort_perm g)
        st item rest hcore hpop hv, trivial⟩)
    (by intro st item rest _ _ _ _ _; trivial)
    hnr (fuel0 g s) (initState s 0 []) (loopMeasure_init_lt_fuel0 g s 0 [])
    (by
      refine ⟨?_, by simp [initState], by simp [initState], ?_,
        by simp [initState], by simp [initState]⟩
      · intro i hi
        rcases List.mem_singleton.mp hi with rfl
        exact Reach.refl g s
      · intro z hz hznv
        refine ⟨_, List.mem_singleton.mpr rfl, by simp [initState], ?_⟩
        obtain ⟨q, d, hw⟩ := hz
        exact ⟨q, d, hw⟩)
    trivial
  unfold bfs
  rw [hout]
  exact hQ

theorem dfs_unreachable (g : Graph) (s t : String) (hnr : ¬Reach g s t) :
    UnreachOut g s (dfs g s t) := by
  obtain ⟨out, hout, hQ⟩ := stepLoop_unreachable_generic (dfsSpec g) g t s
    (dfsSpec_sort_perm g) (dfsSpec_one g) (fun _ => True)
    (by
      intro csf vis2 item ns j hj
      obtain ⟨nw, hnw, -, hj'⟩ := (mem_expandAll_bfsLike rfl).mp hj
      exact ⟨nw, hnw, by rw [hj']⟩)
    (by
      intro st item rest hcore hX hpop hg hv
      exact ⟨bfsLike_closed (dfsSpec g) g s rfl (dfsSpec_sort_perm g)
        st item rest hcore hpop hv, trivial⟩)
    (by intro st item rest _ _ _ _ _; trivial)
    hnr (fuel0 g s) (initState s 0 []) (loopMeasure_init_lt_fuel0 g s 0 [])
    (by
      refine ⟨?_, by simp [initState], by simp [initState], ?_,
        by simp [initState], by simp [initState]⟩
      · intro i hi
        rcases List.mem_singleton.mp hi with rfl
        exact Reach.refl g s
      · intro z hz hznv
        refine ⟨_, List.mem_singleton.mpr rfl, by simp [initState], ?_⟩
        obtain ⟨q, d, hw⟩ := hz
        exact ⟨q, d, hw⟩)
    trivial
  unfold dfs
  rw [hout]
  exact hQ

/-- The extra cost-map invariant carried by the Dijkstra run. -/
def DijkstraCsfInv (g : Graph) (st : SearchState) : Prop :=
  (∀ v c, v ∉ st.visited → lookupCost st.costSoFar v = some c →
    ∃ i ∈ st.frontier, i.nodeId = v ∧ i.cost ≤ c) ∧
  (∀ x ∈ st.visited, ∀ v w, Trav g x v w →
    ∃ c, lookupCost st.costSoFar v = some c)

theorem dijkstra_unreachable (g : Graph) (s t : String) (hnr : ¬Reach g s t) :
    UnreachOut g s (dijkstra g s t) := by
  obtain ⟨out, hout, hQ⟩ := stepLoop_unreachable_generic (dijkstraSpec g) g t s
    (dijkstraSpec_sort_perm g) (dijkstraSpec_one g) (DijkstraCsfInv g)
    (by
      intro csf vis2 item ns j hj
      obtain ⟨nw, hnw, hj'⟩ := dijkstra_expandAll_push hj
      exact ⟨nw, hnw, by rw [hj']⟩)
    (by
      intro st item rest hcore hX hpop hg hv
      have hperm := (popNext_perm hpop).trans (dijkstraSpec_sort_perm g st.frontier)
      have hmem : ∀ j, j ∈ st.frontier ↔ j = item ∨ j ∈ rest := by
        intro j
        rw [← hperm.mem_iff, List.mem_cons]
      obtain ⟨hE1, hE2⟩ := hX
      have hvis' : (settleState (dijkstraSpec g) g item rest st).visited =
          st.visited ++ [item.nodeId] := rfl
      have hfr' : (settleState (dijkstraSpec g) g item rest st).frontier =
          rest ++ (expandAll (dijkstraSpec g) st.costSoFar
            (st.visited ++ [item.nodeId]) item (getNeighbors g item.nodeId)).2 := rfl
      have hcsf' : (settleState (dijkstraSpec g) g item rest st).costSoFar =
          (expandAll (dijkstraSpec g) st.costSoFar (st.visited ++ [item.nodeId])
            item (getNeighbors g item.nodeId)).1 := rfl
      have hpre : ∀ v c, v ∉ st.visited ++ [item.nodeId] →
          lookupCost st.costSoFar v = some c →
          ∃ i ∈ rest, i.nodeId = v ∧ i.cost ≤ c := by
        intro v c hv2 hcv
        have hv1 : v ∉ st.visited := fun h => hv2 (List.mem_append.mpr (Or.inl h))
        obtain ⟨i, hi, hni, hci⟩ := hE1 v c hv1 hcv
        rcases (hmem i).mp hi with rfl | hir
        · exact absurd (List.mem_append.mpr
            (Or.inr (List.mem_singleton.mpr hni.symm))) hv2
        · exact ⟨i, hir, hni, hci⟩
      have hE1' : ∀ v c, v ∉ st.visited ++ [item.nodeId] →
          lookupCost (expandAll (dijkstraSpec g) st.costSoFar
            (st.visited ++ [item.nodeId]) item (getNeighbors g item.nodeId)).1 v
            = some c →
          ∃ i ∈ rest ++ (expandAll (dijkstraSpec g) st.costSoFar
            (st.visited ++ [item.nodeId]) item (getNeighbors g item.nodeId)).2,
            i.nodeId = v ∧ i.cost ≤ c :=
        fun v c hv2 hcv => dijkstra_expandAll_cover hpre v c hv2 hcv
      have hE2' : ∀ x ∈ st.visited ++ [item.nodeId], ∀ v w, Trav g x v w →
          ∃ c, lookupCost (expandAll (dijkstraSpec g) st.costSoFar
            (st.visited ++ [item.nodeId]) item (getNeighbors g item.nodeId)).1 v
            = some c := by
        intro x hx v w htr
        rcases List.mem_append.mp hx with hx1 | hx1
        · obtain ⟨c, hc⟩ := hE2 x hx1 v w htr
          obtain ⟨c', hc', -⟩ := dijkstra_expandAll_keys hc
          exact ⟨c', hc'⟩
        · rcases List.mem_singleton.mp hx1 with rfl
          have hnb : (v, w) ∈ getNeighbors g item.nodeId :=
            mem_getNeighbors_iff.mpr htr
          obtain ⟨cv, hcv, -⟩ := dijkstra_expandAll_nbr hnb
          exact ⟨cv, hcv⟩
      constructor
      · -- neighbor closure of the new state
        intro x hx v w htr
        obtain ⟨c, hc⟩ := hE2' x (hvis' ▸ hx) v w htr
        by_cases hvv : v ∈ (settleState (dijkstraSpec g) g item rest st).visited
        · exact Or.inl hvv
        · obtain ⟨i, hi, hni, -⟩ := hE1' v c (fun hh => hvv (hvis' ▸ hh))
            (hcsf' ▸ hc)
          exact Or.inr ⟨i, hfr' ▸ hi, hni⟩
      · exact ⟨fun v c hv2 hcv => hE1' v c (hvis' ▸ hv2) (hcsf' ▸ hcv),
          fun x hx v w htr => hE2' x (hvis' ▸ hx) v w htr⟩)
    (by
      intro st item rest hcore hX hpop hg hv
      obtain ⟨hE1, hE2⟩ := hX
      have hperm := (popNext_perm hpop).trans (dijkstraSpec_sort_perm g st.frontier)
      have hmem : ∀ j, j ∈ st.frontier ↔ j = item ∨ j ∈ rest := by
        intro j
        rw [← hperm.mem_iff, List.mem_cons]
      refine ⟨?_, hE2⟩
      intro v c hv2 hcv
      obtain ⟨i, hi, hni, hci⟩ := hE1 v c hv2 hcv
      rcases (hmem i).mp hi with rfl | hir
      · exact absurd (hni ▸ hv) hv2
      · exact ⟨i, hir, hni, hci⟩)
    hnr (fuel0 g s) (initState s 0 [(s, 0)])
    (loopMeasure_init_lt_fuel0 g s 0 [(s, 0)])
    (by
      refine ⟨?_, by simp [initState], by simp [initState], ?_,
        by simp [initState], by simp [initState]⟩
      · intro i hi
        rcases List.mem_singleton.mp hi with rfl
        exact Reach.refl g s
      · intro z hz hznv
        refine ⟨_, List.mem_singleton.mpr rfl, by simp [initState], ?_⟩
        obtain ⟨q, d, hw⟩ := hz
        exact ⟨q, d, hw⟩)
    (by
      constructor
      · intro v c hv hcv
        obtain ⟨rfl, rfl⟩ := lookupCost_singleton hcv
        exact ⟨_, List.mem_singleton.mpr rfl, rfl, le_refl 0⟩
      · intro x hx
        simp [initState] at hx)
  unfold dijkstra
  rw [hout]
  exact hQ

theorem trav_target_node {g : Graph} (hwf : WellFormed g) {u v : String} {w : ℚ}
    (h : Trav g u v w) : ∃ n ∈ g.nodes, n.id = v := by
  obtain ⟨e, he, hw, hor⟩ := h
  rcases hor with ⟨h1, h2⟩ | ⟨h1, h2, h3⟩
  · exact h2 ▸ (hwf e he).2
  · exact h3 ▸ (hwf e he).1

/-- The extra cost-map invariant carried by the A* run (keys of node ids that
are not yet visited are represented on the frontier). -/
def AstarCsfInv (g : Graph) (st : SearchState) : Prop :=
  (∀ v c, v ∉ st.visited → (∃ n ∈ g.nodes, n.id = v) →
    lookupCost st.costSoFar v = some c → ∃ i ∈ st.frontier, i.nodeId = v) ∧
  (∀ x ∈ st.visited, ∀ v w, Trav g x v w →
    ∃ c, lookupCost st.costSoFar v = some c)

theorem astar_unreachable (g : Graph) (s t ht : String) (hwf : WellFormed g)
    (hs : ∃ n ∈ g.nodes, n.id = s) (htl : ∃ n ∈ g.nodes, n.id = t)
    (hnr : ¬Reach g s t) : UnreachOut g s (astar g s t ht) := by
  obtain ⟨n, hn, hid⟩ := hs
  obtain ⟨sn, hsn⟩ : ∃ sn, g.nodes.find? (fun n => decide (n.id = s)) = some sn := by
    rw [← Option.isSome_iff_exists, List.find?_isSome]
    exact ⟨n, hn, decide_eq_true hid⟩
  obtain ⟨n', hn', hid'⟩ := htl
  obtain ⟨tn, htn⟩ : ∃ tn, g.nodes.find? (fun n => decide (n.id = t)) = some tn := by
    rw [← Option.isSome_iff_exists, List.find?_isSome]
    exact ⟨n', hn', decide_eq_true hid'⟩
  obtain ⟨out, hout, hQ⟩ := stepLoop_unreachable_generic (astarSpec g tn ht) g t s
    (astarSpec_sort_perm g tn ht) (astarSpec_one g tn ht) (AstarCsfInv g)
    (by
      intro csf vis2 item ns j hj
      obtain ⟨nw, hnw, hj', -⟩ := astar_expandAll_push hj
      exact ⟨nw, hnw, hj'⟩)
    (by
      intro st item rest hcore hX hpop hg hv
      have hperm := (popNext_perm hpop).trans (astarSpec_sort_perm g tn ht st.frontier)
      have hmem : ∀ j, j ∈ st.frontier ↔ j = item ∨ j ∈ rest := by
        intro j
        rw [← hperm.mem_iff, List.mem_cons]
      obtain ⟨hE1, hE2⟩ := hX
      have hvis' : (settleState (astarSpec g tn ht) g item rest st).visited =
          st.visited ++ [item.nodeId] := rfl
      have hfr' : (settleState (astarSpec g tn ht) g item rest st).frontier =
          rest ++ (expandAll (astarSpec g tn ht) st.costSoFar
            (st.visited ++ [item.nodeId]) item (getNeighbors g item.nodeId)).2 := rfl
      have hcsf' : (settleState (astarSpec g tn ht) g item rest st).costSoFar =
          (expandAll (astarSpec g tn ht) st.costSoFar (st.visited ++ [item.nodeId])
            item (getNeighbors g item.nodeId)).1 := rfl
      have hpre : ∀ v c, v ∉ st.visited ++ [item.nodeId] →
          (∃ nd ∈ g.nodes, nd.id = v) → lookupCost st.costSoFar v = some c →
          ∃ i ∈ rest, i.nodeId = v := by
        intro v c hv2 hnd hcv
        have hv1 : v ∉ st.visited := fun h => hv2 (List.mem_append.mpr (Or.inl h))
        obtain ⟨i, hi, hni⟩ := hE1 v c hv1 hnd hcv
        rcases (hmem i).mp hi with rfl | hir
        · exact absurd (List.mem_append.mpr
            (Or.inr (List.mem_singleton.mpr hni.symm))) hv2
        · exact ⟨i, hir, hni⟩
      have hE1' : ∀ v c, v ∉ st.visited ++ [item.nodeId] →
          (∃ nd ∈ g.nodes, nd.id = v) →
          lookupCost (expandAll (astarSpec g tn ht) st.costSoFar
            (st.visited ++ [item.nodeId]) item (getNeighbors g item.nodeId)).1 v
            = some c →
          ∃ i ∈ rest ++ (expandAll (astarSpec g tn ht) st.costSoFar
            (st.visited ++ [item.nodeId]) item (getNeighbors g item.nodeId)).2,
            i.nodeId = v :=
        fun v c hv2 hnd hcv =>
          astar_expandAll_cover (fun v' c' hv' hn2 hc' => hpre v' c' hv' hn2 hc')
            v c hv2 hnd hcv
      have hE2' : ∀ x ∈ st.visited ++ [item.nodeId], ∀ v w, Trav g x v w →
          ∃ c, lookupCost (expandAll (astarSpec g tn ht) st.costSoFar
            (st.visited ++ [item.nodeId]) item (getNeighbors g item.nodeId)).1 v
            = some c := by
        intro x hx v w htr
        rcases List.mem_append.mp hx with hx1 | hx1
        · obtain ⟨c, hc⟩ := hE2 x hx1 v w htr
          obtain ⟨c', hc', -⟩ := astar_expandAll_keys hc
          exact ⟨c', hc'⟩
        · rcases List.mem_singleton.mp hx1 with rfl
          have hnb : (v, w) ∈ getNeighbors g item.nodeId :=
            mem_getNeighbors_iff.mpr htr
          obtain ⟨cv, hcv⟩ := astar_expandAll_nbr hnb
          exact ⟨cv, hcv⟩
      constructor
      · intro x hx v w htr
        obtain ⟨c, hc⟩ := hE2' x (hvis' ▸ hx) v w htr
        by_cases hvv : v ∈ (settleState (astarSpec g tn ht) g item rest st).visited
        · exact Or.inl hvv
        · obtain ⟨i, hi, hni⟩ := hE1' v c (fun hh => hvv (hvis' ▸ hh))
            (trav_target_node hwf htr) (hcsf' ▸ hc)
          exact Or.inr ⟨i, hfr' ▸ hi, hni⟩
      · exact ⟨fun v c hv2 hnd hcv => hE1' v c (hvis' ▸ hv2) hnd (hcsf' ▸ hcv),
          fun x hx v w htr => hE2' x (hvis' ▸ hx) v w htr⟩)
    (by
      intro st item rest hcore hX hpop hg hv
      obtain ⟨hE1, hE2⟩ := hX
      have hperm := (popNext_perm hpop).trans (astarSpec_sort_perm g tn ht st.frontier)
      have hmem : ∀ j, j ∈ st.frontier ↔ j = item ∨ j ∈ rest := by
        intro j
        rw [← hperm.mem_iff, List.mem_cons]
      refine ⟨?_, hE2⟩
      intro v c hv2 hnd hcv
      obtain ⟨i, hi, hni⟩ := hE1 v c hv2 hnd hcv
      rcases (hmem i).mp hi with rfl | hir
      · exact absurd (hni ▸ hv) hv2
      · exact ⟨i, hir, hni⟩)
    hnr (fuel0 g s) (initState s (calculateHeuristic sn tn ht) [(s, 0)])
    (loopMeasure_init_lt_fuel0 g s _ [(s, 0)])
    (by
      refine ⟨?_, by simp [initState], by simp [initState], ?_,
        by simp [initState], by simp [initState]⟩
      · intro i hi
        rcases List.mem_singleton.mp hi with rfl
        exact Reach.refl g s
      · intro z hz hznv
        refine ⟨_, List.mem_singleton.mpr rfl, by simp [initState], ?_⟩
        obtain ⟨q, d, hw⟩ := hz
        exact ⟨q, d, hw⟩)
    (by
      constructor
      · intro v c hv hnd hcv
        obtain ⟨rfl, rfl⟩ := lookupCost_singleton hcv
        exact ⟨_, List.mem_singleton.mpr rfl, rfl⟩
      · intro x hx
        simp [initState] at hx)
  unfold astar
  rw [hsn, htn]
  simp only [hout, Option.getD_some]
  exact hQ

/-- C5: for every algorithm, on a well-formed graph containing the start and
goal nodes, when the goal is unreachable from the start the returned result
has empty path, empty pathEdges, pathCost 0, and `nodesVisited` equal to the
number of ids reachable from the start (not the total node count), and the
step sink still receives a final terminal step with `currentNodeId = none` and
`isComplete = true`. -/
theorem c5_unreachable_goal (g : Graph) (s t ht : String) (hwf : WellFormed g)
    (hs : ∃ n ∈ g.nodes, n.id = s) (htl : ∃ n ∈ g.nodes, n.id = t)
    (hnr : ¬Reach g s t) :
    UnreachOut g s (bfs g s t) ∧ UnreachOut g s (dfs g s t) ∧
    UnreachOut g s (dijkstra g s t) ∧ UnreachOut g s (astar g s t ht) :=
  ⟨bfs_unreachable g s t hnr, dfs_unreachable g s t hnr,
   dijkstra_unreachable g s t hnr, astar_unreachable g s t ht hwf hs htl hnr⟩

theorem Walk.eq_or_step {g : Graph} {u v : String} {p : List String} {c : ℚ}
    (h : Walk g u v p c) : u = v ∨ ∃ x w, Trav g u x w := by
  cases h with
  | single => exact Or.inl rfl
  | cons htr hw => exact Or.inr ⟨_, _, htr⟩

theorem not_reach_twoGraph : ¬Reach twoGraph "a" "b" := by
  rintro ⟨p, c, hw⟩
  rcases hw.eq_or_step with heq | ⟨x, w, e, he, -⟩
  · exact absurd heq (by decide)
  · simp [twoGraph] at he

/-- Witness for `c5_unreachable_goal` on the edgeless two-node graph. -/
theorem c5_unreachable_goal_witness :
    UnreachOut twoGraph "a" (bfs twoGraph "a" "b") ∧
    UnreachOut twoGraph "a" (dfs twoGraph "a" "b") ∧
    UnreachOut twoGraph "a" (dijkstra twoGraph "a" "b") ∧
    UnreachOut twoGraph "a" (astar twoGraph "a" "b" "euclidean") :=
  c5_unreachable_goal twoGraph "a" "b" "euclidean"
    (by intro e he; simp [twoGraph] at he) (by decide) (by decide)
    not_reach_twoGraph

/-! ## C10: result/path/cost consistency -/

/-- The C10 consistency property of a finished run: `pathLength` is the node
count of `path`, and `pathCost` is the sum of the traversed edge weights along
`path` (`0` for the empty path), witnessed by a `Walk` from start to goal. -/
def ResultConsistent (g : Graph) (s t : String)
    (out : AlgorithmResult × List AlgorithmStepResult) : Prop :=
  out.1.pathLength = out.1.path.length ∧
  (out.1.path = [] → out.1.pathCost = 0) ∧
  (out.1.path ≠ [] → Walk g s t out.1.path out.1.pathCost)

/-- Items of a frontier all carry genuine walks from the start. -/
def ItemsSound (g : Graph) (s : String) (st : SearchState) : Prop :=
  ∀ i ∈ st.frontier, Walk g s i.nodeId i.path i.cost

theorem stepLoop_sound_generic (spec : AlgoSpec) (g : Graph) (t s : String)
    (hsort : ∀ l, (spec.sortFrontier l).Perm l)
    (hone : ∀ csf vis it nw, (spec.expandOne csf vis it nw).2.length ≤ 1)
    (hpush : ∀ st item rest, ItemsSound g s st →
      popNext spec.popBack (spec.sortFrontier st.frontier) = some (item, rest) →
      item.nodeId ≠ t → item.nodeId ∉ st.visited →
      ∀ j ∈ (expandAll spec st.costSoFar (st.visited ++ [item.nodeId]) item
        (getNeighbors g item.nodeId)).2, Walk g s j.nodeId j.path j.cost) :
    ∀ (fuel : ℕ) (st : SearchState), loopMeasure g s st < fuel →
      ItemsSound g s st →
      ∃ out, stepLoop spec g t fuel st = some out ∧ ResultConsistent g s t out := by
  have h := stepLoop_induction spec g t s (ItemsSound g s)
    (ResultConsistent g s t) hsort hone
    (by
      intro st hP hpop
      exact ⟨rfl, fun _ => rfl, fun hne => absurd rfl hne⟩)
    (by
      intro st item rest hP hpop hg
      have hitem : item ∈ st.frontier := by
        have hperm := (popNext_perm hpop).trans (hsort st.frontier)
        exact hperm.mem_iff.mp (List.mem_cons_self _ _)
      have hw := hP item hitem
      exact ⟨rfl, fun hnil => absurd hnil hw.ne_nil, fun _ => hg ▸ hw⟩)
    (by
      intro st item rest hP hpop hg hv i hi
      exact hP i ((popNext_perm hpop).trans (hsort st.frontier) |>.mem_iff.mp
        (List.mem_cons_of_mem _ hi)))
    (by
      intro st item rest hP hpop hg hv i hi
      have hperm := (popNext_perm hpop).trans (hsort st.frontier)
      rcases List.mem_append.mp hi with h1 | h1
      · exact hP i (hperm.mem_iff.mp (List.mem_cons_of_mem _ h1))
      · exact hpush st item rest hP hpop hg hv i h1)
  exact fun fuel st hm hP => h fuel st hm hP

theorem bfs_result_consistent (g : Graph) (s t : String) :
    ResultConsistent g s t (bfs g s t) := by
  obtain ⟨out, hout, hQ⟩ := stepLoop_sound_generic (bfsSpec g) g t s
    (bfsSpec_sort_perm g) (bfsSpec_one g)
    (by
      intro st item rest hP hpop hg hv j hj
      obtain ⟨nw, hnw, -, hj'⟩ := (mem_expandAll_bfsLike rfl).mp hj
      have hperm := (popNext_perm hpop).trans (bfsSpec_sort_perm g st.frontier)
      have hitem : item ∈ st.frontier := hperm.mem_iff.mp (List.mem_cons_self _ _)
      have hwalk := hP item hitem
      have htr : Trav g item.nodeId nw.1 nw.2 := mem_getNeighbors_iff.mp hnw
      rw [hj']
      exact hwalk.snoc htr)
    (fuel0 g s) (initState s 0 []) (loopMeasure_init_lt_fuel0 g s 0 [])
    (by
      intro i hi
      rcases List.mem_singleton.mp hi with rfl
      exact Walk.single s)
  unfold bfs
  rw [hout]
  exact hQ

theorem dfs_result_consistent (g : Graph) (s t : String) :
    ResultConsistent g s t (dfs g s t) := by
  obtain ⟨out, hout, hQ⟩ := stepLoop_sound_generic (dfsSpec g) g t s
    (dfsSpec_sort_perm g) (dfsSpec_one g)
    (by
      intro st item rest hP hpop hg hv j hj
      obtain ⟨nw, hnw, -, hj'⟩ := (mem_expandAll_bfsLike rfl).mp hj
      have hperm := (popNext_perm hpop).trans (dfsSpec_sort_perm g st.frontier)
      have hitem : item ∈ st.frontier := hperm.mem_iff.mp (List.mem_cons_self _ _)
      have hwalk := hP item hitem
      have htr : Trav g item.nodeId nw.1 nw.2 := mem_getNeighbors_iff.mp hnw
      rw [hj']
      exact hwalk.snoc htr)
    (fuel0 g s) (initState s 0 []) (loopMeasure_init_lt_fuel0 g s 0 [])
    (by
      intro i hi
      rcases List.mem_singleton.mp hi with rfl
      exact Walk.single s)
  unfold dfs
  rw [hout]
  exact hQ

theorem dijkstra_result_consistent (g : Graph) (s t : String) :
    ResultConsistent g s t (dijkstra g s t) := by
  obtain ⟨out, hout, hQ⟩ := stepLoop_sound_generic (dijkstraSpec g) g t s
    (dijkstraSpec_sort_perm g) (dijkstraSpec_one g)
    (by
      intro st item rest hP hpop hg hv j hj
      obtain ⟨nw, hnw, hj'⟩ := dijkstra_expandAll_push hj
      have hperm := (popNext_perm hpop).trans (dijkstraSpec_sort_perm g st.frontier)
      have hitem : item ∈ st.frontier := hperm.mem_iff.mp (List.mem_cons_self _ _)
      have hwalk := hP item hitem
      have htr : Trav g item.nodeId nw.1 nw.2 := mem_getNeighbors_iff.mp hnw
      rw [hj']
      exact hwalk.snoc htr)
    (fuel0 g s) (initState s 0 [(s, 0)]) (loopMeasure_init_lt_fuel0 g s 0 [(s, 0)])
    (by
      intro i hi
      rcases List.mem_singleton.mp hi with rfl
      exact Walk.single s)
  unfold dijkstra
  rw [hout]
  exact hQ

/-! ### A* soundness with non-negative weights -/

theorem popNext_false_eq {l rest : List QueueItem} {i : QueueItem}
    (h : popNext false l = some (i, rest)) : l = i :: rest := by
  cases l with
  | nil => simp [popNext] at h
  | cons x xs =>
      simp only [popNext, Bool.false_eq_true, if_false, Option.some.injEq,
        Prod.mk.injEq] at h
      rw [h.1, h.2]

theorem astar_pop_min {g : Graph} {tn : Node} {ht : String} {F rest : List QueueItem}
    {item : QueueItem}
    (hpop : popNext (astarSpec g tn ht).popBack
      ((astarSpec g tn ht).sortFrontier F) = some (item, rest)) :
    ∀ j ∈ F, item.priority ≤ j.priority := by
  intro j hj
  have hsorted : List.Sorted (fun a b : QueueItem => a.priority ≤ b.priority)
      ((astarSpec g tn ht).sortFrontier F) :=
    List.sorted_insertionSort _ _
  have heq : (astarSpec g tn ht).sortFrontier F = item :: rest :=
    popNext_false_eq hpop
  have hjm : j ∈ item :: rest := by
    rw [← heq]
    exact ((astarSpec_sort_perm g tn ht F).symm.mem_iff).mp hj
  rw [heq] at hsorted
  rcases List.mem_cons.mp hjm with rfl | hjr
  · exact le_refl _
  · exact (List.sorted_cons.mp hsorted).1 j hjr

theorem dijkstra_pop_min {g : Graph} {F rest : List QueueItem} {item : QueueItem}
    (hpop : popNext (dijkstraSpec g).popBack
      ((dijkstraSpec g).sortFrontier F) = some (item, rest)) :
    ∀ j ∈ F, item.cost ≤ j.cost := by
  intro j hj
  have hsorted : List.Sorted (fun a b : QueueItem => a.cost ≤ b.cost)
      ((dijkstraSpec g).sortFrontier F) :=
    List.sorted_insertionSort _ _
  have heq : (dijkstraSpec g).sortFrontier F = item :: rest :=
    popNext_false_eq hpop
  have hjm : j ∈ item :: rest := by
    rw [← heq]
    exact ((dijkstraSpec_sort_perm g F).symm.mem_iff).mp hj
  rw [heq] at hsorted
  rcases List.mem_cons.mp hjm with rfl | hjr
  · exact le_refl _
  · exact (List.sorted_cons.mp hsorted).1 j hjr

theorem getNeighbors_weight_nonneg {g : Graph}
    (hnn : ∀ e ∈ g.edges, 0 ≤ e.weight) {u : String} :
    ∀ nw ∈ getNeighbors g u, 0 ≤ nw.2 := by
  rintro ⟨v, w⟩ hnw
  obtain ⟨e, he, hw, -⟩ := mem_getNeighbors_iff.mp hnw
  exact hw ▸ hnn e he

/-- With a present, stable own-cost entry and non-negative weights, the A*
neighbor loop leaves the settled node's cost entry unchanged and pushes items
whose cost is that entry plus the edge weight, with priority cost + heuristic
of the found neighbor node. -/
theorem astar_expandAll_stable {g : Graph} {tn : Node} {ht : String}
    {vis : List String} {item : QueueItem} :
    ∀ {ns csf : List _} {cu : ℚ}, lookupCost csf item.nodeId = some cu →
      (∀ nw ∈ ns, 0 ≤ nw.2) →
      lookupCost (expandAll (astarSpec g tn ht) csf vis item ns).1 item.nodeId
        = some cu ∧
      ∀ j ∈ (expandAll (astarSpec g tn ht) csf vis item ns).2,
        ∃ nw ∈ ns, ∃ nd, g.nodes.find? (fun n => decide (n.id = nw.1)) = some nd ∧
          j = { nodeId := nw.1, path := item.path ++ [nw.1],
                pathEdges := extendPathEdges g item nw.1,
                cost := cu + nw.2,
                priority := cu + nw.2 + calculateHeuristic nd tn ht } := by
  intro ns
  induction ns with
  | nil =>
      intro csf cu hcu hpos
      exact ⟨hcu, by intro j hj; simp [expandAll] at hj⟩
  | cons nw0 rest ih =>
      intro csf cu hcu hpos
      have hw0 : 0 ≤ nw0.2 := hpos nw0 (List.mem_cons_self _ _)
      have hpos' : ∀ nw ∈ rest, 0 ≤ nw.2 :=
        fun nw h => hpos nw (List.mem_cons_of_mem _ h)
      simp only [expandAll, astarSpec_expandOne]
      unfold astarExpandOne
      simp only [hcu, Option.getD_some]
      by_cases hvu : nw0.1 = item.nodeId
      · -- a self-loop entry: non-negative weight means the push test fails
        have hcond : (match lookupCost csf nw0.1 with
            | none => true
            | some c => decide (cu + nw0.2 < c)) = false := by
          rw [hvu, hcu]
          simp only [decide_eq_false_iff_not, not_lt]
          linarith
        rw [hcond]
        simp only [if_false, Bool.false_eq_true]
        obtain ⟨h1, h2⟩ := ih hcu hpos'
        refine ⟨h1, ?_⟩
        intro j hj
        rcases List.mem_append.mp hj with hj1 | hj1
        · cases hj1
        · obtain ⟨nw, hnw, nd, hnd, hjeq⟩ := h2 j hj1
          exact ⟨nw, List.mem_cons_of_mem _ hnw, nd, hnd, hjeq⟩
      · split
        · -- pushed (or at least the cost entry is set) for a different id
          have hcu1 : lookupCost (setCost csf nw0.1 (cu + nw0.2)) item.nodeId
              = some cu := by
            rw [lookupCost_setCost_ne csf _ (fun hh => hvu hh.symm)]
            exact hcu
          split
          · rename_i nd0 hnd0
            obtain ⟨h1, h2⟩ := ih hcu1 hpos'
            refine ⟨h1, ?_⟩
            intro j hj
            rcases List.mem_append.mp hj with hj1 | hj1
            · rcases List.mem_singleton.mp hj1 with rfl
              exact ⟨nw0, List.mem_cons_self _ _, nd0, hnd0, rfl⟩
            · obtain ⟨nw, hnw, nd, hnd, hjeq⟩ := h2 j hj1
              exact ⟨nw, List.mem_cons_of_mem _ hnw, nd, hnd, hjeq⟩
          · obtain ⟨h1, h2⟩ := ih hcu1 hpos'
            refine ⟨h1, ?_⟩
            intro j hj
            rcases List.mem_append.mp hj with hj1 | hj1
            · cases hj1
            · obtain ⟨nw, hnw, nd, hnd, hjeq⟩ := h2 j hj1
              exact ⟨nw, List.mem_cons_of_mem _ hnw, nd, hnd, hjeq⟩
        · obtain ⟨h1, h2⟩ := ih hcu hpos'
          refine ⟨h1, ?_⟩
          intro j hj
          rcases List.mem_append.mp hj with hj1 | hj1
          · cases hj1
          · obtain ⟨nw, hnw, nd, hnd, hjeq⟩ := h2 j hj1
            exact ⟨nw, List.mem_cons_of_mem _ hnw, nd, hnd, hjeq⟩

/-- Companion bound: after the loop, every processed neighbor has a cost entry
bounded by the settled cost plus its weight. -/
theorem astar_expandAll_nbr_bound {g : Graph} {tn : Node} {ht : String}
    {vis : List String} {item : QueueItem} :
    ∀ {ns csf : List _} {cu : ℚ}, lookupCost csf item.nodeId = some cu →
      (∀ nw ∈ ns, 0 ≤ nw.2) →
      ∀ nw ∈ ns, ∃ cv,
        lookupCost (expandAll (astarSpec g tn ht) csf vis item ns).1 nw.1
          = some cv ∧ cv ≤ cu + nw.2 := by
  intro ns
  induction ns with
  | nil => intro csf cu _ _ nw h; cases h
  | cons nw0 rest ih =>
      intro csf cu hcu hpos nw hmem
      have hw0 : 0 ≤ nw0.2 := hpos nw0 (List.mem_cons_self _ _)
      have hpos' : ∀ nw ∈ rest, 0 ≤ nw.2 :=
        fun nw h => hpos nw (List.mem_cons_of_mem _ h)
      simp only [expandAll, astarSpec_expandOne]
      unfold astarExpandOne
      simp only [hcu, Option.getD_some]
      rcases List.mem_cons.mp hmem with rfl | hmem'
      · -- the head neighbor: its entry is at most cu + w afterwards
        by_cases hvu : nw.1 = item.nodeId
        · have hcond : (match lookupCost csf nw.1 with
              | none => true
              | some c => decide (cu + nw.2 < c)) = false := by
            rw [hvu, hcu]
            simp only [decide_eq_false_iff_not, not_lt]
            linarith
          rw [hcond]
          simp only [if_false, Bool.false_eq_true]
          obtain ⟨h1, -⟩ := astar_expandAll_stable hcu hpos'
          refine ⟨cu, ?_, by linarith⟩
          rw [← hvu] at h1
          exact h1
        · split
          · rename_i hcond
            have hset : lookupCost (setCost csf nw.1 (cu + nw.2)) nw.1
                = some (cu + nw.2) := lookupCost_setCost_self csf nw.1 _
            split
            · obtain ⟨c', hc', hle⟩ := astar_expandAll_keys hset
              exact ⟨c', hc', hle⟩
            · obtain ⟨c', hc', hle⟩ := astar_expandAll_keys hset
              exact ⟨c', hc', hle⟩
          · rename_i hcond
            rcases hl : lookupCost csf nw.1 with _ | c0
            · rw [hl] at hcond; simp at hcond
            · rw [hl] at hcond
              have hnlt : ¬cu + nw.2 < c0 := by
                intro hlt
                exact hcond (by simp [decide_eq_true hlt])
              obtain ⟨c', hc', hle⟩ := astar_expandAll_keys hl
              exact ⟨c', hc', le_trans hle (not_lt.mp hnlt)⟩
      · -- a later neighbor: recurse, keeping the stable own entry
        by_cases hvu : nw0.1 = item.nodeId
        · have hcond : (match lookupCost csf nw0.1 with
              | none => true
              | some c => decide (cu + nw0.2 < c)) = false := by
            rw [hvu, hcu]
            simp only [decide_eq_false_iff_not, not_lt]
            linarith
          rw [hcond]
          simp only [if_false, Bool.false_eq_true]
          exact ih hcu hpos' nw hmem'
        · split
          · have hcu1 : lookupCost (setCost csf nw0.1 (cu + nw0.2)) item.nodeId
                = some cu := by
              rw [lookupCost_setCost_ne csf _ (fun hh => hvu hh.symm)]
              exact hcu
            split
            · exact ih hcu1 hpos' nw hmem'
            · exact ih hcu1 hpos' nw hmem'
          · exact ih hcu hpos' nw hmem'

/-- Exact-cost frontier representation of unsettled cost entries is preserved
by the A* neighbor loop. -/
theorem astar_expandAll_cover_exact {g : Graph} {tn : Node} {ht : String}
    {vis : List String} {item : QueueItem} :
    ∀ {ns csf : List _} {F0 : List QueueItem},
      (∀ v c, v ∉ vis → (∃ n ∈ g.nodes, n.id = v) → lookupCost csf v = some c →
        ∃ i ∈ F0, i.nodeId = v ∧ i.cost = c) →
      ∀ v c, v ∉ vis → (∃ n ∈ g.nodes, n.id = v) →
        lookupCost (expandAll (astarSpec g tn ht) csf vis item ns).1 v = some c →
        ∃ i ∈ F0 ++ (expandAll (astarSpec g tn ht) csf vis item ns).2,
          i.nodeId = v ∧ i.cost = c := by
  intro ns
  induction ns with
  | nil =>
      intro csf F0 hpre v c hv hn hc
      obtain ⟨i, hi, hni, hci⟩ := hpre v c hv hn hc
      exact ⟨i, by simpa [expandAll] using hi, hni, hci⟩
  | cons nw0 rest ih =>
      intro csf F0 hpre v c hv hn hc
      simp only [expandAll, astarSpec_expandOne] at hc ⊢
      revert hc
      unfold astarExpandOne
      simp only
      split
      · split
        · rename_i neighborNode hfind
          intro hc
          set jq : QueueItem :=
            { nodeId := nw0.1, path := item.path ++ [nw0.1],
              pathEdges := extendPathEdges g item nw0.1,
              cost := (lookupCost csf item.nodeId).getD 0 + nw0.2,
              priority := (lookupCost csf item.nodeId).getD 0 + nw0.2 +
                calculateHeuristic neighborNode tn ht } with hjq
          have hpre' : ∀ v' c', v' ∉ vis → (∃ n ∈ g.nodes, n.id = v') →
              lookupCost (setCost csf nw0.1
                ((lookupCost csf item.nodeId).getD 0 + nw0.2)) v' = some c' →
              ∃ i ∈ F0 ++ [jq], i.nodeId = v' ∧ i.cost = c' := by
            intro v' c' hv' hn' hc'
            by_cases hvv : v' = nw0.1
            · subst hvv
              rw [lookupCost_setCost_self] at hc'
              cases hc'
              exact ⟨jq, List.mem_append.mpr (Or.inr (List.mem_singleton.mpr rfl)),
                rfl, rfl⟩
            · rw [lookupCost_setCost_ne csf _ hvv] at hc'
              obtain ⟨i, hi, hni, hci⟩ := hpre v' c' hv' hn' hc'
              exact ⟨i, List.mem_append.mpr (Or.inl hi), hni, hci⟩
          obtain ⟨i, hi, hni, hci⟩ := ih hpre' v c hv hn hc
          rcases List.mem_append.mp hi with h1 | h1
          · rcases List.mem_append.mp h1 with h2 | h2
            · exact ⟨i, List.mem_append.mpr (Or.inl h2), hni, hci⟩
            · rcases List.mem_singleton.mp h2 with rfl
              exact ⟨jq, List.mem_append.mpr (Or.inr (List.mem_append.mpr
                (Or.inl (List.mem_singleton.mpr rfl)))), hni, hci⟩
          · exact ⟨i, List.mem_append.mpr (Or.inr (List.mem_append.mpr (Or.inr h1))),
              hni, hci⟩
        · rename_i hfind
          intro hc
          have hpre' : ∀ v' c', v' ∉ vis → (∃ n ∈ g.nodes, n.id = v') →
              lookupCost (setCost csf nw0.1
                ((lookupCost csf item.nodeId).getD 0 + nw0.2)) v' = some c' →
              ∃ i ∈ F0, i.nodeId = v' ∧ i.cost = c' := by
            intro v' c' hv' hn' hc'
            by_cases hvv : v' = nw0.1
            · exfalso
              obtain ⟨n, hnn, hnid⟩ := hn'
              have hfound : ∃ n',
                  g.nodes.find? (fun nd => decide (nd.id = nw0.1)) = some n' := by
                rw [← Option.isSome_iff_exists, List.find?_isSome]
                exact ⟨n, hnn, decide_eq_true (hvv ▸ hnid)⟩
              obtain ⟨n', hn'2⟩ := hfound
              rw [hfind] at hn'2
              cases hn'2
            · rw [lookupCost_setCost_ne csf _ hvv] at hc'
              exact hpre v' c' hv' hn' hc'
          obtain ⟨i, hi, hni, hci⟩ := ih hpre' v c hv hn hc
          rcases List.mem_append.mp hi with h1 | h1
          · exact ⟨i, List.mem_append.mpr (Or.inl h1), hni, hci⟩
          · exact ⟨i, List.mem_append.mpr (Or.inr (List.mem_append.mpr (Or.inr h1))),
              hni, hci⟩
      · intro hc
        obtain ⟨i, hi, hni, hci⟩ := ih hpre v c hv hn hc
        rcases List.mem_append.mp hi with h1 | h1
        · exact ⟨i, List.mem_append.mpr (Or.inl h1), hni, hci⟩
        · exact ⟨i, List.mem_append.mpr (Or.inr (List.mem_append.mpr (Or.inr h1))),
            hni, hci⟩

/-- The A* frontier invariant implying result/path/cost consistency: items
carry genuine walks, their cost entries bound their costs, unsettled node-id
cost entries are achieved exactly by some frontier item, and priorities are
cost plus the heuristic of the item's node. -/
def AstarSound (g : Graph) (s : String) (tn : Node) (ht : String)
    (st : SearchState) : Prop :=
  (∀ i ∈ st.frontier, Walk g s i.nodeId i.path i.cost) ∧
  (∀ i ∈ st.frontier, ∃ c, lookupCost st.costSoFar i.nodeId = some c ∧
    c ≤ i.cost) ∧
  (∀ v c, v ∉ st.visited → (∃ n ∈ g.nodes, n.id = v) →
    lookupCost st.costSoFar v = some c →
    ∃ i ∈ st.frontier, i.nodeId = v ∧ i.cost = c) ∧
  (∀ i ∈ st.frontier, ∃ nd,
    g.nodes.find? (fun n => decide (n.id = i.nodeId)) = some nd ∧
    i.priority = i.cost + calculateHeuristic nd tn ht)

theorem astar_settle_sound {g : Graph} {s : String} {tn : Node} {ht : String}
    (hnn : ∀ e ∈ g.edges, 0 ≤ e.weight) :
    ∀ (st : SearchState) (item : QueueItem) (rest : List QueueItem),
      AstarSound g s tn ht st →
      popNext (astarSpec g tn ht).popBack
        ((astarSpec g tn ht).sortFrontier st.frontier) = some (item, rest) →
      item.nodeId ∉ st.visited →
      AstarSound g s tn ht (settleState (astarSpec g tn ht) g item rest st) := by
  intro st item rest hP hpop hv
  obtain ⟨hA, hB, hC, hD⟩ := hP
  have hperm := (popNext_perm hpop).trans (astarSpec_sort_perm g tn ht st.frontier)
  have hmem : ∀ j, j ∈ st.frontier ↔ j = item ∨ j ∈ rest := by
    intro j
    rw [← hperm.mem_iff, List.mem_cons]
  have hitem : item ∈ st.frontier := (hmem item).mpr (Or.inl rfl)
  obtain ⟨cu, hcu, hcule⟩ := hB item hitem
  obtain ⟨ndu, hndu, hpriu⟩ := hD item hitem
  have hunode : ∃ n ∈ g.nodes, n.id = item.nodeId := by
    have hp := List.find?_some hndu
    exact ⟨ndu, List.mem_of_find?_eq_some hndu, by simpa using hp⟩
  obtain ⟨imin, himin, hnim, hcim⟩ := hC item.nodeId cu hv hunode hcu
  have hple := astar_pop_min hpop imin himin
  obtain ⟨nd', hnd', hprim⟩ := hD imin himin
  rw [hnim] at hnd'
  rw [hndu] at hnd'
  have hndeq : nd' = ndu := by cases hnd'; rfl
  have hcost_eq : item.cost = cu := by
    have h1 : item.priority = item.cost + calculateHeuristic ndu tn ht := hpriu
    have h2 : imin.priority = cu + calculateHeuristic ndu tn ht := by
      rw [hprim, hcim, hndeq]
    have := hple
    rw [h1, h2] at this
    linarith
  have hcu' : lookupCost st.costSoFar item.nodeId = some item.cost := by
    rw [hcost_eq]
    exact hcu
  have hwpos : ∀ nw ∈ getNeighbors g item.nodeId, 0 ≤ nw.2 :=
    getNeighbors_weight_nonneg hnn
  obtain ⟨hstab, hchar⟩ := @astar_expandAll_stable g tn ht
    (st.visited ++ [item.nodeId]) item (getNeighbors g item.nodeId)
    st.costSoFar item.cost hcu' hwpos
  have hwalku := hA item hitem
  have hvis' : (settleState (astarSpec g tn ht) g item rest st).visited =
      st.visited ++ [item.nodeId] := rfl
  have hfr' : (settleState (astarSpec g tn ht) g item rest st).frontier =
      rest ++ (expandAll (astarSpec g tn ht) st.costSoFar
        (st.visited ++ [item.nodeId]) item (getNeighbors g item.nodeId)).2 := rfl
  have hcsf' : (settleState (astarSpec g tn ht) g item rest st).costSoFar =
      (expandAll (astarSpec g tn ht) st.costSoFar (st.visited ++ [item.nodeId])
        item (getNeighbors g item.nodeId)).1 := rfl
  refine ⟨?_, ?_, ?_, ?_⟩
  · -- (a) walks
    intro i hi
    rw [hfr'] at hi
    rcases List.mem_append.mp hi with h1 | h1
    · exact hA i ((hmem i).mpr (Or.inr h1))
    · obtain ⟨nw, hnw, nd, hnd, hjeq⟩ := hchar i h1
      have htr : Trav g item.nodeId nw.1 nw.2 := mem_getNeighbors_iff.mp hnw
      rw [hjeq]
      exact hwalku.snoc htr
  · -- (b) cost entries bound item costs
    intro i hi
    rw [hfr'] at hi
    rw [hcsf']
    rcases List.mem_append.mp hi with h1 | h1
    · obtain ⟨c, hc, hle⟩ := hB i ((hmem i).mpr (Or.inr h1))
      obtain ⟨c', hc', hle'⟩ := astar_expandAll_keys hc
      exact ⟨c', hc', le_trans hle' hle⟩
    · obtain ⟨nw, hnw, nd, hnd, hjeq⟩ := hchar i h1
      obtain ⟨cv, hcv, hcvle⟩ := astar_expandAll_nbr_bound hcu' hwpos nw hnw
      refine ⟨cv, ?_, ?_⟩
      · rw [hjeq]
        exact hcv
      · rw [hjeq]
        exact hcvle
  · -- (c) unsettled node-id entries achieved on the frontier
    intro v c hv2 hnd hc
    rw [hvis'] at hv2
    rw [hcsf'] at hc
    have hpre : ∀ v' c', v' ∉ st.visited ++ [item.nodeId] →
        (∃ n ∈ g.nodes, n.id = v') → lookupCost st.costSoFar v' = some c' →
        ∃ i ∈ rest, i.nodeId = v' ∧ i.cost = c' := by
      intro v' c' hv' hn' hc'
      have hv1 : v' ∉ st.visited := fun h => hv' (List.mem_append.mpr (Or.inl h))
      obtain ⟨i, hi, hni, hci⟩ := hC v' c' hv1 hn' hc'
      rcases (hmem i).mp hi with rfl | hir
      · exact absurd (List.mem_append.mpr
          (Or.inr (List.mem_singleton.mpr hni.symm))) hv'
      · exact ⟨i, hir, hni, hci⟩
    obtain ⟨i, hi, hni, hci⟩ := astar_expandAll_cover_exact hpre v c hv2 hnd hc
    exact ⟨i, hfr' ▸ hi, hni, hci⟩
  · -- (d) priorities are cost + heuristic
    intro i hi
    rw [hfr'] at hi
    rcases List.mem_append.mp hi with h1 | h1
    · exact hD i ((hmem i).mpr (Or.inr h1))
    · obtain ⟨nw, hnw, nd, hnd, hjeq⟩ := hchar i h1
      refine ⟨nd, ?_, ?_⟩
      · rw [hjeq]
        exact hnd
      · rw [hjeq]

theorem astar_result_consistent (g : Graph) (s t ht : String)
    (hnn : ∀ e ∈ g.edges, 0 ≤ e.weight) :
    ResultConsistent g s t (astar g s t ht) := by
  unfold astar
  cases hsn : g.nodes.find? (fun n => decide (n.id = s)) with
  | none =>
      cases htn : g.nodes.find? (fun n => decide (n.id = t)) <;>
        exact ⟨rfl, fun _ => rfl, fun h => absurd rfl h⟩
  | some sn =>
      cases htn : g.nodes.find? (fun n => decide (n.id = t)) with
      | none => exact ⟨rfl, fun _ => rfl, fun h => absurd rfl h⟩
      | some tn =>
          have h := stepLoop_induction (astarSpec g tn ht) g t s
            (AstarSound g s tn ht) (ResultConsistent g s t)
            (astarSpec_sort_perm g tn ht) (astarSpec_one g tn ht)
            (by
              intro st hP hpop
              exact ⟨rfl, fun _ => rfl, fun hne => absurd rfl hne⟩)
            (by
              intro st item rest hP hpop hg
              have hitem : item ∈ st.frontier := by
                have hperm := (popNext_perm hpop).trans
                  (astarSpec_sort_perm g tn ht st.frontier)
                exact hperm.mem_iff.mp (List.mem_cons_self _ _)
              have hw := hP.1 item hitem
              exact ⟨rfl, fun hnil => absurd hnil hw.ne_nil, fun _ => hg ▸ hw⟩)
            (by
              intro st item rest hP hpop hg hv
              obtain ⟨hA, hB, hC, hD⟩ := hP
              have hperm := (popNext_perm hpop).trans
                (astarSpec_sort_perm g tn ht st.frontier)
              have hmem : ∀ j, j ∈ st.frontier ↔ j = item ∨ j ∈ rest := by
                intro j
                rw [← hperm.mem_iff, List.mem_cons]
              refine ⟨?_, ?_, ?_, ?_⟩
              · intro i hi
                exact hA i ((hmem i).mpr (Or.inr hi))
              · intro i hi
                exact hB i ((hmem i).mpr (Or.inr hi))
              · intro v c hv2 hnd hc
                obtain ⟨i, hi, hni, hci⟩ := hC v c hv2 hnd hc
                rcases (hmem i).mp hi with rfl | hir
                · exact absurd (hni ▸ hv) hv2
                · exact ⟨i, hir, hni, hci⟩
              · intro i hi
                exact hD i ((hmem i).mpr (Or.inr hi)))
            (by
              intro st item rest hP hpop hg hv
              exact astar_settle_sound hnn st item rest hP hpop hv)
          obtain ⟨out, hout, hQ⟩ := h (fuel0 g s)
            (initState s (calculateHeuristic sn tn ht) [(s, 0)])
            (loopMeasure_init_lt_fuel0 g s _ [(s, 0)])
            (by
              refine ⟨?_, ?_, ?_, ?_⟩
              · intro i hi
                rcases List.mem_singleton.mp hi with rfl
                exact Walk.single s
              · intro i hi
                rcases List.mem_singleton.mp hi with rfl
                exact ⟨0, by simp [lookupCost], le_refl 0⟩
              · intro v c hv2 hnd hc
                obtain ⟨rfl, rfl⟩ := lookupCost_singleton hc
                exact ⟨_, List.mem_singleton.mpr rfl, rfl, rfl⟩
              · intro i hi
                rcases List.mem_singleton.mp hi with rfl
                exact ⟨sn, hsn, (zero_add _).symm⟩)
          simp only [hout, Option.getD_some]
          exact hQ

/-- C10 (amended): for every returned result, `pathLength` equals the node
count of `path` and `pathCost` equals the sum of the traversed edge weights
along `path` (0 when empty) — unconditionally for `bfs`, `dfs` and `dijkstra`,
and for `astar` provided edge weights are non-negative (see the
counterexample for why `astar` needs this). -/
theorem c10_result_consistency (g : Graph) (s t ht : String) :
    ResultConsistent g s t (bfs g s t) ∧ ResultConsistent g s t (dfs g s t) ∧
    ResultConsistent g s t (dijkstra g s t) ∧
    ((∀ e ∈ g.edges, 0 ≤ e.weight) → ResultConsistent g s t (astar g s t ht)) :=
  ⟨bfs_result_consistent g s t, dfs_result_consistent g s t,
   dijkstra_result_consistent g s t,
   fun hnn => astar_result_consistent g s t ht hnn⟩

/-- Witness for `c10_result_consistency` on the sample graph. -/
theorem c10_result_consistency_witness :
    ResultConsistent sampleGraph "n0" "n5" (bfs sampleGraph "n0" "n5") ∧
    ResultConsistent sampleGraph "n0" "n5" (dfs sampleGraph "n0" "n5") ∧
    ResultConsistent sampleGraph "n0" "n5" (dijkstra sampleGraph "n0" "n5") ∧
    ResultConsistent sampleGraph "n0" "n5" (astar sampleGraph "n0" "n5" "euclidean") := by
  obtain ⟨h1, h2, h3, h4⟩ :=
    c10_result_consistency sampleGraph "n0" "n5" "euclidean"
  exact ⟨h1, h2, h3, h4 (by decide)⟩

theorem Walk.pair_inv {g : Graph} {u t a b : String} {c : ℚ}
    (h : Walk g u t [a, b] c) : u = a ∧ t = b ∧ Trav g a b c := by
  cases h with
  | cons htr hw =>
      cases hw with
      | single =>
          refine ⟨rfl, rfl, ?_⟩
          simpa using htr
      | cons htr2 hw2 => cases hw2

def negI0 : QueueItem := { nodeId := "s", path := ["s"], pathEdges := [], cost := 0, priority := 0 }

def negJ1 : QueueItem := { nodeId := "s", path := ["s", "s"], pathEdges := ["e1"], cost := -1, priority := -1 }

def negJ2 : QueueItem := { nodeId := "g", path := ["s", "g"], pathEdges := ["e2"], cost := 4, priority := 4 }

def negStep1 : AlgorithmStepResult :=
  { currentNodeId := some "s", visited := ["s"], path := ["s"], pathEdges := [],
    frontier := [], isComplete := false }

def negSt0 : SearchState := initState "s" 0 [("s", 0)]

def negSt1 : SearchState :=
  { frontier := [negJ1, negJ2], visited := ["s"],
    costSoFar := [("s", -1), ("g", 4)], nodesVisited := 1, steps := [negStep1] }

def negSt2 : SearchState :=
  { frontier := [negJ2], visited := ["s"],
    costSoFar := [("s", -1), ("g", 4)], nodesVisited := 1, steps := [negStep1] }

theorem neg_astar_eval :
    astar negGraph "s" "g" "x" = goalOutput negJ2 [] negSt2 := by
  have hrun : astar negGraph "s" "g" "x" =
      (stepLoop (astarSpec negGraph (mkNode "g" 0 0) "x") negGraph "g" 12
        negSt0).getD (emptyResult, []) := rfl
  have hpop0 : popNext (astarSpec negGraph (mkNode "g" 0 0) "x").popBack
      ((astarSpec negGraph (mkNode "g" 0 0) "x").sortFrontier negSt0.frontier) =
      some (negI0, []) := rfl
  have hch : ∀ n m : Node, calculateHeuristic n m "x" = 0 := fun _ _ => rfl
  have hsettle : settleState (astarSpec negGraph (mkNode "g" 0 0) "x") negGraph
      negI0 [] negSt0 = negSt1 := by
    norm_num [settleState, expandAll, astarSpec, astarExpandOne, getNeighbors,
      adjacencyEntries, negGraph, mkNode, mkEdge, negSt0, negSt1, negI0, negJ1,
      negJ2, negStep1, initState, lookupCost, setCost, extendPathEdges,
      findEdge, findEdgePred, hch,
      eq_false (show ¬("s" = "g") from by decide),
      eq_false (show ¬("g" = "s") from by decide)] <;> decide
  have hpop1 : popNext (astarSpec negGraph (mkNode "g" 0 0) "x").popBack
      ((astarSpec negGraph (mkNode "g" 0 0) "x").sortFrontier negSt1.frontier) =
      some (negJ1, [negJ2]) := by
    norm_num [popNext, astarSpec, negSt1, negJ1, negJ2, List.insertionSort,
      List.orderedInsert]
  have hpop2 : popNext (astarSpec negGraph (mkNode "g" 0 0) "x").popBack
      ((astarSpec negGraph (mkNode "g" 0 0) "x").sortFrontier negSt2.frontier) =
      some (negJ2, []) := rfl
  rw [hrun]
  rw [show (12 : ℕ) = 11 + 1 from rfl,
      stepLoop_pop_settle hpop0 (by decide) (by decide), hsettle]
  rw [show (11 : ℕ) = 10 + 1 from rfl,
      stepLoop_pop_stale hpop1 (by decide) (by decide)]
  rw [show ({ negSt1 with frontier := [negJ2] } : SearchState) = negSt2 from rfl]
  rw [show (10 : ℕ) = 9 + 1 from rfl, stepLoop_pop_goal hpop2 (show negJ2.nodeId = "g" from rfl)]
  rfl

/-- Dijkstra's neighbor loop leaves a cost entry unchanged when every
relaxation that targets its key offers no strictly smaller cost. -/
theorem dijkstra_expandAll_stable {g : Graph} {vis : List String}
    {item : QueueItem} :
    ∀ {ns csf : List _} {v : String} {cv : ℚ}, lookupCost csf v = some cv →
      (∀ nw ∈ ns, nw.1 = v → cv ≤ item.cost + nw.2) →
      lookupCost (expandAll (dijkstraSpec g) csf vis item ns).1 v = some cv := by
  intro ns
  induction ns with
  | nil => intro csf v cv hcv _; exact hcv
  | cons nw0 rest ih =>
      intro csf v cv hcv hb
      simp only [expandAll, dijkstraSpec_expandOne]
      unfold dijkstraExpandOne
      simp only
      by_cases hvv : nw0.1 = v
      · have hlk : lookupCost csf nw0.1 = some cv := by rw [hvv]; exact hcv
        have hcond : (match lookupCost csf nw0.1 with
            | none => true
            | some c => decide (item.cost + nw0.2 < c)) = false := by
          rw [hlk]
          simp only [decide_eq_false_iff_not, not_lt]
          exact hb nw0 (List.mem_cons_self _ _) hvv
        rw [hcond]
        simp only [Bool.false_eq_true, if_false]
        exact ih hcv (fun nw h hv2 => hb nw (List.mem_cons_of_mem _ h) hv2)
      · split
        · have hcv1 : lookupCost (setCost csf nw0.1 (item.cost + nw0.2)) v
              = some cv := by
            rw [lookupCost_setCost_ne csf _ (fun hh => hvv hh.symm)]
            exact hcv
          exact ih hcv1 (fun nw h hv2 => hb nw (List.mem_cons_of_mem _ h) hv2)
        · exact ih hcv (fun nw h hv2 => hb nw (List.mem_cons_of_mem _ h) hv2)

/-- Every cost entry after Dijkstra's neighbor loop is either an old entry or
the settled item's cost plus the weight of one of its neighbors. -/
theorem dijkstra_expandAll_values {g : Graph} {vis : List String}
    {item : QueueItem} :
    ∀ {ns csf : List _} {v : String} {c : ℚ},
      lookupCost (expandAll (dijkstraSpec g) csf vis item ns).1 v = some c →
      lookupCost csf v = some c ∨ ∃ nw ∈ ns, nw.1 = v ∧ c = item.cost + nw.2 := by
  intro ns
  induction ns with
  | nil => intro csf v c h; exact Or.inl h
  | cons nw0 rest ih =>
      intro csf v c h
      simp only [expandAll, dijkstraSpec_expandOne] at h
      revert h
      unfold dijkstraExpandOne
      simp only
      split
      · intro h
        rcases ih h with h1 | h1
        · by_cases hvv : v = nw0.1
          · subst hvv
            rw [lookupCost_setCost_self] at h1
            cases h1
            exact Or.inr ⟨nw0, List.mem_cons_self _ _, rfl, rfl⟩
          · rw [lookupCost_setCost_ne csf _ hvv] at h1
            exact Or.inl h1
        · obtain ⟨nw, hnw, hv2, hc2⟩ := h1
          exact Or.inr ⟨nw, List.mem_cons_of_mem _ hnw, hv2, hc2⟩
      · intro h
        rcases ih h with h1 | h1
        · exact Or.inl h1
        · obtain ⟨nw, hnw, hv2, hc2⟩ := h1
          exact Or.inr ⟨nw, List.mem_cons_of_mem _ hnw, hv2, hc2⟩

/-- The cost-aware chase: a walk from a settled node to an unsettled target
yields a frontier item whose cost is achieved by a walk and bounded along the
given walk, provided entries are walk-achievable, unsettled entries are
represented on the frontier, and settled nodes have relaxed all their edges. -/
theorem cost_chase {g : Graph} {s : String}
    (hnn : ∀ e ∈ g.edges, 0 ≤ e.weight)
    {F : List QueueItem} {csf : List (String × ℚ)} {vis : List String}
    (hrep : ∀ v c, v ∉ vis → lookupCost csf v = some c →
      ∃ i ∈ F, i.nodeId = v ∧ i.cost ≤ c)
    (hach : ∀ v c, lookupCost csf v = some c → ∃ pr, Walk g s v pr c)
    (hrelax : ∀ v ∈ vis, ∀ x w, Trav g v x w → ∀ cv,
      lookupCost csf v = some cv →
      ∃ cx, lookupCost csf x = some cx ∧ cx ≤ cv + w)
    {v z : String} {q : List String} {d : ℚ} (hw : Walk g v z q d) :
    ∀ cv, v ∈ vis → z ∉ vis → lookupCost csf v = some cv →
      ∃ i ∈ F, ∃ d₁ d₂, (∃ pr, Walk g s i.nodeId pr d₁) ∧
        (∃ q₂, Walk g i.nodeId z q₂ d₂) ∧ i.cost ≤ d₁ ∧ d₁ + d₂ ≤ cv + d := by
  induction hw with
  | single u => intro cv hv hz _; exact absurd hv hz
  | @cons u x t' p c w htr hw2 ih =>
      intro cv hv hz hcv
      obtain ⟨cx, hcx, hcxle⟩ := hrelax _ hv _ _ htr cv hcv
      by_cases hxv : x ∈ vis
      · obtain ⟨i, hi, d₁, d₂, hpr, hq₂, hic, hle⟩ := ih cx hxv hz hcx
        exact ⟨i, hi, d₁, d₂, hpr, hq₂, hic, by linarith⟩
      · obtain ⟨i, hi, hni, hile⟩ := hrep x cx hxv hcx
        obtain ⟨pr, hpr⟩ := hach x cx hcx
        refine ⟨i, hi, cx, c, ⟨pr, ?_⟩, ⟨p, ?_⟩, hile, by linarith⟩
        · rw [hni]; exact hpr
        · rw [hni]; exact hw2

/-- The Dijkstra optimality invariant: the goal is unsettled; frontier items
carry genuine walks; cost entries bound item costs and are walk-achievable;
unsettled entries are represented on the frontier; settled nodes carry
optimal entries and have relaxed all their edges; and every walk to an
unsettled node is covered by a frontier item with walk-split costs. -/
def DijkstraInv (g : Graph) (s t : String) (st : SearchState) : Prop :=
  t ∉ st.visited ∧
  (∀ i ∈ st.frontier, Walk g s i.nodeId i.path i.cost) ∧
  (∀ i ∈ st.frontier, ∃ c, lookupCost st.costSoFar i.nodeId = some c ∧
    c ≤ i.cost) ∧
  (∀ v c, v ∉ st.visited → lookupCost st.costSoFar v = some c →
    ∃ i ∈ st.frontier, i.nodeId = v ∧ i.cost ≤ c) ∧
  (∀ v c, lookupCost st.costSoFar v = some c → ∃ pr, Walk g s v pr c) ∧
  (∀ v ∈ st.visited, ∃ c, lookupCost st.costSoFar v = some c ∧
    ∀ q d, Walk g s v q d → c ≤ d) ∧
  (∀ v ∈ st.visited, ∀ x w, Trav g v x w → ∀ cv,
    lookupCost st.costSoFar v = some cv →
    ∃ cx, lookupCost st.costSoFar x = some cx ∧ cx ≤ cv + w) ∧
  (∀ z, z ∉ st.visited → ∀ p c, Walk g s z p c →
    ∃ i ∈ st.frontier, ∃ c₁ c₂, (∃ pr, Walk g s i.nodeId pr c₁) ∧
      (∃ q₂, Walk g i.nodeId z q₂ c₂) ∧ i.cost ≤ c₁ ∧ c₁ + c₂ ≤ c)

theorem dijkstra_stale_inv {g : Graph} {s t : String}
    (hnn : ∀ e ∈ g.edges, 0 ≤ e.weight) :
    ∀ (st : SearchState) (item : QueueItem) (rest : List QueueItem),
      DijkstraInv g s t st →
      popNext (dijkstraSpec g).popBack
        ((dijkstraSpec g).sortFrontier st.frontier) = some (item, rest) →
      item.nodeId ∈ st.visited →
      DijkstraInv g s t { st with frontier := rest } := by
  intro st item rest hP hpop hv
  obtain ⟨hD1, hD2, hD8, hD3, hD4, hD5, hD6, hCov⟩ := hP
  have hperm := (popNext_perm hpop).trans (dijkstraSpec_sort_perm g st.frontier)
  have hmem : ∀ j, j ∈ st.frontier ↔ j = item ∨ j ∈ rest := by
    intro j
    rw [← hperm.mem_iff, List.mem_cons]
  have hrep' : ∀ v c, v ∉ st.visited → lookupCost st.costSoFar v = some c →
      ∃ i ∈ rest, i.nodeId = v ∧ i.cost ≤ c := by
    intro v c hv2 hc
    obtain ⟨i, hi, hni, hci⟩ := hD3 v c hv2 hc
    rcases (hmem i).mp hi with rfl | hir
    · exact absurd (hni ▸ hv) hv2
    · exact ⟨i, hir, hni, hci⟩
  refine ⟨hD1, ?_, ?_, hrep', hD4, hD5, hD6, ?_⟩
  · intro i hi
    exact hD2 i ((hmem i).mpr (Or.inr hi))
  · intro i hi
    exact hD8 i ((hmem i).mpr (Or.inr hi))
  · intro z hz p c hwz
    obtain ⟨i, hi, c₁, c₂, ⟨pr, hpr⟩, ⟨q₂, hq₂⟩, hic, hle⟩ := hCov z hz p c hwz
    rcases (hmem i).mp hi with rfl | hir
    · obtain ⟨ov, hov, hopt⟩ := hD5 _ hv
      have hov_le : ov ≤ c₁ := hopt _ _ hpr
      obtain ⟨j, hj, d₁, d₂, hjpr, hjq, hjc, hjle⟩ :=
        cost_chase hnn hrep' hD4 hD6 hq₂ ov hv hz hov
      exact ⟨j, hj, d₁, d₂, hjpr, hjq, hjc, by linarith⟩
    · exact ⟨i, hir, c₁, c₂, ⟨pr, hpr⟩, ⟨q₂, hq₂⟩, hic, hle⟩

theorem dijkstra_settle_inv {g : Graph} {s t : String}
    (hnn : ∀ e ∈ g.edges, 0 ≤ e.weight) :
    ∀ (st : SearchState) (item : QueueItem) (rest : List QueueItem),
      DijkstraInv g s t st →
      popNext (dijkstraSpec g).popBack
        ((dijkstraSpec g).sortFrontier st.frontier) = some (item, rest) →
      item.nodeId ≠ t → item.nodeId ∉ st.visited →
      DijkstraInv g s t (settleState (dijkstraSpec g) g item rest st) := by
  intro st item rest hP hpop hg hv
  obtain ⟨hD1, hD2, hD8, hD3, hD4, hD5, hD6, hCov⟩ := hP
  have hperm := (popNext_perm hpop).trans (dijkstraSpec_sort_perm g st.frontier)
  have hmem : ∀ j, j ∈ st.frontier ↔ j = item ∨ j ∈ rest := by
    intro j
    rw [← hperm.mem_iff, List.mem_cons]
  have hitem : item ∈ st.frontier := (hmem item).mpr (Or.inl rfl)
  have hwalku := hD2 item hitem
  obtain ⟨cu, hcu, hcule⟩ := hD8 item hitem
  obtain ⟨pru, hpru⟩ := hD4 _ cu hcu
  have hopt_u : ∀ q d, Walk g s item.nodeId q d → item.cost ≤ d := by
    intro q d hwq
    obtain ⟨i, hi, c₁, c₂, ⟨pr, hpr⟩, ⟨q₂, hq₂⟩, hic, hle⟩ := hCov _ hv q d hwq
    have h2 := Walk.cost_nonneg hnn hq₂
    have h3 := dijkstra_pop_min hpop i hi
    linarith
  have hcueq : cu = item.cost := le_antisymm hcule (hopt_u _ _ hpru)
  have hwpos : ∀ nw ∈ getNeighbors g item.nodeId, 0 ≤ nw.2 :=
    getNeighbors_weight_nonneg hnn
  have hvis' : (settleState (dijkstraSpec g) g item rest st).visited =
      st.visited ++ [item.nodeId] := rfl
  have hfr' : (settleState (dijkstraSpec g) g item rest st).frontier =
      rest ++ (expandAll (dijkstraSpec g) st.costSoFar
        (st.visited ++ [item.nodeId]) item (getNeighbors g item.nodeId)).2 := rfl
  have hcsf' : (settleState (dijkstraSpec g) g item rest st).costSoFar =
      (expandAll (dijkstraSpec g) st.costSoFar (st.visited ++ [item.nodeId])
        item (getNeighbors g item.nodeId)).1 := rfl
  have hstabu : lookupCost (expandAll (dijkstraSpec g) st.costSoFar
      (st.visited ++ [item.nodeId]) item (getNeighbors g item.nodeId)).1
      item.nodeId = some item.cost := by
    apply dijkstra_expandAll_stable (hcueq ▸ hcu)
    intro nw hnw _
    have := hwpos nw hnw
    linarith
  have hstab_vis : ∀ v ∈ st.visited, ∀ ov, lookupCost st.costSoFar v = some ov →
      (∀ q d, Walk g s v q d → ov ≤ d) →
      lookupCost (expandAll (dijkstraSpec g) st.costSoFar
        (st.visited ++ [item.nodeId]) item (getNeighbors g item.nodeId)).1 v
        = some ov := by
    intro v hvv ov hov hopt
    apply dijkstra_expandAll_stable hov
    intro nw hnw hnwv
    have htr : Trav g item.nodeId nw.1 nw.2 := mem_getNeighbors_iff.mp hnw
    have hwv : Walk g s nw.1 (item.path ++ [nw.1]) (item.cost + nw.2) :=
      hwalku.snoc htr
    rw [hnwv] at hwv
    exact hopt _ _ hwv
  -- representation of unsettled entries on the new frontier
  have hpre : ∀ v c, v ∉ st.visited ++ [item.nodeId] →
      lookupCost st.costSoFar v = some c →
      ∃ i ∈ rest, i.nodeId = v ∧ i.cost ≤ c := by
    intro v c hv2 hc
    have hv1 : v ∉ st.visited := fun h => hv2 (List.mem_append.mpr (Or.inl h))
    obtain ⟨i, hi, hni, hci⟩ := hD3 v c hv1 hc
    rcases (hmem i).mp hi with rfl | hir
    · exact absurd (List.mem_append.mpr
        (Or.inr (List.mem_singleton.mpr hni.symm))) hv2
    · exact ⟨i, hir, hni, hci⟩
  have hrep' : ∀ v c, v ∉ st.visited ++ [item.nodeId] →
      lookupCost (expandAll (dijkstraSpec g) st.costSoFar
        (st.visited ++ [item.nodeId]) item (getNeighbors g item.nodeId)).1 v
        = some c →
      ∃ i ∈ rest ++ (expandAll (dijkstraSpec g) st.costSoFar
        (st.visited ++ [item.nodeId]) item (getNeighbors g item.nodeId)).2,
        i.nodeId = v ∧ i.cost ≤ c :=
    fun v c hv2 hc => dijkstra_expandAll_cover hpre v c hv2 hc
  have hach' : ∀ v c, lookupCost (expandAll (dijkstraSpec g) st.costSoFar
      (st.visited ++ [item.nodeId]) item (getNeighbors g item.nodeId)).1 v
      = some c → ∃ pr, Walk g s v pr c := by
    intro v c hc
    rcases dijkstra_expandAll_values hc with h1 | ⟨nw, hnw, hveq, hceq⟩
    · exact hD4 v c h1
    · have htr : Trav g item.nodeId nw.1 nw.2 := mem_getNeighbors_iff.mp hnw
      have hwv := hwalku.snoc htr
      rw [hveq] at hwv
      rw [hceq]
      exact ⟨_, hwv⟩
  have hrelax' : ∀ v ∈ st.visited ++ [item.nodeId], ∀ x w, Trav g v x w →
      ∀ cv, lookupCost (expandAll (dijkstraSpec g) st.costSoFar
        (st.visited ++ [item.nodeId]) item (getNeighbors g item.nodeId)).1 v
        = some cv →
      ∃ cx, lookupCost (expandAll (dijkstraSpec g) st.costSoFar
        (st.visited ++ [item.nodeId]) item (getNeighbors g item.nodeId)).1 x
        = some cx ∧ cx ≤ cv + w := by
    intro v hvv x w htr cv hcv
    rcases List.mem_append.mp hvv with hv1 | hv1
    · obtain ⟨ov, hov, hopt⟩ := hD5 v hv1
      have hov' := hstab_vis v hv1 ov hov hopt
      rw [hov'] at hcv
      cases hcv
      obtain ⟨cx, hcx, hcxle⟩ := hD6 v hv1 x w htr cv hov
      obtain ⟨cx', hcx', hcxle'⟩ := dijkstra_expandAll_keys hcx
      exact ⟨cx', hcx', by linarith⟩
    · rcases List.mem_singleton.mp hv1 with rfl
      rw [hstabu] at hcv
      cases hcv
      have hnw : (x, w) ∈ getNeighbors g item.nodeId := mem_getNeighbors_iff.mpr htr
      obtain ⟨cx, hcx, hcxle⟩ := dijkstra_expandAll_nbr hnw
      exact ⟨cx, hcx, hcxle⟩
  refine ⟨?_, ?_, ?_, ?_, ?_, ?_, ?_, ?_⟩
  · -- goal unsettled
    rw [hvis']
    intro hmem2
    rcases List.mem_append.mp hmem2 with h | h
    · exact hD1 h
    · exact hg (List.mem_singleton.mp h).symm
  · -- frontier items carry walks
    intro i hi
    rw [hfr'] at hi
    rcases List.mem_append.mp hi with h1 | h1
    · exact hD2 i ((hmem i).mpr (Or.inr h1))
    · obtain ⟨nw, hnw, hjeq⟩ := dijkstra_expandAll_push h1
      have htr : Trav g item.nodeId nw.1 nw.2 := mem_getNeighbors_iff.mp hnw
      rw [hjeq]
      exact hwalku.snoc htr
  · -- cost entries bound item costs
    intro i hi
    rw [hfr'] at hi
    rw [hcsf']
    rcases List.mem_append.mp hi with h1 | h1
    · obtain ⟨c, hc, hle⟩ := hD8 i ((hmem i).mpr (Or.inr h1))
      obtain ⟨c', hc', hle'⟩ := dijkstra_expandAll_keys hc
      exact ⟨c', hc', le_trans hle' hle⟩
    · obtain ⟨nw, hnw, hjeq⟩ := dijkstra_expandAll_push h1
      obtain ⟨cv, hcv, hcvle⟩ := dijkstra_expandAll_nbr hnw
      refine ⟨cv, ?_, ?_⟩
      · rw [hjeq]
        exact hcv
      · rw [hjeq]
        exact hcvle
  · -- unsettled entries are represented
    intro v c hv2 hc
    rw [hvis'] at hv2
    rw [hcsf'] at hc
    obtain ⟨i, hi, hni, hci⟩ := hrep' v c hv2 hc
    exact ⟨i, hfr' ▸ hi, hni, hci⟩
  · -- entries are walk-achievable
    intro v c hc
    rw [hcsf'] at hc
    exact hach' v c hc
  · -- settled entries are optimal
    intro v hvv
    rw [hvis'] at hvv
    rw [hcsf']
    rcases List.mem_append.mp hvv with hv1 | hv1
    · obtain ⟨ov, hov, hopt⟩ := hD5 v hv1
      exact ⟨ov, hstab_vis v hv1 ov hov hopt, hopt⟩
    · rcases List.mem_singleton.mp hv1 with rfl
      exact ⟨item.cost, hstabu, hopt_u⟩
  · -- settled nodes have relaxed their edges
    intro v hvv x w htr cv hcv
    rw [hvis'] at hvv
    rw [hcsf'] at hcv ⊢
    exact hrelax' v hvv x w htr cv hcv
  · -- covering
    intro z hz p c hwz
    rw [hvis'] at hz
    have hz1 : z ∉ st.visited := fun h => hz (List.mem_append.mpr (Or.inl h))
    obtain ⟨i, hi, c₁, c₂, ⟨pr, hpr⟩, ⟨q₂, hq₂⟩, hic, hle⟩ := hCov z hz1 p c hwz
    rcases (hmem i).mp hi with rfl | hir
    · have huvis : i.nodeId ∈ st.visited ++ [i.nodeId] :=
        List.mem_append.mpr (Or.inr (List.mem_singleton.mpr rfl))
      obtain ⟨j, hj, d₁, d₂, hjpr, hjq, hjc, hjle⟩ :=
        cost_chase hnn hrep' hach' hrelax' hq₂ i.cost huvis hz hstabu
      refine ⟨j, ?_, d₁, d₂, hjpr, hjq, hjc, by linarith⟩
      rw [hfr']
      exact hj
    · refine ⟨i, ?_, c₁, c₂, ⟨pr, hpr⟩, ⟨q₂, hq₂⟩, hic, hle⟩
      rw [hfr']
      exact List.mem_append.mpr (Or.inl hir)

/-- Dijkstra returns a genuine traversable path of minimal cost whenever the
goal is reachable and all edge weights are non-negative. -/
theorem dijkstra_minimal (g : Graph) (s t : String)
    (hnn : ∀ e ∈ g.edges, 0 ≤ e.weight) (hr : Reach g s t) :
    Walk g s t (dijkstra g s t).1.path (dijkstra g s t).1.pathCost ∧
    ∀ p c, Walk g s t p c → (dijkstra g s t).1.pathCost ≤ c := by
  have h := stepLoop_induction (dijkstraSpec g) g t s (DijkstraInv g s t)
    (fun out => Walk g s t out.1.path out.1.pathCost ∧
      ∀ p c, Walk g s t p c → out.1.pathCost ≤ c)
    (dijkstraSpec_sort_perm g) (dijkstraSpec_one g)
    (by
      intro st hP hpop
      exfalso
      cases hl : (dijkstraSpec g).sortFrontier st.frontier with
      | cons a as =>
          rw [hl] at hpop
          simp [popNext, dijkstraSpec] at hpop
      | nil =>
          have hperm := dijkstraSpec_sort_perm g st.frontier
          rw [hl] at hperm
          have hfr : st.frontier = [] := hperm.symm.eq_nil
          obtain ⟨p, c, hw⟩ := hr
          obtain ⟨hD1, -, -, -, -, -, -, hCov⟩ := hP
          obtain ⟨i, hi, -⟩ := hCov t hD1 p c hw
          rw [hfr] at hi
          exact absurd hi (List.not_mem_nil i))
    (by
      intro st item rest hP hpop hgoal
      obtain ⟨hD1, hD2, -, -, -, -, -, hCov⟩ := hP
      have hperm := (popNext_perm hpop).trans
        (dijkstraSpec_sort_perm g st.frontier)
      have hitem : item ∈ st.frontier :=
        hperm.mem_iff.mp (List.mem_cons_self _ _)
      constructor
      · exact hgoal ▸ hD2 item hitem
      · intro p c hw
        obtain ⟨i, hi, c₁, c₂, ⟨pr, hpr⟩, ⟨q₂, hq₂⟩, hic, hle⟩ :=
          hCov t hD1 p c hw
        have h2 := Walk.cost_nonneg hnn hq₂
        have h3 := dijkstra_pop_min hpop i hi
        show item.cost ≤ c
        linarith)
    (by
      intro st item rest hP hpop hg hv
      exact dijkstra_stale_inv hnn st item rest hP hpop hv)
    (by
      intro st item rest hP hpop hg hv
      exact dijkstra_settle_inv hnn st item rest hP hpop hg hv)
  obtain ⟨out, hout, hQ⟩ := h (fuel0 g s) (initState s 0 [(s, 0)])
    (loopMeasure_init_lt_fuel0 g s 0 [(s, 0)])
    (by
      refine ⟨?_, ?_, ?_, ?_, ?_, ?_, ?_, ?_⟩
      · exact List.not_mem_nil t
      · intro i hi
        rcases List.mem_singleton.mp hi with rfl
        exact Walk.single s
      · intro i hi
        rcases List.mem_singleton.mp hi with rfl
        exact ⟨0, by simp [lookupCost], le_refl 0⟩
      · intro v c hv hc
        obtain ⟨rfl, rfl⟩ := lookupCost_singleton hc
        exact ⟨_, List.mem_singleton.mpr rfl, rfl, le_refl 0⟩
      · intro v c hc
        obtain ⟨rfl, rfl⟩ := lookupCost_singleton hc
        exact ⟨[v], Walk.single v⟩
      · intro v hv
        exact absurd hv (List.not_mem_nil v)
      · intro v hv
        exact absurd hv (List.not_mem_nil v)
      · intro z hz p c hw
        exact ⟨_, List.mem_singleton.mpr rfl, 0, c, ⟨[s], Walk.single s⟩,
          ⟨p, hw⟩, le_refl 0, (zero_add c).le⟩)
  unfold dijkstra
  simp only [hout, Option.getD_some]
  exact hQ

theorem c10_counterexample :
    ¬ ResultConsistent negGraph "s" "g" (astar negGraph "s" "g" "x") := by
  intro h
  obtain ⟨h1, h2, h3⟩ := h
  have hpath : (astar negGraph "s" "g" "x").1.path = ["s", "g"] := by
    rw [neg_astar_eval]
    rfl
  have hcost : (astar negGraph "s" "g" "x").1.pathCost = 4 := by
    rw [neg_astar_eval]
    rfl
  have hne : (astar negGraph "s" "g" "x").1.path ≠ [] := by
    rw [hpath]
    simp
  have hw := h3 hne
  rw [hpath, hcost] at hw
  obtain ⟨-, -, htr⟩ := Walk.pair_inv hw
  obtain ⟨e, he, hwt, hor⟩ := htr
  simp only [negGraph, mkEdge, List.mem_cons, List.not_mem_nil, or_false] at he
  rcases he with rfl | rfl
  · rcases hor with ⟨hh1, hh2⟩ | ⟨hh1, hh2, hh3⟩
    · exact absurd hh2 (by decide)
    · exact absurd hh1 (by decide)
  · exact absurd hwt (by norm_num)

def sampI0 : QueueItem := { nodeId := "n0", path := ["n0"], pathEdges := [], cost := 0, priority := 0 }

def sampJA : QueueItem := { nodeId := "n1", path := ["n0", "n1"], pathEdges := ["e1"], cost := 2, priority := 2 }

def sampJB : QueueItem := { nodeId := "n3", path := ["n0", "n3"], pathEdges := ["e3"], cost := 4, priority := 4 }

def sampJC : QueueItem := { nodeId := "n2", path := ["n0", "n1", "n2"], pathEdges := ["e1", "e2"], cost := 5, priority := 5 }

def sampJD : QueueItem := { nodeId := "n5", path := ["n0", "n3", "n5"], pathEdges := ["e3", "e5"], cost := 10, priority := 10 }

def sampJE : QueueItem := { nodeId := "n4", path := ["n0", "n1", "n2", "n4"], pathEdges := ["e1", "e2", "e4"], cost := 10, priority := 10 }

def sampStep1 : AlgorithmStepResult :=
  { currentNodeId := some "n0", visited := ["n0"], path := ["n0"],
    pathEdges := [], frontier := [], isComplete := false }

def sampStep2 : AlgorithmStepResult :=
  { currentNodeId := some "n1", visited := ["n0", "n1"], path := ["n0", "n1"],
    pathEdges := ["e1"], frontier := ["n3"], isComplete := false }

def sampStep3 : AlgorithmStepResult :=
  { currentNodeId := some "n3", visited := ["n0", "n1", "n3"],
    path := ["n0", "n3"], pathEdges := ["e3"], frontier := ["n2"],
    isComplete := false }

def sampStep4 : AlgorithmStepResult :=
  { currentNodeId := some "n2", visited := ["n0", "n1", "n3", "n2"],
    path := ["n0", "n1", "n2"], pathEdges := ["e1", "e2"], frontier := ["n5"],
    isComplete := false }

def sampSt0 : SearchState := initState "n0" 0 [("n0", 0)]

def sampSt1 : SearchState :=
  { frontier := [sampJA, sampJB], visited := ["n0"],
    costSoFar := [("n0", 0), ("n1", 2), ("n3", 4)], nodesVisited := 1,
    steps := [sampStep1] }

def sampSt2 : SearchState :=
  { frontier := [sampJB, sampJC], visited := ["n0", "n1"],
    costSoFar := [("n0", 0), ("n1", 2), ("n3", 4), ("n2", 5)],
    nodesVisited := 2, steps := [sampStep1, sampStep2] }

def sampSt3 : SearchState :=
  { frontier := [sampJC, sampJD], visited := ["n0", "n1", "n3"],
    costSoFar := [("n0", 0), ("n1", 2), ("n3", 4), ("n2", 5), ("n5", 10)],
    nodesVisited := 3, steps := [sampStep1, sampStep2, sampStep3] }

def sampSt4 : SearchState :=
  { frontier := [sampJD, sampJE], visited := ["n0", "n1", "n3", "n2"],
    costSoFar := [("n0", 0), ("n1", 2), ("n3", 4), ("n2", 5), ("n5", 10),
                  ("n4", 10)],
    nodesVisited := 4, steps := [sampStep1, sampStep2, sampStep3, sampStep4] }

theorem samp_dijkstra_eval :
    dijkstra sampleGraph "n0" "n5" = goalOutput sampJD [sampJE] sampSt4 := by
  have hrun : dijkstra sampleGraph "n0" "n5" =
      (stepLoop (dijkstraSpec sampleGraph) sampleGraph "n5" 80 sampSt0).getD
        (emptyResult, []) := rfl
  have hpop0 : popNext (dijkstraSpec sampleGraph).popBack
      ((dijkstraSpec sampleGraph).sortFrontier sampSt0.frontier) =
      some (sampI0, []) := rfl
  have hset0 : settleState (dijkstraSpec sampleGraph) sampleGraph sampI0 []
      sampSt0 = sampSt1 := by
    norm_num [settleState, expandAll, dijkstraSpec, dijkstraExpandOne, getNeighbors,
      adjacencyEntries, sampleGraph, mkEdge, initState, lookupCost, setCost,
      extendPathEdges, findEdge, findEdgePred, sampI0, sampJA, sampJB, sampJC,
      sampJD, sampJE, sampStep1, sampStep2, sampStep3, sampStep4, sampSt0,
      sampSt1, sampSt2, sampSt3, sampSt4,
      eq_false (show ¬("n0" = "n1") from by decide),
      eq_false (show ¬("n0" = "n2") from by decide),
      eq_false (show ¬("n0" = "n3") from by decide),
      eq_false (show ¬("n0" = "n4") from by decide),
      eq_false (show ¬("n0" = "n5") from by decide),
      eq_false (show ¬("n1" = "n0") from by decide),
      eq_false (show ¬("n1" = "n2") from by decide),
      eq_false (show ¬("n1" = "n3") from by decide),
      eq_false (show ¬("n1" = "n4") from by decide),
      eq_false (show ¬("n1" = "n5") from by decide),
      eq_false (show ¬("n2" = "n0") from by decide),
      eq_false (show ¬("n2" = "n1") from by decide),
      eq_false (show ¬("n2" = "n3") from by decide),
      eq_false (show ¬("n2" = "n4") from by decide),
      eq_false (show ¬("n2" = "n5") from by decide),
      eq_false (show ¬("n3" = "n0") from by decide),
      eq_false (show ¬("n3" = "n1") from by decide),
      eq_false (show ¬("n3" = "n2") from by decide),
      eq_false (show ¬("n3" = "n4") from by decide),
      eq_false (show ¬("n3" = "n5") from by decide),
      eq_false (show ¬("n4" = "n0") from by decide),
      eq_false (show ¬("n4" = "n1") from by decide),
      eq_false (show ¬("n4" = "n2") from by decide),
      eq_false (show ¬("n4" = "n3") from by decide),
      eq_false (show ¬("n4" = "n5") from by decide),
      eq_false (show ¬("n5" = "n0") from by decide),
      eq_false (show ¬("n5" = "n1") from by decide),
      eq_false (show ¬("n5" = "n2") from by decide),
      eq_false (show ¬("n5" = "n3") from by decide),
      eq_false (show ¬("n5" = "n4") from by decide)] <;> decide
  have hpop1 : popNext (dijkstraSpec sampleGraph).popBack
      ((dijkstraSpec sampleGraph).sortFrontier sampSt1.frontier) =
      some (sampJA, [sampJB]) := by
    norm_num [popNext, dijkstraSpec, sampSt1, sampJA, sampJB,
      List.insertionSort, List.orderedInsert]
  have hset1 : settleState (dijkstraSpec sampleGraph) sampleGraph sampJA
      [sampJB] sampSt1 = sampSt2 := by
    norm_num [settleState, expandAll, dijkstraSpec, dijkstraExpandOne, getNeighbors,
      adjacencyEntries, sampleGraph, mkEdge, initState, lookupCost, setCost,
      extendPathEdges, findEdge, findEdgePred, sampI0, sampJA, sampJB, sampJC,
      sampJD, sampJE, sampStep1, sampStep2, sampStep3, sampStep4, sampSt0,
      sampSt1, sampSt2, sampSt3, sampSt4,
      eq_false (show ¬("n0" = "n1") from by decide),
      eq_false (show ¬("n0" = "n2") from by decide),
      eq_false (show ¬("n0" = "n3") from by decide),
      eq_false (show ¬("n0" = "n4") from by decide),
      eq_false (show ¬("n0" = "n5") from by decide),
      eq_false (show ¬("n1" = "n0") from by decide),
      eq_false (show ¬("n1" = "n2") from by decide),
      eq_false (show ¬("n1" = "n3") from by decide),
      eq_false (show ¬("n1" = "n4") from by decide),
      eq_false (show ¬("n1" = "n5") from by decide),
      eq_false (show ¬("n2" = "n0") from by decide),
      eq_false (show ¬("n2" = "n1") from by decide),
      eq_false (show ¬("n2" = "n3") from by decide),
      eq_false (show ¬("n2" = "n4") from by decide),
      eq_false (show ¬("n2" = "n5") from by decide),
      eq_false (show ¬("n3" = "n0") from by decide),
      eq_false (show ¬("n3" = "n1") from by decide),
      eq_false (show ¬("n3" = "n2") from by decide),
      eq_false (show ¬("n3" = "n4") from by decide),
      eq_false (show ¬("n3" = "n5") from by decide),
      eq_false (show ¬("n4" = "n0") from by decide),
      eq_false (show ¬("n4" = "n1") from by decide),
      eq_false (show ¬("n4" = "n2") from by decide),
      eq_false (show ¬("n4" = "n3") from by decide),
      eq_false (show ¬("n4" = "n5") from by decide),
      eq_false (show ¬("n5" = "n0") from by decide),
      eq_false (show ¬("n5" = "n1") from by decide),
      eq_false (show ¬("n5" = "n2") from by decide),
      eq_false (show ¬("n5" = "n3") from by decide),
      eq_false (show ¬("n5" = "n4") from by decide)] <;> decide
  have hpop2 : popNext (dijkstraSpec sampleGraph).popBack
      ((dijkstraSpec sampleGraph).sortFrontier sampSt2.frontier) =
      some (sampJB, [sampJC]) := by
    norm_num [popNext, dijkstraSpec, sampSt2, sampJB, sampJC,
      List.insertionSort, List.orderedInsert]
  have hset2 : settleState (dijkstraSpec sampleGraph) sampleGraph sampJB
      [sampJC] sampSt2 = sampSt3 := by
    norm_num [settleState, expandAll, dijkstraSpec, dijkstraExpandOne, getNeighbors,
      adjacencyEntries, sampleGraph, mkEdge, initState, lookupCost, setCost,
      extendPathEdges, findEdge, findEdgePred, sampI0, sampJA, sampJB, sampJC,
      sampJD, sampJE, sampStep1, sampStep2, sampStep3, sampStep4, sampSt0,
      sampSt1, sampSt2, sampSt3, sampSt4,
      eq_false (show ¬("n0" = "n1") from by decide),
      eq_false (show ¬("n0" = "n2") from by decide),
      eq_false (show ¬("n0" = "n3") from by decide),
      eq_false (show ¬("n0" = "n4") from by decide),
      eq_false (show ¬("n0" = "n5") from by decide),
      eq_false (show ¬("n1" = "n0") from by decide),
      eq_false (show ¬("n1" = "n2") from by decide),
      eq_false (show ¬("n1" = "n3") from by decide),
      eq_false (show ¬("n1" = "n4") from by decide),
      eq_false (show ¬("n1" = "n5") from by decide),
      eq_false (show ¬("n2" = "n0") from by decide),
      eq_false (show ¬("n2" = "n1") from by decide),
      eq_false (show ¬("n2" = "n3") from by decide),
      eq_false (show ¬("n2" = "n4") from by decide),
      eq_false (show ¬("n2" = "n5") from by decide),
      eq_false (show ¬("n3" = "n0") from by decide),
      eq_false (show ¬("n3" = "n1") from by decide),
      eq_false (show ¬("n3" = "n2") from by decide),
      eq_false (show ¬("n3" = "n4") from by decide),
      eq_false (show ¬("n3" = "n5") from by decide),
      eq_false (show ¬("n4" = "n0") from by decide),
      eq_false (show ¬("n4" = "n1") from by decide),
      eq_false (show ¬("n4" = "n2") from by decide),
      eq_false (show ¬("n4" = "n3") from by decide),
      eq_false (show ¬("n4" = "n5") from by decide),
      eq_false (show ¬("n5" = "n0") from by decide),
      eq_false (show ¬("n5" = "n1") from by decide),
      eq_false (show ¬("n5" = "n2") from by decide),
      eq_false (show ¬("n5" = "n3") from by decide),
      eq_false (show ¬("n5" = "n4") from by decide)] <;> decide
  have hpop3 : popNext (dijkstraSpec sampleGraph).popBack
      ((dijkstraSpec sampleGraph).sortFrontier sampSt3.frontier) =
      some (sampJC, [sampJD]) := by
    norm_num [popNext, dijkstraSpec, sampSt3, sampJC, sampJD,
      List.insertionSort, List.orderedInsert]
  have hset3 : settleState (dijkstraSpec sampleGraph) sampleGraph sampJC
      [sampJD] sampSt3 = sampSt4 := by
    norm_num [settleState, expandAll, dijkstraSpec, dijkstraExpandOne, getNeighbors,
      adjacencyEntries, sampleGraph, mkEdge, initState, lookupCost, setCost,
      extendPathEdges, findEdge, findEdgePred, sampI0, sampJA, sampJB, sampJC,
      sampJD, sampJE, sampStep1, sampStep2, sampStep3, sampStep4, sampSt0,
      sampSt1, sampSt2, sampSt3, sampSt4,
      eq_false (show ¬("n0" = "n1") from by decide),
      eq_false (show ¬("n0" = "n2") from by decide),
      eq_false (show ¬("n0" = "n3") from by decide),
      eq_false (show ¬("n0" = "n4") from by decide),
      eq_false (show ¬("n0" = "n5") from by decide),
      eq_false (show ¬("n1" = "n0") from by decide),
      eq_false (show ¬("n1" = "n2") from by decide),
      eq_false (show ¬("n1" = "n3") from by decide),
      eq_false (show ¬("n1" = "n4") from by decide),
      eq_false (show ¬("n1" = "n5") from by decide),
      eq_false (show ¬("n2" = "n0") from by decide),
      eq_false (show ¬("n2" = "n1") from by decide),
      eq_false (show ¬("n2" = "n3") from by decide),
      eq_false (show ¬("n2" = "n4") from by decide),
      eq_false (show ¬("n2" = "n5") from by decide),
      eq_false (show ¬("n3" = "n0") from by decide),
      eq_false (show ¬("n3" = "n1") from by decide),
      eq_false (show ¬("n3" = "n2") from by decide),
      eq_false (show ¬("n3" = "n4") from by decide),
      eq_false (show ¬("n3" = "n5") from by decide),
      eq_false (show ¬("n4" = "n0") from by decide),
      eq_false (show ¬("n4" = "n1") from by decide),
      eq_false (show ¬("n4" = "n2") from by decide),
      eq_false (show ¬("n4" = "n3") from by decide),
      eq_false (show ¬("n4" = "n5") from by decide),
      eq_false (show ¬("n5" = "n0") from by decide),
      eq_false (show ¬("n5" = "n1") from by decide),
      eq_false (show ¬("n5" = "n2") from by decide),
      eq_false (show ¬("n5" = "n3") from by decide),
      eq_false (show ¬("n5" = "n4") from by decide)] <;> decide
  have hpop4 : popNext (dijkstraSpec sampleGraph).popBack
      ((dijkstraSpec sampleGraph).sortFrontier sampSt4.frontier) =
      some (sampJD, [sampJE]) := by
    norm_num [popNext, dijkstraSpec, sampSt4, sampJD, sampJE,
      List.insertionSort, List.orderedInsert]
  rw [hrun]
  rw [show (80 : ℕ) = 79 + 1 from rfl,
      stepLoop_pop_settle hpop0 (by decide) (by decide), hset0]
  rw [show (79 : ℕ) = 78 + 1 from rfl,
      stepLoop_pop_settle hpop1 (by decide) (by decide), hset1]
  rw [show (78 : ℕ) = 77 + 1 from rfl,
      stepLoop_pop_settle hpop2 (by decide) (by decide), hset2]
  rw [show (77 : ℕ) = 76 + 1 from rfl,
      stepLoop_pop_settle hpop3 (by decide) (by decide), hset3]
  rw [show (76 : ℕ) = 75 + 1 from rfl,
      stepLoop_pop_goal hpop4 (show sampJD.nodeId = "n5" from rfl)]
  rfl

/-- C1 (amended): on every graph with non-negative edge weights and a goal
reachable from the start, `dijkstra` returns a traversable path whose
`pathCost` is the minimum cost over all traversable start-to-goal paths; in
particular, on the 6-node sample graph it returns path `[n0, n3, n5]` with
`pathCost = 10` and `pathLength = 3`.  (`astar`'s `pathCost` can differ from
it — see the counterexample — because the default Euclidean heuristic may
overestimate the remaining cost.) -/
theorem c1_dijkstra_minimal_cost (g : Graph) (s t : String)
    (hnn : ∀ e ∈ g.edges, 0 ≤ e.weight) (hr : Reach g s t) :
    (Walk g s t (dijkstra g s t).1.path (dijkstra g s t).1.pathCost ∧
     ∀ p c, Walk g s t p c → (dijkstra g s t).1.pathCost ≤ c) ∧
    ((dijkstra sampleGraph "n0" "n5").1.path = ["n0", "n3", "n5"] ∧
     (dijkstra sampleGraph "n0" "n5").1.pathCost = 10 ∧
     (dijkstra sampleGraph "n0" "n5").1.pathLength = 3) := by
  refine ⟨dijkstra_minimal g s t hnn hr, ?_, ?_, ?_⟩ <;>
    rw [samp_dijkstra_eval] <;> rfl

/-- Witness for `c1_dijkstra_minimal_cost` on the sample graph. -/
theorem c1_dijkstra_minimal_cost_witness :
    (∀ e ∈ sampleGraph.edges, 0 ≤ e.weight) ∧ Reach sampleGraph "n0" "n5" ∧
    ((Walk sampleGraph "n0" "n5" (dijkstra sampleGraph "n0" "n5").1.path
        (dijkstra sampleGraph "n0" "n5").1.pathCost ∧
      ∀ p c, Walk sampleGraph "n0" "n5" p c →
        (dijkstra sampleGraph "n0" "n5").1.pathCost ≤ c) ∧
     ((dijkstra sampleGraph "n0" "n5").1.path = ["n0", "n3", "n5"] ∧
      (dijkstra sampleGraph "n0" "n5").1.pathCost = 10 ∧
      (dijkstra sampleGraph "n0" "n5").1.pathLength = 3)) := by
  have hnn : ∀ e ∈ sampleGraph.edges, 0 ≤ e.weight := by decide
  have htr1 : Trav sampleGraph "n0" "n3" 4 :=
    ⟨mkEdge "e3" "n0" "n3" 4 EdgeType.default, by decide, rfl,
     Or.inl ⟨rfl, rfl⟩⟩
  have htr2 : Trav sampleGraph "n3" "n5" 6 :=
    ⟨mkEdge "e5" "n3" "n5" 6 EdgeType.default, by decide, rfl,
     Or.inl ⟨rfl, rfl⟩⟩
  have hr : Reach sampleGraph "n0" "n5" :=
    ⟨_, _, Walk.cons htr1 (Walk.cons htr2 (Walk.single "n5"))⟩
  exact ⟨hnn, hr, c1_dijkstra_minimal_cost sampleGraph "n0" "n5" hnn hr⟩

theorem ratSqrt_zero : ratSqrt 0 = 0 := by
  norm_num [ratSqrt, show natSqrt 0 = 0 from by decide,
    show natSqrt 1 = 1 from by decide, Rat.mkRat_eq_div]

theorem ratSqrt_one : ratSqrt 1 = 1 := by
  norm_num [ratSqrt, show natSqrt 1 = 1 from by decide, Rat.mkRat_eq_div]

theorem ratSqrt_twentyfive : ratSqrt 25 = 5 := by
  norm_num [ratSqrt, show Int.toNat 25 = 25 from rfl,
    show natSqrt 25 = 5 from by decide,
    show natSqrt 1 = 1 from by decide, Rat.mkRat_eq_div]

def ceDI0 : QueueItem := { nodeId := "s", path := ["s"], pathEdges := [], cost := 0, priority := 0 }

def ceDJ1 : QueueItem := { nodeId := "g", path := ["s", "g"], pathEdges := ["e1"], cost := 5, priority := 5 }

def ceDJ2 : QueueItem := { nodeId := "m", path := ["s", "m"], pathEdges := ["e2"], cost := 1, priority := 1 }

def ceDJ3 : QueueItem := { nodeId := "g", path := ["s", "m", "g"], pathEdges := ["e2", "e3"], cost := 2, priority := 2 }

def ceDStep1 : AlgorithmStepResult :=
  { currentNodeId := some "s", visited := ["s"], path := ["s"],
    pathEdges := [], frontier := [], isComplete := false }

def ceDStep2 : AlgorithmStepResult :=
  { currentNodeId := some "m", visited := ["s", "m"], path := ["s", "m"],
    pathEdges := ["e2"], frontier := ["g"], isComplete := false }

def ceDSt0 : SearchState := initState "s" 0 [("s", 0)]

def ceDSt1 : SearchState :=
  { frontier := [ceDJ1, ceDJ2], visited := ["s"],
    costSoFar := [("s", 0), ("g", 5), ("m", 1)], nodesVisited := 1,
    steps := [ceDStep1] }

def ceDSt2 : SearchState :=
  { frontier := [ceDJ1, ceDJ3], visited := ["s", "m"],
    costSoFar := [("s", 0), ("g", 2), ("m", 1)], nodesVisited := 2,
    steps := [ceDStep1, ceDStep2] }

theorem ce_dijkstra_eval :
    dijkstra ceGraph "s" "g" = goalOutput ceDJ3 [ceDJ1] ceDSt2 := by
  have hrun : dijkstra ceGraph "s" "g" =
      (stepLoop (dijkstraSpec ceGraph) ceGraph "g" 23 ceDSt0).getD
        (emptyResult, []) := rfl
  have hpop0 : popNext (dijkstraSpec ceGraph).popBack
      ((dijkstraSpec ceGraph).sortFrontier ceDSt0.frontier) =
      some (ceDI0, []) := rfl
  have hset0 : settleState (dijkstraSpec ceGraph) ceGraph ceDI0 [] ceDSt0 =
      ceDSt1 := by
    norm_num [settleState, expandAll, dijkstraSpec, dijkstraExpandOne,
      getNeighbors, adjacencyEntries, ceGraph, mkNode, mkEdge, initState,
      lookupCost, setCost, extendPathEdges, findEdge, findEdgePred, ceDI0,
      ceDJ1, ceDJ2, ceDStep1, ceDSt0, ceDSt1,
      eq_false (show ¬("s" = "m") from by decide),
      eq_false (show ¬("s" = "g") from by decide),
      eq_false (show ¬("m" = "s") from by decide),
      eq_false (show ¬("m" = "g") from by decide),
      eq_false (show ¬("g" = "s") from by decide),
      eq_false (show ¬("g" = "m") from by decide)] <;> decide
  have hpop1 : popNext (dijkstraSpec ceGraph).popBack
      ((dijkstraSpec ceGraph).sortFrontier ceDSt1.frontier) =
      some (ceDJ2, [ceDJ1]) := by
    norm_num [popNext, dijkstraSpec, ceDSt1, ceDJ1, ceDJ2,
      List.insertionSort, List.orderedInsert]
  have hset1 : settleState (dijkstraSpec ceGraph) ceGraph ceDJ2 [ceDJ1]
      ceDSt1 = ceDSt2 := by
    norm_num [settleState, expandAll, dijkstraSpec, dijkstraExpandOne,
      getNeighbors, adjacencyEntries, ceGraph, mkNode, mkEdge, initState,
      lookupCost, setCost, extendPathEdges, findEdge, findEdgePred, ceDJ1,
      ceDJ2, ceDJ3, ceDStep1, ceDStep2, ceDSt1, ceDSt2,
      eq_false (show ¬("s" = "m") from by decide),
      eq_false (show ¬("s" = "g") from by decide),
      eq_false (show ¬("m" = "s") from by decide),
      eq_false (show ¬("m" = "g") from by decide),
      eq_false (show ¬("g" = "s") from by decide),
      eq_false (show ¬("g" = "m") from by decide)] <;> decide
  have hpop2 : popNext (dijkstraSpec ceGraph).popBack
      ((dijkstraSpec ceGraph).sortFrontier ceDSt2.frontier) =
      some (ceDJ3, [ceDJ1]) := by
    norm_num [popNext, dijkstraSpec, ceDSt2, ceDJ1, ceDJ3,
      List.insertionSort, List.orderedInsert]
  rw [hrun]
  rw [show (23 : ℕ) = 22 + 1 from rfl,
      stepLoop_pop_settle hpop0 (by decide) (by decide), hset0]
  rw [show (22 : ℕ) = 21 + 1 from rfl,
      stepLoop_pop_settle hpop1 (by decide) (by decide), hset1]
  rw [show (21 : ℕ) = 20 + 1 from rfl,
      stepLoop_pop_goal hpop2 (show ceDJ3.nodeId = "g" from rfl)]
  rfl

def ceAI0 : QueueItem := { nodeId := "s", path := ["s"], pathEdges := [], cost := 0, priority := 1 }

def ceAJ1 : QueueItem := { nodeId := "g", path := ["s", "g"], pathEdges := ["e1"], cost := 5, priority := 5 }

def ceAJ2 : QueueItem := { nodeId := "m", path := ["s", "m"], pathEdges := ["e2"], cost := 1, priority := 6 }

def ceAStep1 : AlgorithmStepResult :=
  { currentNodeId := some "s", visited := ["s"], path := ["s"],
    pathEdges := [], frontier := [], isComplete := false }

def ceASt0 : SearchState := initState "s" 1 [("s", 0)]

def ceASt1 : SearchState :=
  { frontier := [ceAJ1, ceAJ2], visited := ["s"],
    costSoFar := [("s", 0), ("g", 5), ("m", 1)], nodesVisited := 1,
    steps := [ceAStep1] }

theorem ce_astar_eval :
    astar ceGraph "s" "g" "euclidean" = goalOutput ceAJ1 [ceAJ2] ceASt1 := by
  have hrun : astar ceGraph "s" "g" "euclidean" =
      (stepLoop (astarSpec ceGraph (mkNode "g" 1 0) "euclidean") ceGraph "g" 23
        (initState "s"
          (calculateHeuristic (mkNode "s" 0 0) (mkNode "g" 1 0) "euclidean")
          [("s", 0)])).getD (emptyResult, []) := rfl
  have hh : calculateHeuristic (mkNode "s" 0 0) (mkNode "g" 1 0) "euclidean"
      = 1 := by
    norm_num [calculateHeuristic, euclideanDistance, mkNode, ratSqrt_one]
  rw [hh] at hrun
  rw [show initState "s" 1 [("s", 0)] = ceASt0 from rfl] at hrun
  have hpop0 : popNext (astarSpec ceGraph (mkNode "g" 1 0) "euclidean").popBack
      ((astarSpec ceGraph (mkNode "g" 1 0) "euclidean").sortFrontier
        ceASt0.frontier) = some (ceAI0, []) := rfl
  have hset0 : settleState (astarSpec ceGraph (mkNode "g" 1 0) "euclidean")
      ceGraph ceAI0 [] ceASt0 = ceASt1 := by
    norm_num [settleState, expandAll, astarSpec, astarExpandOne,
      getNeighbors, adjacencyEntries, ceGraph, mkNode, mkEdge, initState,
      lookupCost, setCost, extendPathEdges, findEdge, findEdgePred,
      calculateHeuristic, euclideanDistance, ratSqrt_zero,
      ratSqrt_twentyfive, ceAI0, ceAJ1, ceAJ2, ceAStep1, ceASt0, ceASt1,
      eq_false (show ¬("s" = "m") from by decide),
      eq_false (show ¬("s" = "g") from by decide),
      eq_false (show ¬("m" = "s") from by decide),
      eq_false (show ¬("m" = "g") from by decide),
      eq_false (show ¬("g" = "s") from by decide),
      eq_false (show ¬("g" = "m") from by decide)] <;> decide
  have hpop1 : popNext (astarSpec ceGraph (mkNode "g" 1 0) "euclidean").popBack
      ((astarSpec ceGraph (mkNode "g" 1 0) "euclidean").sortFrontier
        ceASt1.frontier) = some (ceAJ1, [ceAJ2]) := by
    norm_num [popNext, astarSpec, ceASt1, ceAJ1, ceAJ2,
      List.insertionSort, List.orderedInsert]
  rw [hrun]
  rw [show (23 : ℕ) = 22 + 1 from rfl,
      stepLoop_pop_settle hpop0 (by decide) (by decide), hset0]
  rw [show (22 : ℕ) = 21 + 1 from rfl,
      stepLoop_pop_goal hpop1 (show ceAJ1.nodeId = "g" from rfl)]
  rfl

theorem c1_counterexample :
    (∀ e ∈ ceGraph.edges, 0 ≤ e.weight) ∧ Reach ceGraph "s" "g" ∧
    (dijkstra ceGraph "s" "g").1.pathCost = 2 ∧
    (astar ceGraph "s" "g" "euclidean").1.pathCost = 5 ∧
    (astar ceGraph "s" "g" "euclidean").1.pathCost ≠
      (dijkstra ceGraph "s" "g").1.pathCost := by
  refine ⟨by decide, ?_, ?_, ?_, ?_⟩
  · have htr : Trav ceGraph "s" "g" 5 :=
      ⟨mkEdge "e1" "s" "g" 5 EdgeType.default, by decide, rfl,
       Or.inl ⟨rfl, rfl⟩⟩
    exact ⟨_, _, Walk.cons htr (Walk.single "g")⟩
  · rw [ce_dijkstra_eval]
    rfl
  · rw [ce_astar_eval]
    rfl
  · rw [ce_dijkstra_eval, ce_astar_eval]
    norm_num [goalOutput, ceAJ1, ceDJ3]

/-- The hop-count chase for BFS: a walk from a settled node to an unsettled
target yields a frontier item whose path length plus remaining walk length is
bounded by the settled node's level plus the walk's length. -/
theorem hop_chase {g : Graph} {F : List QueueItem} {vis : List String}
    {L : String → ℕ}
    (hrelax : ∀ v ∈ vis, ∀ x w, Trav g v x w →
      (x ∈ vis ∧ L x ≤ L v + 1) ∨
      ∃ j ∈ F, j.nodeId = x ∧ j.path.length ≤ L v + 1)
    {v z : String} {q : List String} {d : ℚ} (hw : Walk g v z q d) :
    v ∈ vis → z ∉ vis →
    ∃ j ∈ F, ∃ q₂ c₂, Walk g j.nodeId z q₂ c₂ ∧
      j.path.length + q₂.length ≤ L v + q.length := by
  induction hw with
  | single u => intro hv hz; exact absurd hv hz
  | @cons u x t' p c w htr hw2 ih =>
      intro hv hz
      rcases hrelax u hv x w htr with ⟨hx1, hx2⟩ | ⟨j, hj, hjx, hjl⟩
      · obtain ⟨j, hj, q₂, c₂, hwj, hlen⟩ := ih hx1 hz
        refine ⟨j, hj, q₂, c₂, hwj, ?_⟩
        simp only [List.length_cons]
        omega
      · refine ⟨j, hj, p, c, ?_, ?_⟩
        · rw [hjx]; exact hw2
        · simp only [List.length_cons]
          omega

/-- The BFS hop-minimality invariant: the goal is unsettled; frontier items
carry genuine walks; frontier path lengths are non-decreasing (FIFO) and
spread over at most two consecutive values; every walk to an unsettled node
is covered by a frontier item with hop-split lengths; and a level function
bounds settled nodes below the frontier and is relaxed along settled edges. -/
def BfsInv (g : Graph) (s t : String) (st : SearchState) : Prop :=
  t ∉ st.visited ∧
  (∀ i ∈ st.frontier, Walk g s i.nodeId i.path i.cost) ∧
  List.Pairwise (fun a b : QueueItem => a.path.length ≤ b.path.length)
    st.frontier ∧
  (∀ i ∈ st.frontier, ∀ j ∈ st.frontier, i.path.length ≤ j.path.length + 1) ∧
  (∀ z, z ∉ st.visited → ∀ p c, Walk g s z p c →
    ∃ i ∈ st.frontier, ∃ q₂ c₂, Walk g i.nodeId z q₂ c₂ ∧
      i.path.length + q₂.length ≤ p.length + 1) ∧
  ∃ L : String → ℕ,
    (∀ v ∈ st.visited, ∀ i ∈ st.frontier, L v ≤ i.path.length) ∧
    (∀ v ∈ st.visited, ∀ x w, Trav g v x w →
      (x ∈ st.visited ∧ L x ≤ L v + 1) ∨
      ∃ j ∈ st.frontier, j.nodeId = x ∧ j.path.length ≤ L v + 1)

theorem bfs_stale_inv {g : Graph} {s t : String} :
    ∀ (st : SearchState) (item : QueueItem) (rest : List QueueItem),
      BfsInv g s t st →
      popNext (bfsSpec g).popBack ((bfsSpec g).sortFrontier st.frontier) =
        some (item, rest) →
      item.nodeId ∈ st.visited →
      BfsInv g s t { st with frontier := rest } := by
  intro st item rest hP hpop hv
  obtain ⟨hB1, hB2, hB3, hB4, hB5, L, hLf, hLr⟩ := hP
  have hfr : st.frontier = item :: rest := popNext_false_eq hpop
  have hmemf : ∀ j : QueueItem, j ∈ st.frontier ↔ j = item ∨ j ∈ rest := by
    intro j
    rw [hfr, List.mem_cons]
  have hLf' : ∀ v ∈ st.visited, ∀ i ∈ rest, L v ≤ i.path.length :=
    fun v hv2 i hi => hLf v hv2 i ((hmemf i).mpr (Or.inr hi))
  have hLr' : ∀ v ∈ st.visited, ∀ x w, Trav g v x w →
      (x ∈ st.visited ∧ L x ≤ L v + 1) ∨
      ∃ j ∈ rest, j.nodeId = x ∧ j.path.length ≤ L v + 1 := by
    intro v hv2 x w htr
    rcases hLr v hv2 x w htr with h1 | ⟨j, hj, hjx, hjl⟩
    · exact Or.inl h1
    · rcases (hmemf j).mp hj with rfl | hjr
      · refine Or.inl ⟨hjx ▸ hv, ?_⟩
        have h2 := hLf x (hjx ▸ hv) j ((hmemf j).mpr (Or.inl rfl))
        omega
      · exact Or.inr ⟨j, hjr, hjx, hjl⟩
  refine ⟨hB1, ?_, ?_, ?_, ?_, L, hLf', hLr'⟩
  · intro i hi
    exact hB2 i ((hmemf i).mpr (Or.inr hi))
  · rw [hfr] at hB3
    exact (List.pairwise_cons.mp hB3).2
  · intro i hi j hj
    exact hB4 i ((hmemf i).mpr (Or.inr hi)) j ((hmemf j).mpr (Or.inr hj))
  · intro z hz p c hwz
    obtain ⟨i, hi, q₂, c₂, hwq, hlen⟩ := hB5 z hz p c hwz
    rcases (hmemf i).mp hi with rfl | hir
    · have hLy : L i.nodeId ≤ i.path.length :=
        hLf i.nodeId hv i ((hmemf i).mpr (Or.inl rfl))
      obtain ⟨j, hj, qj, cj, hwj, hjlen⟩ := hop_chase hLr' hwq hv hz
      exact ⟨j, hj, qj, cj, hwj, by omega⟩
    · exact ⟨i, hir, q₂, c₂, hwq, hlen⟩

theorem bfs_settle_inv {g : Graph} {s t : String} :
    ∀ (st : SearchState) (item : QueueItem) (rest : List QueueItem),
      BfsInv g s t st →
      popNext (bfsSpec g).popBack ((bfsSpec g).sortFrontier st.frontier) =
        some (item, rest) →
      item.nodeId ≠ t → item.nodeId ∉ st.visited →
      BfsInv g s t (settleState (bfsSpec g) g item rest st) := by
  intro st item rest hP hpop hg hv
  obtain ⟨hB1, hB2, hB3, hB4, hB5, L, hLf, hLr⟩ := hP
  have hexp : (bfsSpec g).expandOne =
      fun csf vis it nw => bfsExpandOne g csf vis it nw := rfl
  have hfr : st.frontier = item :: rest := popNext_false_eq hpop
  have hmemf : ∀ j : QueueItem, j ∈ st.frontier ↔ j = item ∨ j ∈ rest := by
    intro j
    rw [hfr, List.mem_cons]
  have hitem : item ∈ st.frontier := (hmemf item).mpr (Or.inl rfl)
  have hwalku := hB2 item hitem
  rw [hfr] at hB3
  have hhead : ∀ r ∈ rest, item.path.length ≤ r.path.length :=
    (List.pairwise_cons.mp hB3).1
  have htail : List.Pairwise
      (fun a b : QueueItem => a.path.length ≤ b.path.length) rest :=
    (List.pairwise_cons.mp hB3).2
  have hLut : ∀ v ∈ st.visited, L v ≤ item.path.length :=
    fun v hv2 => hLf v hv2 item hitem
  have hvis' : (settleState (bfsSpec g) g item rest st).visited =
      st.visited ++ [item.nodeId] := rfl
  have hfr' : (settleState (bfsSpec g) g item rest st).frontier =
      rest ++ (expandAll (bfsSpec g) st.costSoFar
        (st.visited ++ [item.nodeId]) item (getNeighbors g item.nodeId)).2 := rfl
  have hlenpush : ∀ j ∈ (expandAll (bfsSpec g) st.costSoFar
      (st.visited ++ [item.nodeId]) item (getNeighbors g item.nodeId)).2,
      j.path.length = item.path.length + 1 := by
    intro j hj
    obtain ⟨nw, hnw, hnv, hjeq⟩ := (mem_expandAll_bfsLike hexp).mp hj
    rw [hjeq]
    simp
  have hLf' : ∀ v ∈ st.visited ++ [item.nodeId],
      ∀ i ∈ rest ++ (expandAll (bfsSpec g) st.costSoFar
        (st.visited ++ [item.nodeId]) item (getNeighbors g item.nodeId)).2,
      (if v = item.nodeId then item.path.length else L v) ≤ i.path.length := by
    intro v hv2 i hi
    rcases List.mem_append.mp hv2 with hv3 | hv3
    · have hvne : v ≠ item.nodeId := fun h => hv (h ▸ hv3)
      rw [if_neg hvne]
      rcases List.mem_append.mp hi with hir | hip
      · exact hLf v hv3 i ((hmemf i).mpr (Or.inr hir))
      · rw [hlenpush i hip]
        have := hLut v hv3
        omega
    · rcases List.mem_singleton.mp hv3 with rfl
      rw [if_pos rfl]
      rcases List.mem_append.mp hi with hir | hip
      · exact hhead i hir
      · rw [hlenpush i hip]
        omega
  have hLr' : ∀ v ∈ st.visited ++ [item.nodeId], ∀ x w, Trav g v x w →
      (x ∈ st.visited ++ [item.nodeId] ∧
        (if x = item.nodeId then item.path.length else L x) ≤
        (if v = item.nodeId then item.path.length else L v) + 1) ∨
      ∃ j ∈ rest ++ (expandAll (bfsSpec g) st.costSoFar
        (st.visited ++ [item.nodeId]) item (getNeighbors g item.nodeId)).2,
        j.nodeId = x ∧ j.path.length ≤
          (if v = item.nodeId then item.path.length else L v) + 1 := by
    intro v hv2 x w htr
    rcases List.mem_append.mp hv2 with hv3 | hv3
    · have hvne : v ≠ item.nodeId := fun h => hv (h ▸ hv3)
      rw [if_neg hvne]
      rcases hLr v hv3 x w htr with ⟨hx1, hx2⟩ | ⟨j, hj, hjx, hjl⟩
      · left
        refine ⟨List.mem_append.mpr (Or.inl hx1), ?_⟩
        have hxne : x ≠ item.nodeId := fun h => hv (h ▸ hx1)
        rw [if_neg hxne]
        exact hx2
      · rcases (hmemf j).mp hj with rfl | hjr
        · left
          refine ⟨List.mem_append.mpr
            (Or.inr (List.mem_singleton.mpr hjx.symm)), ?_⟩
          rw [if_pos hjx.symm]
          exact hjl
        · exact Or.inr ⟨j, List.mem_append.mpr (Or.inl hjr), hjx, hjl⟩
    · rcases List.mem_singleton.mp hv3 with rfl
      rw [if_pos rfl]
      by_cases hx2 : x ∈ st.visited ++ [item.nodeId]
      · left
        refine ⟨hx2, ?_⟩
        rcases List.mem_append.mp hx2 with hx3 | hx3
        · have hxne : x ≠ item.nodeId := fun h => hv (h ▸ hx3)
          rw [if_neg hxne]
          have := hLut x hx3
          omega
        · rcases List.mem_singleton.mp hx3 with rfl
          rw [if_pos rfl]
          omega
      · right
        have hnw : (x, w) ∈ getNeighbors g item.nodeId :=
          mem_getNeighbors_iff.mpr htr
        refine ⟨⟨x, item.path ++ [x], extendPathEdges g item x,
            item.cost + w, 0⟩, ?_, rfl, ?_⟩
        · exact List.mem_append.mpr (Or.inr
            ((mem_expandAll_bfsLike hexp).mpr ⟨(x, w), hnw, hx2, rfl⟩))
        · simp only [List.length_append, List.length_cons, List.length_nil]
          omega
  have hB5' : ∀ z, z ∉ st.visited ++ [item.nodeId] → ∀ p c, Walk g s z p c →
      ∃ i ∈ rest ++ (expandAll (bfsSpec g) st.costSoFar
        (st.visited ++ [item.nodeId]) item (getNeighbors g item.nodeId)).2,
      ∃ q₂ c₂, Walk g i.nodeId z q₂ c₂ ∧
        i.path.length + q₂.length ≤ p.length + 1 := by
    intro z hz p c hwz
    have hz1 : z ∉ st.visited := fun h => hz (List.mem_append.mpr (Or.inl h))
    obtain ⟨i, hi, q₂, c₂, hwq, hlen⟩ := hB5 z hz1 p c hwz
    rcases (hmemf i).mp hi with rfl | hir
    · have huvis : i.nodeId ∈ st.visited ++ [i.nodeId] :=
        List.mem_append.mpr (Or.inr (List.mem_singleton.mpr rfl))
      obtain ⟨j, hj, qj, cj, hwj, hjlen⟩ := hop_chase hLr' hwq huvis hz
      refine ⟨j, hj, qj, cj, hwj, ?_⟩
      rw [if_pos rfl] at hjlen
      omega
    · exact ⟨i, List.mem_append.mpr (Or.inl hir), q₂, c₂, hwq, hlen⟩
  refine ⟨?_, ?_, ?_, ?_, ?_,
    (fun v => if v = item.nodeId then item.path.length else L v), ?_, ?_⟩
  · rw [hvis']
    intro hmem2
    rcases List.mem_append.mp hmem2 with h | h
    · exact hB1 h
    · exact hg (List.mem_singleton.mp h).symm
  · intro i hi
    rw [hfr'] at hi
    rcases List.mem_append.mp hi with h1 | h1
    · exact hB2 i ((hmemf i).mpr (Or.inr h1))
    · obtain ⟨nw, hnw, hnv, hjeq⟩ := (mem_expandAll_bfsLike hexp).mp h1
      have htr : Trav g item.nodeId nw.1 nw.2 := mem_getNeighbors_iff.mp hnw
      rw [hjeq]
      exact hwalku.snoc htr
  · rw [hfr']
    refine List.pairwise_append.mpr ⟨htail, ?_, ?_⟩
    · refine List.pairwise_of_forall_mem_list ?_
      intro a ha b hb
      rw [hlenpush a ha, hlenpush b hb]
    · intro a ha b hb
      rw [hlenpush b hb]
      have := hB4 a ((hmemf a).mpr (Or.inr ha)) item hitem
      omega
  · intro i hi j hj
    rw [hfr'] at hi hj
    rcases List.mem_append.mp hi with h1 | h1 <;>
      rcases List.mem_append.mp hj with h2 | h2
    · exact hB4 i ((hmemf i).mpr (Or.inr h1)) j ((hmemf j).mpr (Or.inr h2))
    · rw [hlenpush j h2]
      have := hB4 i ((hmemf i).mpr (Or.inr h1)) item hitem
      omega
    · rw [hlenpush i h1]
      have := hhead j h2
      omega
    · rw [hlenpush i h1, hlenpush j h2]
      omega
  · rw [hvis', hfr']
    exact hB5'
  · rw [hvis', hfr']
    exact hLf'
  · rw [hvis', hfr']
    exact hLr'

/-- C2: for every graph and every start/goal pair with the goal reachable
from the start, `bfs` returns a traversable start-to-goal path whose node
count is minimal among all traversable start-to-goal paths, regardless of
edge weights. -/
theorem c2_bfs_minimal_hops (g : Graph) (s t : String) (hr : Reach g s t) :
    (∃ c, Walk g s t (bfs g s t).1.path c) ∧
    ∀ p c, Walk g s t p c → (bfs g s t).1.path.length ≤ p.length := by
  have h := stepLoop_induction (bfsSpec g) g t s (BfsInv g s t)
    (fun out => (∃ c, Walk g s t out.1.path c) ∧
      ∀ p c, Walk g s t p c → out.1.path.length ≤ p.length)
    (bfsSpec_sort_perm g) (bfsSpec_one g)
    (by
      intro st hP hpop
      exfalso
      cases hl : st.frontier with
      | nil =>
          obtain ⟨hB1, -, -, -, hB5, -⟩ := hP
          obtain ⟨p, c, hw⟩ := hr
          obtain ⟨i, hi, -⟩ := hB5 t hB1 p c hw
          rw [hl] at hi
          exact absurd hi (List.not_mem_nil i)
      | cons a as =>
          have hpop2 : popNext (bfsSpec g).popBack
              ((bfsSpec g).sortFrontier (a :: as)) = none := hl ▸ hpop
          simp [popNext, bfsSpec] at hpop2)
    (by
      intro st item rest hP hpop hgoal
      obtain ⟨hB1, hB2, hB3, hB4, hB5, -⟩ := hP
      have hfr : st.frontier = item :: rest := popNext_false_eq hpop
      have hitem : item ∈ st.frontier := by
        rw [hfr]
        exact List.mem_cons_self _ _
      constructor
      · exact ⟨item.cost, hgoal ▸ hB2 item hitem⟩
      · intro p c hw
        obtain ⟨i, hi, q₂, c₂, hwq, hlen⟩ := hB5 t hB1 p c hw
        have hq2 := hwq.length_pos
        have hheadm : item.path.length ≤ i.path.length := by
          rw [hfr] at hB3 hi
          rcases List.mem_cons.mp hi with rfl | hir
          · exact le_refl _
          · exact (List.pairwise_cons.mp hB3).1 i hir
        show item.path.length ≤ p.length
        omega)
    (by
      intro st item rest hP hpop hg hv
      exact bfs_stale_inv st item rest hP hpop hv)
    (by
      intro st item rest hP hpop hg hv
      exact bfs_settle_inv st item rest hP hpop hg hv)
  obtain ⟨out, hout, hQ⟩ := h (fuel0 g s) (initState s 0 [])
    (loopMeasure_init_lt_fuel0 g s 0 [])
    (by
      refine ⟨List.not_mem_nil t, ?_, ?_, ?_, ?_, fun _ => 0, ?_, ?_⟩
      · intro i hi
        rcases List.mem_singleton.mp hi with rfl
        exact Walk.single s
      · exact List.pairwise_singleton _ _
      · intro i hi j hj
        rcases List.mem_singleton.mp hi with rfl
        rcases List.mem_singleton.mp hj with rfl
        omega
      · intro z hz p c hw
        refine ⟨_, List.mem_singleton.mpr rfl, p, c, hw, ?_⟩
        simp only [List.length_singleton]
        omega
      · intro v hv
        exact absurd hv (List.not_mem_nil v)
      · intro v hv
        exact absurd hv (List.not_mem_nil v))
  unfold bfs
  simp only [hout, Option.getD_some]
  exact hQ

/-- Witness for `c2_bfs_minimal_hops` on the sample graph. -/
theorem c2_bfs_minimal_hops_witness :
    Reach sampleGraph "n0" "n5" ∧
    ((∃ c, Walk sampleGraph "n0" "n5" (bfs sampleGraph "n0" "n5").1.path c) ∧
     ∀ p c, Walk sampleGraph "n0" "n5" p c →
       (bfs sampleGraph "n0" "n5").1.path.length ≤ p.length) := by
  have htr1 : Trav sampleGraph "n0" "n3" 4 :=
    ⟨mkEdge "e3" "n0" "n3" 4 EdgeType.default, by decide, rfl,
     Or.inl ⟨rfl, rfl⟩⟩
  have htr2 : Trav sampleGraph "n3" "n5" 6 :=
    ⟨mkEdge "e5" "n3" "n5" 6 EdgeType.default, by decide, rfl,
     Or.inl ⟨rfl, rfl⟩⟩
  have hr : Reach sampleGraph "n0" "n5" :=
    ⟨_, _, Walk.cons htr1 (Walk.cons htr2 (Walk.single "n5"))⟩
  exact ⟨hr, c2_bfs_minimal_hops sampleGraph "n0" "n5" hr⟩

end Nodeviz
